import Mathlib

/-!
# A verification development for `lexical_and_syntactic_analyzer.cpp`

The program is a scanner, a recursive-descent parser and a tree-walking
interpreter for a small language of integer assignments and `print`
statements.  This file embeds the three phases as Lean functions and proves
properties of them.

Conventions of the embedding:

* the program text and every lexeme are `List Char`;
* `input[i]` on a `std::string` is `charAt input i`, which yields the
  terminating NUL at (and past) the end of the text;
* the C++ `int` is `Int` wrapped to 32 bits after `+`, `-`, `*` and `/`;
  an integer division by zero ends the run (`Err.divisionByZero`), and so
  does the division of `INT_MIN` by -1, whose quotient is no `int`
  (`Err.divisionOverflow`);
* every `exit` or abnormal end of the process is a constructor of `Err`, one
  per place in the source, and `Err.diagnostic` is what that place writes to
  standard output before it ends the run;
* standard output is the list of the lines written so far (every write of the
  program ends with `endl`, but for `Exp::print`, which `main` never calls and
  which is embedded as the characters it writes);
* the recursive functions of the parser take a recursion budget (`fuel`);
  `run` supplies a budget that depends on the length of the text, and that
  the parser never uses up (`parse_ne_outOfFuel`);
* a `Char` stands for a `char` of the C locale: the letters and digits are
  the ASCII ones, and NUL occurs only at the end of the text.
-/

namespace CCompiler

/-! ## Tokens -/

/-- Token kinds, `Token::Type`. -/
inductive TokenType
  | PLUS | MINUS | MUL | DIV | NUM | ERR | RP | LP | END | SC | ID | PRINT | ASSIGN
  deriving DecidableEq, Repr

/-- A token: its kind and its lexeme. -/
structure Token where
  type : TokenType
  lexema : List Char
  deriving DecidableEq, Repr

/-- Constructor `Token::Token(Type)`: the lexeme is empty. -/
def Token.ofType (type : TokenType) : Token := ⟨type, []⟩

/-- Constructor `Token::Token(Type, char c)`: the lexeme is the character. -/
def Token.ofChar (type : TokenType) (c : Char) : Token := ⟨type, [c]⟩

/-- Constructor `Token::Token(Type, source, first, last)`: the lexeme is
`source.substr(first, last)`, so `last` is a length. -/
def Token.ofSubstr (type : TokenType) (source : List Char) (first last : Nat) : Token :=
  ⟨type, (source.drop first).take last⟩

/-! ## Scanner -/

/-- The character that terminates a C string. -/
def NUL : Char := Char.ofNat 0

/-- The expression `input[i]`: the character at `i`, NUL at the end of the text. -/
def charAt (input : List Char) (i : Nat) : Char := input.getD i NUL

/-- State of `class Scanner`. -/
structure Scanner where
  input : List Char
  first : Nat
  current : Nat
  deriving DecidableEq, Repr

/-- Constructor `Scanner::Scanner(const char *)`. -/
def Scanner.new (input_string : List Char) : Scanner := ⟨input_string, 0, 0⟩

/-- The loop `while (p(input[current])) current++`.  The budget is the number
of characters left, which is enough because the loop stops at NUL. -/
def scanWhile (p : Char → Bool) (input : List Char) : Nat → Nat → Nat
  | 0, current => current
  | fuel + 1, current =>
    if p (charAt input current) then scanWhile p input fuel (current + 1) else current

/-- The test `strchr("+-*/();=", c)` for a character other than NUL. -/
def isPunctuation (c : Char) : Bool := "+-*/();=".toList.contains c

/-- The `switch` of `next_token` on one of the characters `+ - * / ( ) ; =`
(its `default` branch is not reachable after the `strchr` test). -/
def punctuationToken (c : Char) : Token :=
  if c = '+' then Token.ofChar .PLUS c
  else if c = '-' then Token.ofChar .MINUS c
  else if c = '*' then Token.ofChar .MUL c
  else if c = '/' then Token.ofChar .DIV c
  else if c = '(' then Token.ofChar .LP c
  else if c = ')' then Token.ofChar .RP c
  else if c = ';' then Token.ofChar .SC c
  else Token.ofChar .ASSIGN c

/-- The function `Scanner::next_token`: the token and the scanner after the call. -/
def Scanner.next_token (s : Scanner) : Token × Scanner :=
  let current := scanWhile (fun c => c == ' ') s.input (s.input.length - s.current) s.current
  if charAt s.input current == NUL then
    (Token.ofType .END, { s with current := current })
  else
    let c := charAt s.input current
    let first := current
    if c.isDigit then
      let current := scanWhile Char.isDigit s.input (s.input.length - (current + 1)) (current + 1)
      (Token.ofSubstr .NUM s.input first (current - first), ⟨s.input, first, current⟩)
    else if c.isAlpha then
      let current := scanWhile Char.isAlphanum s.input (s.input.length - (current + 1)) (current + 1)
      if "print".toList == (s.input.drop first).take (current - first) then
        (Token.ofSubstr .PRINT s.input first (current - first), ⟨s.input, first, current⟩)
      else
        (Token.ofSubstr .ID s.input first (current - first), ⟨s.input, first, current⟩)
    else if isPunctuation c then
      (punctuationToken c, ⟨s.input, first, current + 1⟩)
    else
      (Token.ofChar .ERR c, ⟨s.input, first, current + 1⟩)

/-- Tokens handed out by repeated calls of `next_token`, up to and including
the first `END`; the list is cut short when the budget runs out. -/
def Scanner.tokens : Nat → Scanner → List Token
  | 0, _ => []
  | fuel + 1, s =>
    if s.next_token.1.type = .END then [s.next_token.1]
    else s.next_token.1 :: Scanner.tokens fuel s.next_token.2

/-- The whole token sequence of a text, `END` included.  Every token but `END`
takes at least one character, so `length + 1` calls are enough. -/
def tokenize (text : List Char) : List Token :=
  Scanner.tokens (text.length + 1) (Scanner.new text)

/-! ## Abstract syntax -/

/-- The operators, `enum BinaryOp`. -/
inductive BinaryOp
  | PLUS | MINUS | MUL | DIV
  deriving DecidableEq, Repr

/-- Expressions: the subclasses of `Exp`. -/
inductive Exp
  | BinaryExp (left right : Exp) (op : BinaryOp)
  | NumberExp (value : Int)
  | IdExp (id : List Char)
  deriving DecidableEq, Repr

/-- Statements: the subclasses of `Stmt`. -/
inductive Stmt
  | AssignStm (id : List Char) (right_side : Exp)
  | PrintStm (e : Exp)
  deriving DecidableEq, Repr

/-- A program, `class Program`: the statement list `slist`. -/
structure Program where
  slist : List Stmt
  deriving DecidableEq, Repr

/-- Method `Program::add`: `slist.push_back(s)`. -/
def Program.add (p : Program) (s : Stmt) : Program := ⟨p.slist ++ [s]⟩

/-! ## Ends of the run -/

/-- The places where the process ends without reaching `return 0`. -/
inductive Err
  /-- In `Parser::advance`: the scanner returned an `ERR` token. -/
  | unrecognizedChar (lexema : List Char)
  /-- In `Parser::parse_stmt`: no `=` after the identifier. -/
  | assignExpected
  /-- In `Parser::parse_stmt`: no `(` after `print`. -/
  | leftParenExpected
  /-- In `Parser::parse_stmt`: no `)` after the expression of `print`. -/
  | rightParenExpected
  /-- In `Parser::parse_stmt`: the statement starts with neither an
  identifier nor `print`. -/
  | stmtNotFound
  /-- In `Parser::parse_factor`: no `)` after a parenthesised expression. -/
  | rightParenNotFound
  /-- In `Parser::parse_factor`: no factor starts here. -/
  | numberExpected
  /-- In `Parser::parse_factor`: `std::stoi` throws and nothing catches it. -/
  | stoiFailed
  /-- In `IdExp::eval`: the identifier is not a key of the memory. -/
  | undeclared (id : List Char)
  /-- In `BinaryExp::eval`: integer division by zero. -/
  | divisionByZero
  /-- In `BinaryExp::eval`: integer division of `INT_MIN` by -1. -/
  | divisionOverflow
  /-- In `main`: wrong number of arguments. -/
  | argumentCount
  deriving DecidableEq, Repr

/-- What the place writes to standard output before the process ends. -/
def Err.diagnostic : Err → List String
  | .unrecognizedChar lexema =>
    ["Error: Parsing an unrecognized character: " ++ String.mk lexema]
  | .assignExpected => []
  | .leftParenExpected => []
  | .rightParenExpected => []
  | .stmtNotFound => ["Error: Statement not found during Parsing"]
  | .rightParenNotFound => ["Error: right parenthesis not found during parsing"]
  | .numberExpected => ["Error: a number was expected during parsing"]
  | .stoiFailed => []
  | .undeclared id => ["Error: variable '" ++ String.mk id ++ "' not declared."]
  | .divisionByZero => []
  | .divisionOverflow => []
  | .argumentCount => ["Error: Incorrect number of arguments in console"]

/-- The argument of `exit`, or `none` when the process is killed instead
(uncaught exception, arithmetic trap). -/
def Err.exitCode : Err → Option Nat
  | .undeclared _ => some 1
  | .argumentCount => some 1
  | .stoiFailed => none
  | .divisionByZero => none
  | .divisionOverflow => none
  | _ => some 0

/-- The lexical error: an unrecognized character. -/
def Err.isLexical : Err → Bool
  | .unrecognizedChar _ => true
  | _ => false

/-- The syntax errors: the token sequence does not match the grammar. -/
def Err.isSyntax : Err → Bool
  | .assignExpected => true
  | .leftParenExpected => true
  | .rightParenExpected => true
  | .stmtNotFound => true
  | .rightParenNotFound => true
  | .numberExpected => true
  | _ => false

/-- The arithmetic traps: a division that the processor does not carry out.
The process is killed by a signal. -/
def Err.isArithmetic : Err → Bool
  | .divisionByZero => true
  | .divisionOverflow => true
  | _ => false

/-! ## Parser -/

/-- State of `class Parser`; `previous` is `none` for the null pointer. -/
structure Parser where
  scanner : Scanner
  current : Token
  previous : Option Token
  deriving DecidableEq, Repr

/-- Result of a parser function: a value and the parser after the call, or
the end of the run, or an exhausted recursion budget. -/
inductive PRes (α : Type)
  | ok (a : α) (p : Parser)
  | halt (e : Err)
  | outOfFuel
  deriving DecidableEq, Repr

/-- Sequencing of two parser steps. -/
def PRes.bind {α β : Type} (r : PRes α) (f : α → Parser → PRes β) : PRes β :=
  match r with
  | .ok a p => f a p
  | .halt e => .halt e
  | .outOfFuel => .outOfFuel

/-- Constructor `Parser::Parser`: takes the first token, without looking at
its kind. -/
def Parser.new (scanner : Scanner) : Parser :=
  ⟨scanner.next_token.2, scanner.next_token.1, none⟩

/-- The function `Parser::is_at_end`. -/
def Parser.is_at_end (p : Parser) : Bool := p.current.type == .END

/-- The function `Parser::check`. -/
def Parser.check (p : Parser) (token_type : TokenType) : Bool :=
  if p.is_at_end then false else p.current.type == token_type

/-- The function `Parser::advance`. -/
def Parser.advance (p : Parser) : PRes Bool :=
  if !p.is_at_end then
    let temp := p.current
    let q : Parser := ⟨p.scanner.next_token.2, p.scanner.next_token.1, some temp⟩
    if q.check .ERR then .halt (.unrecognizedChar q.current.lexema)
    else .ok true q
  else .ok false p

/-- The function `Parser::match`. -/
def Parser.match_token (p : Parser) (token_type : TokenType) : PRes Bool :=
  if p.check token_type then
    p.advance.bind fun _ q => .ok true q
  else .ok false p

/-- The condition `match(a) || match(b)` of the two operator loops. -/
def Parser.match_either (p : Parser) (a b : TokenType) : PRes Bool :=
  (p.match_token a).bind fun r q => if r then .ok true q else q.match_token b

/-- The expression `previous->lexema`. -/
def Parser.previous_lexema (p : Parser) : List Char :=
  match p.previous with
  | some t => t.lexema
  | none => []

/-- The operator chosen in the loop of `parse_expression`.  The loop body
runs only after `match` took a `PLUS` or a `MINUS`, so the last case, where the
source leaves `op` unset, is never reached. -/
def Parser.additive_op (p : Parser) : BinaryOp :=
  match p.previous with
  | some ⟨.PLUS, _⟩ => .PLUS
  | some ⟨.MINUS, _⟩ => .MINUS
  | _ => .PLUS

/-- The operator chosen in the loop of `parse_term`; as for `additive_op`, the
last case is never reached. -/
def Parser.multiplicative_op (p : Parser) : BinaryOp :=
  match p.previous with
  | some ⟨.MUL, _⟩ => .MUL
  | some ⟨.DIV, _⟩ => .DIV
  | _ => .MUL

/-- The largest `int`. -/
def INT_MAX : Int := 2147483647

/-- The smallest `int`. -/
def INT_MIN : Int := -2147483648

/-- The value of a run of decimal digits. -/
def digitsValue (digits : List Char) : Nat :=
  digits.foldl (fun acc d => 10 * acc + (d.toNat - '0'.toNat)) 0

/-- The call `std::stoi(lexema)` on a lexeme without sign or leading space:
the value of the leading digits; `none` when it throws (`invalid_argument`
without a leading digit, `out_of_range` above `INT_MAX`). -/
def stoi (lexema : List Char) : Option Int :=
  let digits := lexema.takeWhile Char.isDigit
  if digits.isEmpty then none
  else if (digitsValue digits : Int) ≤ INT_MAX then some (digitsValue digits : Int)
  else none

mutual

/-- The function `Parser::parse_expression`: `Exp ::= Term (('+' | '-') Term)*`. -/
def Parser.parse_expression : Nat → Parser → PRes Exp
  | 0, _ => .outOfFuel
  | fuel + 1, p =>
    (Parser.parse_term fuel p).bind fun left q => Parser.expression_loop fuel left q

/-- The `while` loop of `parse_expression`. -/
def Parser.expression_loop : Nat → Exp → Parser → PRes Exp
  | 0, _, _ => .outOfFuel
  | fuel + 1, left, p =>
    (p.match_either .PLUS .MINUS).bind fun r q =>
      if r then
        let op := q.additive_op
        (Parser.parse_term fuel q).bind fun right q2 =>
          Parser.expression_loop fuel (.BinaryExp left right op) q2
      else .ok left q

/-- The function `Parser::parse_term`: `Term ::= Factor (('*' | '/') Factor)*`. -/
def Parser.parse_term : Nat → Parser → PRes Exp
  | 0, _ => .outOfFuel
  | fuel + 1, p =>
    (Parser.parse_factor fuel p).bind fun left q => Parser.term_loop fuel left q

/-- The `while` loop of `parse_term`. -/
def Parser.term_loop : Nat → Exp → Parser → PRes Exp
  | 0, _, _ => .outOfFuel
  | fuel + 1, left, p =>
    (p.match_either .MUL .DIV).bind fun r q =>
      if r then
        let op := q.multiplicative_op
        (Parser.parse_factor fuel q).bind fun right q2 =>
          Parser.term_loop fuel (.BinaryExp left right op) q2
      else .ok left q

/-- The function `Parser::parse_factor`: `Factor ::= id | Num | '(' Exp ')'`. -/
def Parser.parse_factor : Nat → Parser → PRes Exp
  | 0, _ => .outOfFuel
  | fuel + 1, p =>
    (p.match_token .ID).bind fun r1 q1 =>
      if r1 then .ok (.IdExp q1.previous_lexema) q1
      else (q1.match_token .NUM).bind fun r2 q2 =>
        if r2 then
          match stoi q2.previous_lexema with
          | some v => .ok (.NumberExp v) q2
          | none => .halt .stoiFailed
        else (q2.match_token .LP).bind fun r3 q3 =>
          if r3 then
            (Parser.parse_expression fuel q3).bind fun e q4 =>
              (q4.match_token .RP).bind fun r4 q5 =>
                if r4 then .ok e q5 else .halt .rightParenNotFound
          else .halt .numberExpected

end

/-- The function `Parser::parse_stmt`:
`Stmt ::= id '=' Exp | 'print' '(' Exp ')'`. -/
def Parser.parse_stmt (fuel : Nat) (p : Parser) : PRes Stmt :=
  (p.match_token .ID).bind fun r1 q1 =>
    if r1 then
      let lex := q1.previous_lexema
      (q1.match_token .ASSIGN).bind fun r2 q2 =>
        if r2 then
          (Parser.parse_expression fuel q2).bind fun e q3 => .ok (.AssignStm lex e) q3
        else .halt .assignExpected
    else (q1.match_token .PRINT).bind fun r2 q2 =>
      if r2 then
        (q2.match_token .LP).bind fun r3 q3 =>
          if r3 then
            (Parser.parse_expression fuel q3).bind fun e q4 =>
              (q4.match_token .RP).bind fun r4 q5 =>
                if r4 then .ok (.PrintStm e) q5 else .halt .rightParenExpected
          else .halt .leftParenExpected
      else .halt .stmtNotFound

/-- The `while` loop of `parse_program`. -/
def Parser.program_loop : Nat → Program → Parser → PRes Program
  | 0, _, _ => .outOfFuel
  | fuel + 1, prog, p =>
    (p.match_token .SC).bind fun r q =>
      if r then
        (Parser.parse_stmt fuel q).bind fun s q2 => Parser.program_loop fuel (prog.add s) q2
      else .ok prog q

/-- The function `Parser::parse_program`: `Program ::= Stmt (';' Stmt)*`. -/
def Parser.parse_program (fuel : Nat) (p : Parser) : PRes Program :=
  (Parser.parse_stmt fuel p).bind fun s q => Parser.program_loop fuel (Program.add ⟨[]⟩ s) q

/-! ## Interpreter -/

/-- The map `Program::memory`, as a list of bindings with distinct keys. -/
abbrev Memory := List (List Char × Int)

/-- The call `memory.count(id)`. -/
def Memory.count (m : Memory) (id : List Char) : Nat :=
  if (m.lookup id).isSome then 1 else 0

/-- The assignment `memory[id] = value`: overwrites the binding of `id`, or
adds one. -/
def Memory.assign : Memory → List Char → Int → Memory
  | [], id, value => [(id, value)]
  | (k, w) :: rest, id, value =>
    if k = id then (k, value) :: rest else (k, w) :: Memory.assign rest id value

/-- The read `memory[id]`: the value bound to `id`; `operator[]` first adds
the binding `id ↦ 0` when there is none. -/
def Memory.index (m : Memory) (id : List Char) : Int × Memory :=
  match m.lookup id with
  | some v => (v, m)
  | none => (0, Memory.assign m id 0)

/-- The state the interpreter works on: the memory and standard output. -/
structure World where
  memory : Memory
  out : List String
  deriving DecidableEq, Repr

/-- Result of an interpreter step: a value and the state after it, or the end
of the run and the state at that moment. -/
inductive Res (α : Type)
  | ok (a : α) (w : World)
  | halt (e : Err) (w : World)
  deriving DecidableEq, Repr

/-- Sequencing of two interpreter steps. -/
def Res.bind {α β : Type} (r : Res α) (f : α → World → Res β) : Res β :=
  match r with
  | .ok a w => f a w
  | .halt e w => .halt e w

/-- A 32-bit `int` holding the low 32 bits of `z` in two's complement. -/
def wrapInt (z : Int) : Int := (z + 2147483648) % 4294967296 - 2147483648

/-- The functions `NumberExp::eval`, `IdExp::eval` and `BinaryExp::eval`.  The
native `v1 / v2` is not carried out for a zero divisor and for `INT_MIN / -1`:
the process is killed there. -/
def Exp.eval : Exp → World → Res Int
  | .NumberExp value, w => .ok value w
  | .IdExp id, w =>
    if w.memory.count id = 0 then
      .halt (.undeclared id) { w with out := w.out ++ (Err.undeclared id).diagnostic }
    else .ok (w.memory.index id).1 { w with memory := (w.memory.index id).2 }
  | .BinaryExp left right op, w =>
    (left.eval w).bind fun v1 w1 =>
      (right.eval w1).bind fun v2 w2 =>
        match op with
        | .PLUS => .ok (wrapInt (v1 + v2)) w2
        | .MINUS => .ok (wrapInt (v1 - v2)) w2
        | .MUL => .ok (wrapInt (v1 * v2)) w2
        | .DIV =>
          if v2 = 0 then .halt .divisionByZero w2
          else if v1 = INT_MIN ∧ v2 = -1 then .halt .divisionOverflow w2
          else .ok (wrapInt (v1.tdiv v2)) w2

/-- The functions `AssignStm::execute` and `PrintStm::execute`. -/
def Stmt.execute : Stmt → World → Res Unit
  | .AssignStm id right_side, w =>
    (right_side.eval w).bind fun value w1 =>
      .ok () { w1 with memory := Memory.assign w1.memory id value }
  | .PrintStm e, w =>
    (e.eval w).bind fun value w1 => .ok () { w1 with out := w1.out ++ [toString value] }

/-- The loop of `Program::interpreter` over a statement list. -/
def interpret : List Stmt → World → Res Unit
  | [], w => .ok () w
  | stmt :: rest, w => (stmt.execute w).bind fun _ w1 => interpret rest w1

/-- The function `Program::interpreter`. -/
def Program.interpreter (prog : Program) (w : World) : Res Unit := interpret prog.slist w

/-! ## Driver -/

/-- The state at the start of the run: empty memory, nothing written. -/
def World.start : World := ⟨[], []⟩

/-- Recursion budget that `run` gives the parser for a text. -/
def fuelFor (text : List Char) : Nat := 3 * text.length + 6

/-- The parser phase of `main`: scanner, parser and `parse_program`. -/
def parse (text : List Char) : PRes Program :=
  Parser.parse_program (fuelFor text) (Parser.new (Scanner.new text))

/-- The body of `main` after the argument check, on the program text.  The
parser never uses up the budget of `fuelFor` (theorem `parse_ne_outOfFuel`), so
the last case does not occur. -/
def run (text : List Char) : Res Unit :=
  match parse text with
  | .ok prog _ => prog.interpreter World.start
  | .halt e => .halt e { World.start with out := e.diagnostic }
  | .outOfFuel => .halt .stmtNotFound World.start

/-- The function `main` on the argument vector (program name included). -/
def main (arguments : List (List Char)) : Res Unit :=
  match arguments with
  | [_, text] => run text
  | _ => .halt .argumentCount { World.start with out := Err.argumentCount.diagnostic }

/-! ## Views used by the proofs -/

/-- What `next_token` does, told on the text that starts at the cursor: the
token, and the text that starts at the new cursor. -/
def lexHead (cs : List Char) : Token × List Char :=
  match cs.dropWhile (fun c => c == ' ') with
  | [] => (Token.ofType .END, [])
  | c :: r =>
    if c == NUL then (Token.ofType .END, c :: r)
    else if c.isDigit then
      (⟨.NUM, c :: r.takeWhile Char.isDigit⟩, r.dropWhile Char.isDigit)
    else if c.isAlpha then
      if "print".toList == c :: r.takeWhile Char.isAlphanum then
        (⟨.PRINT, c :: r.takeWhile Char.isAlphanum⟩, r.dropWhile Char.isAlphanum)
      else
        (⟨.ID, c :: r.takeWhile Char.isAlphanum⟩, r.dropWhile Char.isAlphanum)
    else if isPunctuation c then (punctuationToken c, r)
    else (Token.ofChar .ERR c, r)

/-- The text that starts at the cursor. -/
def Scanner.rest (s : Scanner) : List Char := s.input.drop s.current

/-- `Feeds s ts`: the calls of `next_token` from the state `s` hand out the
tokens `ts`, one per call; the last one is the first `END`. -/
inductive Feeds : Scanner → List Token → Prop
  | last (s : Scanner) (h : s.next_token.1.type = .END) : Feeds s [s.next_token.1]
  | more (s : Scanner) (ts : List Token) (h : s.next_token.1.type ≠ .END)
      (rest : Feeds s.next_token.2 ts) : Feeds s (s.next_token.1 :: ts)

/-- `p.Sees ts`: the tokens the parser `p` has still to read are `ts`: its
current token first, then what its scanner hands out. -/
def Parser.Sees (p : Parser) : List Token → Prop
  | [] => False
  | t :: rest => p.current = t ∧ if t.type = .END then rest = [] else Feeds p.scanner rest

/-! ## The grammar

Derivation trees of
```
Program    ::= Stmt (';' Stmt)*
Stmt       ::= Identifier '=' Expression | 'print' '(' Expression ')'
Expression ::= Term (('+' | '-') Term)*
Term       ::= Factor (('*' | '/') Factor)*
Factor     ::= Identifier | Number | '(' Expression ')'
```
with the token sequence a tree derives (`yield`) and the syntax tree it
stands for (`ast`). -/

/-- The operators `+` and `-` of `Expression`. -/
inductive AddOp
  | plus | minus
  deriving DecidableEq, Repr

/-- The operators `*` and `/` of `Term`. -/
inductive MulOp
  | times | over
  deriving DecidableEq, Repr

/-- The token of `+` or `-`. -/
def AddOp.token : AddOp → Token
  | .plus => Token.ofChar .PLUS '+'
  | .minus => Token.ofChar .MINUS '-'

/-- The operator of `+` or `-` in the syntax tree. -/
def AddOp.op : AddOp → BinaryOp
  | .plus => .PLUS
  | .minus => .MINUS

/-- The token of `*` or `/`. -/
def MulOp.token : MulOp → Token
  | .times => Token.ofChar .MUL '*'
  | .over => Token.ofChar .DIV '/'

/-- The operator of `*` or `/` in the syntax tree. -/
def MulOp.op : MulOp → BinaryOp
  | .times => .MUL
  | .over => .DIV

mutual

/-- Derivations of `Factor`. -/
inductive CFactor
  | id (lexema : List Char)
  | num (lexema : List Char)
  | paren (e : CExp)

/-- Derivations of `(('*' | '/') Factor)*`. -/
inductive CTermTail
  | nil
  | cons (op : MulOp) (f : CFactor) (rest : CTermTail)

/-- Derivations of `Term`. -/
inductive CTerm
  | mk (first : CFactor) (rest : CTermTail)

/-- Derivations of `(('+' | '-') Term)*`. -/
inductive CExpTail
  | nil
  | cons (op : AddOp) (t : CTerm) (rest : CExpTail)

/-- Derivations of `Expression`. -/
inductive CExp
  | mk (first : CTerm) (rest : CExpTail)

end

/-- Derivations of `Stmt`. -/
inductive CStmt
  | assign (lexema : List Char) (e : CExp)
  | print (e : CExp)

/-- Derivations of `Program`: a first statement, then the `';' Stmt` pairs. -/
structure CProgram where
  first : CStmt
  rest : List CStmt

mutual

/-- Tokens derived by a `Factor`. -/
def CFactor.yield : CFactor → List Token
  | .id lexema => [⟨.ID, lexema⟩]
  | .num lexema => [⟨.NUM, lexema⟩]
  | .paren e => Token.ofChar .LP '(' :: (e.yield ++ [Token.ofChar .RP ')'])

/-- Tokens derived by a `(('*' | '/') Factor)*`. -/
def CTermTail.yield : CTermTail → List Token
  | .nil => []
  | .cons op f rest => op.token :: (f.yield ++ rest.yield)

/-- Tokens derived by a `Term`. -/
def CTerm.yield : CTerm → List Token
  | .mk first rest => first.yield ++ rest.yield

/-- Tokens derived by a `(('+' | '-') Term)*`. -/
def CExpTail.yield : CExpTail → List Token
  | .nil => []
  | .cons op t rest => op.token :: (t.yield ++ rest.yield)

/-- Tokens derived by an `Expression`. -/
def CExp.yield : CExp → List Token
  | .mk first rest => first.yield ++ rest.yield

end

mutual

/-- Syntax tree of a `Factor`. -/
def CFactor.ast : CFactor → Exp
  | .id lexema => .IdExp lexema
  | .num lexema => .NumberExp (digitsValue lexema)
  | .paren e => e.ast

/-- Syntax tree of `left` followed by a `(('*' | '/') Factor)*`: the
operators nest to the left. -/
def CTermTail.ast : CTermTail → Exp → Exp
  | .nil, left => left
  | .cons op f rest, left => rest.ast (.BinaryExp left f.ast op.op)

/-- Syntax tree of a `Term`. -/
def CTerm.ast : CTerm → Exp
  | .mk first rest => rest.ast first.ast

/-- Syntax tree of `left` followed by a `(('+' | '-') Term)*`. -/
def CExpTail.ast : CExpTail → Exp → Exp
  | .nil, left => left
  | .cons op t rest, left => rest.ast (.BinaryExp left t.ast op.op)

/-- Syntax tree of an `Expression`. -/
def CExp.ast : CExp → Exp
  | .mk first rest => rest.ast first.ast

end

/-- Tokens derived by a `Stmt`. -/
def CStmt.yield : CStmt → List Token
  | .assign lexema e => ⟨.ID, lexema⟩ :: Token.ofChar .ASSIGN '=' :: e.yield
  | .print e =>
    ⟨.PRINT, "print".toList⟩ :: Token.ofChar .LP '(' :: (e.yield ++ [Token.ofChar .RP ')'])

/-- Statement node of a `Stmt`. -/
def CStmt.ast : CStmt → Stmt
  | .assign lexema e => .AssignStm lexema e.ast
  | .print e => .PrintStm e.ast

/-- Tokens derived by a `(';' Stmt)*`. -/
def yieldRest : List CStmt → List Token
  | [] => []
  | s :: rest => Token.ofChar .SC ';' :: (s.yield ++ yieldRest rest)

/-- Tokens derived by a `Program`. -/
def CProgram.yield (c : CProgram) : List Token := c.first.yield ++ yieldRest c.rest

/-- Statement list of a `Program`: one node per `Stmt`, in source order. -/
def CProgram.ast (c : CProgram) : Program := ⟨(c.first :: c.rest).map CStmt.ast⟩

/-- A token sequence is derivable from `Program`. -/
def Derivable (ts : List Token) : Prop := ∃ c : CProgram, c.yield = ts

/-- Every `NUM` token of the sequence is a literal that `std::stoi` reads
without throwing, and no token is `ERR`. -/
def Readable (ts : List Token) : Prop :=
  ∀ t ∈ ts, t.type ≠ .ERR ∧ (t.type = .NUM → stoi t.lexema = some (digitsValue t.lexema : Int))

/-- `Lands r v la rest`: the parser function that returned `r` has read its
tokens up to the token `la`.  When `la` is an `ERR` token, the run ended in
`advance` on reading it; otherwise `r` is the value `v`, and the parser has
`la :: rest` still to read. -/
def Lands {α : Type} (r : PRes α) (v : α) (la : Token) (rest : List Token) : Prop :=
  if la.type = .ERR then r = .halt (.unrecognizedChar la.lexema)
  else ∃ q : Parser, r = .ok v q ∧ q.Sees (la :: rest)

/-- `Lexes cs ts`: a scanner whose cursor stands before the text `cs` hands
out the tokens `ts`. -/
def Lexes (cs : List Char) (ts : List Token) : Prop :=
  ∀ s : Scanner, s.rest = cs → Feeds s ts

/-! ## Texts built from factors and operators -/

/-- A factor that is one token: a number literal or an identifier. -/
inductive Atom
  | number (digits : List Char)
  | identifier (name : List Char)
  deriving DecidableEq, Repr

/-- The text of the factor. -/
def Atom.text : Atom → List Char
  | .number digits => digits
  | .identifier name => name

/-- A number literal is a non-empty run of digits with a value of at most
`INT_MAX`; an identifier is a letter followed by letters and digits, and is
not the reserved word `print`. -/
def Atom.wellFormed : Atom → Bool
  | .number digits =>
    !digits.isEmpty && digits.all Char.isDigit && decide ((digitsValue digits : Int) ≤ INT_MAX)
  | .identifier name =>
    (match name with
      | [] => false
      | c :: cs => c.isAlpha && cs.all Char.isAlphanum) && name != "print".toList

/-- The node of the factor: `NumberExp` or `IdExp`. -/
def Atom.exp : Atom → Exp
  | .number digits => .NumberExp (digitsValue digits)
  | .identifier name => .IdExp name

/-- The token of the factor. -/
def Atom.token : Atom → Token
  | .number digits => ⟨.NUM, digits⟩
  | .identifier name => ⟨.ID, name⟩

/-- The derivation of the factor. -/
def Atom.factor : Atom → CFactor
  | .number digits => .num digits
  | .identifier name => .id name

/-- The function `Exp::bin_op_to_char`. -/
def Exp.bin_op_to_char : BinaryOp → Char
  | .PLUS => '+'
  | .MINUS => '-'
  | .MUL => '*'
  | .DIV => '/'

/-- The text `op1 f1 op2 f2 ... opn fn`. -/
def chainText : List (BinaryOp × Atom) → List Char
  | [] => []
  | (op, f) :: rest => Exp.bin_op_to_char op :: (f.text ++ chainText rest)

/-- The tokens of `op1 f1 op2 f2 ... opn fn`. -/
def chainTokens : List (BinaryOp × Atom) → List Token
  | [] => []
  | (op, f) :: rest => punctuationToken (Exp.bin_op_to_char op) :: f.token :: chainTokens rest

/-- The left-nested tree
`BinaryExp(...BinaryExp(BinaryExp(f0, f1, op1), f2, op2)..., fn, opn)`. -/
def leftNested (left : Exp) : List (BinaryOp × Atom) → Exp
  | [] => left
  | (op, f) :: rest => leftNested (.BinaryExp left f.exp op) rest

/-- The operators of the lower precedence level. -/
def BinaryOp.isAdditive : BinaryOp → Bool
  | .PLUS => true
  | .MINUS => true
  | _ => false

/-- The operators of the higher precedence level. -/
def BinaryOp.isMultiplicative : BinaryOp → Bool
  | .MUL => true
  | .DIV => true
  | _ => false

/-- The derivation of `op1 f1 ... opn fn` as the rest of an expression. -/
def additiveTail : List (BinaryOp × Atom) → CExpTail
  | [] => .nil
  | (op, f) :: rest =>
    .cons (if op = .PLUS then .plus else .minus) (.mk f.factor .nil) (additiveTail rest)

/-- The derivation of `op1 f1 ... opn fn` as the rest of a term. -/
def multiplicativeTail : List (BinaryOp × Atom) → CTermTail
  | [] => .nil
  | (op, f) :: rest =>
    .cons (if op = .MUL then .times else .over) f.factor (multiplicativeTail rest)

/-- Standard output of a result. -/
def Res.out {α : Type} : Res α → List String
  | .ok _ w => w.out
  | .halt _ w => w.out

/-! ## Notions used to state the properties of the interpreter -/

/-- The identifiers an expression refers to. -/
def Exp.ids : Exp → List (List Char)
  | .BinaryExp left right _ => left.ids ++ right.ids
  | .NumberExp _ => []
  | .IdExp id => [id]

/-- The expression of a statement. -/
def Stmt.exp : Stmt → Exp
  | .AssignStm _ right_side => right_side
  | .PrintStm e => e

/-- The names that the statements of a list assign. -/
def assigned : List Stmt → List (List Char)
  | [] => []
  | .AssignStm id _ :: rest => id :: assigned rest
  | .PrintStm _ :: rest => assigned rest

/-- The number of `print` statements of a list. -/
def prints : List Stmt → Nat
  | [] => 0
  | .AssignStm _ _ :: rest => prints rest
  | .PrintStm _ :: rest => prints rest + 1

/-- The statement `s`, which comes after the statements `pre`, refers to an
identifier that none of them assigned. -/
def Unbound (pre : List Stmt) (s : Stmt) : Prop :=
  ∃ x ∈ s.exp.ids, x ∉ assigned pre

/-- The name is a key of the memory. -/
def Memory.declares (m : Memory) (id : List Char) : Bool := (m.lookup id).isSome

/-- The number of tokens of a kind in a sequence. -/
def countType (k : TokenType) (ts : List Token) : Nat := ts.countP (fun t => t.type == k)

/-- A bound on the number of tokens the parser has still to read: none at
`END`, else the current token and one per character after the cursor. -/
def Parser.remaining (p : Parser) : Nat :=
  if p.current.type = .END then 0 else 1 + (p.scanner.input.length - p.scanner.current)

/-- `Within r m`: the parser function that returned `r` did not run out of
budget, and if it returned a value, the parser has fewer than `m` tokens left
to read. -/
def Within {α : Type} (r : PRes α) (m : Nat) : Prop :=
  match r with
  | .ok _ q => q.remaining < m
  | .halt _ => True
  | .outOfFuel => False

/-- The quotient of `a` by `b` rounded toward zero: the quotient of the
absolute values, with the sign of `a * b`. -/
def truncatedQuotient (a b : Int) : Int :=
  if 0 ≤ a * b then ((a.natAbs / b.natAbs : Nat) : Int) else -((a.natAbs / b.natAbs : Nat) : Int)

/-- The scanner after `n` calls of `next_token`. -/
def Scanner.calls : Nat → Scanner → Scanner
  | 0, s => s
  | n + 1, s => Scanner.calls n s.next_token.2

/-- The state at the end of an interpreter step, whichever way it ended. -/
def Res.world {α : Type} : Res α → World
  | .ok _ w => w
  | .halt _ w => w

/-- The statements of a list that `Program::interpreter` executes to their
end from a state: all of them, or those before the one that ends the run. -/
def executed : List Stmt → World → List Stmt
  | [], _ => []
  | stmt :: rest, w =>
    match stmt.execute w with
    | .ok _ w1 => stmt :: executed rest w1
    | .halt _ _ => []

/-! ## Rendering -/

/-- The functions `BinaryExp::print`, `NumberExp::print` and `IdExp::print`:
the text written to standard output. -/
def Exp.print : Exp → List Char
  | .BinaryExp left right op =>
    left.print ++ [' ', Exp.bin_op_to_char op, ' '] ++ right.print
  | .NumberExp value => (toString value).toList
  | .IdExp id => id

/-- The tree is a leaf that is the tree of a `Factor`: a number from 0 to
`INT_MAX`, or a letter followed by letters and digits other than `print`. -/
def Exp.isFactor : Exp → Bool
  | .BinaryExp _ _ _ => false
  | .NumberExp value => decide (0 ≤ value) && decide (value ≤ INT_MAX)
  | .IdExp id => (Atom.identifier id).wellFormed

/-- The tree is the tree of a `Term` written without parentheses: factors
joined by `*` and `/`, nested to the left. -/
def Exp.isTerm : Exp → Bool
  | .BinaryExp left right op => op.isMultiplicative && left.isTerm && right.isFactor
  | e => e.isFactor

/-- The tree is the tree of an `Expression` written without parentheses:
terms joined by `+` and `-`, nested to the left. -/
def Exp.isExpression : Exp → Bool
  | .BinaryExp left right op =>
    (op.isAdditive && left.isExpression && right.isTerm) ||
      (op.isMultiplicative && left.isTerm && right.isFactor)
  | e => e.isFactor

/-- The factor that a leaf renders to. -/
def Exp.atom : Exp → Atom
  | .IdExp id => .identifier id
  | .NumberExp value => .number (toString value).toList
  | .BinaryExp _ _ _ => .number []

/-- The tokens of the rendered text, when the leaves are factors. -/
def Exp.tokens : Exp → List Token
  | .BinaryExp left right op =>
    left.tokens ++ punctuationToken (Exp.bin_op_to_char op) :: right.tokens
  | e => [e.atom.token]

/-- A `(('*' | '/') Factor)*` with one more operator and factor at the end. -/
def CTermTail.snoc : CTermTail → MulOp → CFactor → CTermTail
  | .nil, op, f => .cons op f .nil
  | .cons o g rest, op, f => .cons o g (rest.snoc op f)

/-- A `(('+' | '-') Term)*` with one more operator and term at the end. -/
def CExpTail.snoc : CExpTail → AddOp → CTerm → CExpTail
  | .nil, op, t => .cons op t .nil
  | .cons o u rest, op, t => .cons o u (rest.snoc op t)

/-- A `Term` with one more operator and factor at the end. -/
def CTerm.snoc : CTerm → MulOp → CFactor → CTerm
  | .mk first rest, op, f => .mk first (rest.snoc op f)

/-- An `Expression` with one more operator and term at the end. -/
def CExp.snoc : CExp → AddOp → CTerm → CExp
  | .mk first rest, op, t => .mk first (rest.snoc op t)

/-- The derivation of the rendered text of a tree of a `Term`. -/
def Exp.term : Exp → CTerm
  | .BinaryExp left right op =>
    left.term.snoc (if op = .MUL then .times else .over) right.atom.factor
  | e => .mk e.atom.factor .nil

/-- The derivation of the rendered text of a tree of an `Expression`. -/
def Exp.expression : Exp → CExp
  | .BinaryExp left right op =>
    if op.isAdditive then left.expression.snoc (if op = .PLUS then .plus else .minus) right.term
    else .mk (Exp.BinaryExp left right op).term .nil
  | e => .mk e.term .nil

/-- `Scans e`: the scanner reads the rendered text of `e`, after any spaces
and up to a character that is neither a letter nor a digit, as the tokens of
`e`, and the parser can read these tokens. -/
def Scans (e : Exp) : Prop :=
  Readable e.tokens ∧ e.tokens.length ≤ e.print.length ∧
    ∀ (w r : List Char) (ts : List Token), (∀ c ∈ w, c = ' ') →
      (∀ c ∈ r.head?, c.isAlphanum = false) → Lexes r ts →
      Lexes (w ++ (e.print ++ r)) (e.tokens ++ ts)

/-- `p.Plain`: the tokens of the parser come from scanners on texts without
a left parenthesis. -/
def Parser.Plain (p : Parser) : Prop :=
  '(' ∉ p.scanner.input ∧ ∃ s : Scanner, '(' ∉ s.input ∧ p.current = s.next_token.1

/-- `Builds P r`: if the parser function that returned `r` returned a tree,
the tree has the form `P`, and the parser is still `Plain`. -/
def Builds (P : Exp → Bool) (r : PRes Exp) : Prop :=
  match r with
  | .ok e q => P e = true ∧ q.Plain
  | _ => True

/-- The value a parser function returned, if it returned one. -/
def PRes.value {α : Type} : PRes α → Option α
  | .ok a _ => some a
  | _ => none

/-! ## Eager tokenization

The other strategy the specification allows: the whole text is tokenized
first, up to `END`, and the parser takes its tokens from that list.  The
functions below are those of `Parser`, with the call `scanner->next_token()`
replaced by taking the head of the list. -/

/-- State of the parser over a token list: the tokens not yet taken, the
current token and the previous one. -/
structure EagerParser where
  tokens : List Token
  current : Token
  previous : Option Token
  deriving DecidableEq, Repr

/-- Result of a function of the parser over a token list. -/
inductive ERes (α : Type)
  | ok (a : α) (p : EagerParser)
  | halt (e : Err)
  | outOfFuel
  deriving DecidableEq, Repr

/-- Sequencing of two steps of the parser over a token list. -/
def ERes.bind {α β : Type} (r : ERes α) (f : α → EagerParser → ERes β) : ERes β :=
  match r with
  | .ok a p => f a p
  | .halt e => .halt e
  | .outOfFuel => .outOfFuel

/-- The next token of the list and the rest of the list; `END` again when the
list is used up. -/
def EagerParser.take : List Token → Token × List Token
  | [] => (Token.ofType .END, [])
  | t :: rest => (t, rest)

/-- The parser over a token list at its start: the first token is current. -/
def EagerParser.new (tokens : List Token) : EagerParser :=
  ⟨(EagerParser.take tokens).2, (EagerParser.take tokens).1, none⟩

/-- Eager `is_at_end`. -/
def EagerParser.is_at_end (p : EagerParser) : Bool := p.current.type == .END

/-- Eager `check`. -/
def EagerParser.check (p : EagerParser) (token_type : TokenType) : Bool :=
  if p.is_at_end then false else p.current.type == token_type

/-- Eager `advance`. -/
def EagerParser.advance (p : EagerParser) : ERes Bool :=
  if !p.is_at_end then
    let temp := p.current
    let q : EagerParser :=
      ⟨(EagerParser.take p.tokens).2, (EagerParser.take p.tokens).1, some temp⟩
    if q.check .ERR then .halt (.unrecognizedChar q.current.lexema)
    else .ok true q
  else .ok false p

/-- Eager `match`. -/
def EagerParser.match_token (p : EagerParser) (token_type : TokenType) : ERes Bool :=
  if p.check token_type then
    p.advance.bind fun _ q => .ok true q
  else .ok false p

/-- Eager `match(a) || match(b)`. -/
def EagerParser.match_either (p : EagerParser) (a b : TokenType) : ERes Bool :=
  (p.match_token a).bind fun r q => if r then .ok true q else q.match_token b

/-- Eager `previous->lexema`. -/
def EagerParser.previous_lexema (p : EagerParser) : List Char :=
  match p.previous with
  | some t => t.lexema
  | none => []

/-- Eager choice of the operator in the loop of `parse_expression`. -/
def EagerParser.additive_op (p : EagerParser) : BinaryOp :=
  match p.previous with
  | some ⟨.PLUS, _⟩ => .PLUS
  | some ⟨.MINUS, _⟩ => .MINUS
  | _ => .PLUS

/-- Eager choice of the operator in the loop of `parse_term`. -/
def EagerParser.multiplicative_op (p : EagerParser) : BinaryOp :=
  match p.previous with
  | some ⟨.MUL, _⟩ => .MUL
  | some ⟨.DIV, _⟩ => .DIV
  | _ => .MUL

mutual

/-- Eager `parse_expression`. -/
def EagerParser.parse_expression : Nat → EagerParser → ERes Exp
  | 0, _ => .outOfFuel
  | fuel + 1, p =>
    (EagerParser.parse_term fuel p).bind fun left q => EagerParser.expression_loop fuel left q

/-- Eager loop of `parse_expression`. -/
def EagerParser.expression_loop : Nat → Exp → EagerParser → ERes Exp
  | 0, _, _ => .outOfFuel
  | fuel + 1, left, p =>
    (p.match_either .PLUS .MINUS).bind fun r q =>
      if r then
        let op := q.additive_op
        (EagerParser.parse_term fuel q).bind fun right q2 =>
          EagerParser.expression_loop fuel (.BinaryExp left right op) q2
      else .ok left q

/-- Eager `parse_term`. -/
def EagerParser.parse_term : Nat → EagerParser → ERes Exp
  | 0, _ => .outOfFuel
  | fuel + 1, p =>
    (EagerParser.parse_factor fuel p).bind fun left q => EagerParser.term_loop fuel left q

/-- Eager loop of `parse_term`. -/
def EagerParser.term_loop : Nat → Exp → EagerParser → ERes Exp
  | 0, _, _ => .outOfFuel
  | fuel + 1, left, p =>
    (p.match_either .MUL .DIV).bind fun r q =>
      if r then
        let op := q.multiplicative_op
        (EagerParser.parse_factor fuel q).bind fun right q2 =>
          EagerParser.term_loop fuel (.BinaryExp left right op) q2
      else .ok left q

/-- Eager `parse_factor`. -/
def EagerParser.parse_factor : Nat → EagerParser → ERes Exp
  | 0, _ => .outOfFuel
  | fuel + 1, p =>
    (p.match_token .ID).bind fun r1 q1 =>
      if r1 then .ok (.IdExp q1.previous_lexema) q1
      else (q1.match_token .NUM).bind fun r2 q2 =>
        if r2 then
          match stoi q2.previous_lexema with
          | some v => .ok (.NumberExp v) q2
          | none => .halt .stoiFailed
        else (q2.match_token .LP).bind fun r3 q3 =>
          if r3 then
            (EagerParser.parse_expression fuel q3).bind fun e q4 =>
              (q4.match_token .RP).bind fun r4 q5 =>
                if r4 then .ok e q5 else .halt .rightParenNotFound
          else .halt .numberExpected

end

/-- Eager `parse_stmt`. -/
def EagerParser.parse_stmt (fuel : Nat) (p : EagerParser) : ERes Stmt :=
  (p.match_token .ID).bind fun r1 q1 =>
    if r1 then
      let lex := q1.previous_lexema
      (q1.match_token .ASSIGN).bind fun r2 q2 =>
        if r2 then
          (EagerParser.parse_expression fuel q2).bind fun e q3 => .ok (.AssignStm lex e) q3
        else .halt .assignExpected
    else (q1.match_token .PRINT).bind fun r2 q2 =>
      if r2 then
        (q2.match_token .LP).bind fun r3 q3 =>
          if r3 then
            (EagerParser.parse_expression fuel q3).bind fun e q4 =>
              (q4.match_token .RP).bind fun r4 q5 =>
                if r4 then .ok (.PrintStm e) q5 else .halt .rightParenExpected
          else .halt .leftParenExpected
      else .halt .stmtNotFound

/-- Eager loop of `parse_program`. -/
def EagerParser.program_loop : Nat → Program → EagerParser → ERes Program
  | 0, _, _ => .outOfFuel
  | fuel + 1, prog, p =>
    (p.match_token .SC).bind fun r q =>
      if r then
        (EagerParser.parse_stmt fuel q).bind fun s q2 =>
          EagerParser.program_loop fuel (prog.add s) q2
      else .ok prog q

/-- Eager `parse_program`. -/
def EagerParser.parse_program (fuel : Nat) (p : EagerParser) : ERes Program :=
  (EagerParser.parse_stmt fuel p).bind fun s q =>
    EagerParser.program_loop fuel (Program.add ⟨[]⟩ s) q

/-- The parser phase with eager tokenization: the whole text is tokenized,
then the token list is parsed. -/
def eager_parse (text : List Char) : ERes Program :=
  EagerParser.parse_program (fuelFor text) (EagerParser.new (tokenize text))

/-- The run with eager tokenization; as `run` after the parser phase. -/
def eager_run (text : List Char) : Res Unit :=
  match eager_parse text with
  | .ok prog _ => prog.interpreter World.start
  | .halt e => .halt e { World.start with out := e.diagnostic }
  | .outOfFuel => .halt .stmtNotFound World.start

/-- What a parser phase ends with: a value, an error, or no budget left. -/
inductive Outcome (α : Type)
  | value (a : α)
  | error (e : Err)
  | outOfFuel
  deriving DecidableEq, Repr

/-- The outcome of a function of the parser that pulls from the scanner. -/
def PRes.outcome {α : Type} : PRes α → Outcome α
  | .ok a _ => .value a
  | .halt e => .error e
  | .outOfFuel => .outOfFuel

/-- The outcome of a function of the parser over a token list. -/
def ERes.outcome {α : Type} : ERes α → Outcome α
  | .ok a _ => .value a
  | .halt e => .error e
  | .outOfFuel => .outOfFuel

/-- `Sim p l`: the lazy parser `p` and the eager parser `l` are at the same
place: same current and previous token, and unless the current token is `END`
the scanner of `p` hands out the tokens that `l` has still in its list. -/
def Sim (p : Parser) (l : EagerParser) : Prop :=
  p.current = l.current ∧ p.previous = l.previous ∧
    (p.current.type ≠ .END → Feeds p.scanner l.tokens)

/-- `RSim r r2`: the lazy result `r` and the eager result `r2` are the same
value at the same place, or the same error, or both out of budget. -/
def RSim {α : Type} (r : PRes α) (r2 : ERes α) : Prop :=
  match r, r2 with
  | .ok a p, .ok b l => a = b ∧ Sim p l
  | .halt e, .halt e2 => e = e2
  | .outOfFuel, .outOfFuel => True
  | _, _ => False

/-! ## Texts of derivations -/

mutual

/-- The text of a `Factor`, written without spaces. -/
def CFactor.text : CFactor → List Char
  | .id lexema => lexema
  | .num lexema => lexema
  | .paren e => '(' :: (e.text ++ [')'])

/-- The text of a `(('*' | '/') Factor)*`. -/
def CTermTail.text : CTermTail → List Char
  | .nil => []
  | .cons op f rest => Exp.bin_op_to_char op.op :: (f.text ++ rest.text)

/-- The text of a `Term`. -/
def CTerm.text : CTerm → List Char
  | .mk first rest => first.text ++ rest.text

/-- The text of a `(('+' | '-') Term)*`. -/
def CExpTail.text : CExpTail → List Char
  | .nil => []
  | .cons op t rest => Exp.bin_op_to_char op.op :: (t.text ++ rest.text)

/-- The text of an `Expression`. -/
def CExp.text : CExp → List Char
  | .mk first rest => first.text ++ rest.text

end

mutual

/-- Every identifier of the factor is a letter followed by letters and digits
other than `print`, and every number literal is a non-empty run of digits of
value at most `INT_MAX`. -/
def CFactor.wellFormed : CFactor → Bool
  | .id lexema => (Atom.identifier lexema).wellFormed
  | .num lexema => (Atom.number lexema).wellFormed
  | .paren e => e.wellFormed

/-- As `CFactor.wellFormed`, for the factors of a `(('*' | '/') Factor)*`. -/
def CTermTail.wellFormed : CTermTail → Bool
  | .nil => true
  | .cons _ f rest => f.wellFormed && rest.wellFormed

/-- As `CFactor.wellFormed`, for the factors of a `Term`. -/
def CTerm.wellFormed : CTerm → Bool
  | .mk first rest => first.wellFormed && rest.wellFormed

/-- As `CFactor.wellFormed`, for the factors of a `(('+' | '-') Term)*`. -/
def CExpTail.wellFormed : CExpTail → Bool
  | .nil => true
  | .cons _ t rest => t.wellFormed && rest.wellFormed

/-- As `CFactor.wellFormed`, for the factors of an `Expression`. -/
def CExp.wellFormed : CExp → Bool
  | .mk first rest => first.wellFormed && rest.wellFormed

end

/-- The text `op1 f1 op2 f2 ... opn fn`, for any factors. -/
def factorChainText : List (BinaryOp × CFactor) → List Char
  | [] => []
  | (op, f) :: rest => Exp.bin_op_to_char op :: (f.text ++ factorChainText rest)

/-- The tokens of `op1 f1 op2 f2 ... opn fn`, for any factors. -/
def factorChainTokens : List (BinaryOp × CFactor) → List Token
  | [] => []
  | (op, f) :: rest =>
    punctuationToken (Exp.bin_op_to_char op) :: (f.yield ++ factorChainTokens rest)

/-- The left-nested tree
`BinaryExp(...BinaryExp(BinaryExp(f0, f1, op1), f2, op2)..., fn, opn)`, for
any factors; `left` is the tree of `f0`. -/
def leftNestedFactors (left : Exp) : List (BinaryOp × CFactor) → Exp
  | [] => left
  | (op, f) :: rest => leftNestedFactors (.BinaryExp left f.ast op) rest

/-- The derivation of `op1 f1 ... opn fn` as the rest of an expression, for
any factors. -/
def additiveFactors : List (BinaryOp × CFactor) → CExpTail
  | [] => .nil
  | (op, f) :: rest =>
    .cons (if op = .PLUS then .plus else .minus) (.mk f .nil) (additiveFactors rest)

/-- The derivation of `op1 f1 ... opn fn` as the rest of a term, for any
factors. -/
def multiplicativeFactors : List (BinaryOp × CFactor) → CTermTail
  | [] => .nil
  | (op, f) :: rest =>
    .cons (if op = .MUL then .times else .over) f (multiplicativeFactors rest)

/-- `Spells text tokens`: the scanner reads `text`, in front of a character
that is neither a letter nor a digit, as `tokens`, and the parser can read
these tokens. -/
def Spells (text : List Char) (tokens : List Token) : Prop :=
  Readable tokens ∧
    ∀ (r : List Char) (ts : List Token), (∀ c ∈ r.head?, c.isAlphanum = false) →
      Lexes r ts → Lexes (text ++ r) (tokens ++ ts)


/-! ## The scanner seen from the rest of the text -/

theorem take_length_takeWhile (p : Char → Bool) (l : List Char) :
    l.take (l.takeWhile p).length = l.takeWhile p := by
  induction l with
  | nil => rfl
  | cons a l ih =>
    by_cases h : p a
    · simp [List.takeWhile_cons_of_pos h, ih]
    · simp [List.takeWhile_cons_of_neg h]

theorem drop_length_takeWhile (p : Char → Bool) (l : List Char) :
    l.drop (l.takeWhile p).length = l.dropWhile p := by
  induction l with
  | nil => rfl
  | cons a l ih =>
    by_cases h : p a
    · simp [List.takeWhile_cons_of_pos h, List.dropWhile_cons_of_pos h, ih]
    · simp [List.takeWhile_cons_of_neg h, List.dropWhile_cons_of_neg h]

theorem charAt_eq_headD (input : List Char) (i : Nat) :
    charAt input i = (input.drop i).headD NUL := by
  induction input generalizing i with
  | nil => simp [charAt]
  | cons a l ih =>
    cases i with
    | zero => simp [charAt]
    | succ i => simp [charAt]

/-- The loop `scanWhile` stops right after the longest run of characters that
satisfy `p`. -/
theorem scanWhile_eq (p : Char → Bool) (hp : p NUL = false) (input : List Char) :
    ∀ fuel cur, input.length - cur ≤ fuel →
      scanWhile p input fuel cur = cur + ((input.drop cur).takeWhile p).length := by
  intro fuel
  induction fuel with
  | zero =>
    intro cur h
    have : input.drop cur = [] := List.drop_eq_nil_of_le (by omega)
    simp [scanWhile, this]
  | succ n ih =>
    intro cur h
    unfold scanWhile
    rw [charAt_eq_headD]
    cases hd : input.drop cur with
    | nil => simp [hp]
    | cons a r =>
      have hlt : cur < input.length := by
        by_contra hc
        rw [List.drop_eq_nil_of_le (by omega)] at hd
        cases hd
      have hr : input.drop (cur + 1) = r := by
        have := congrArg (List.drop 1) hd
        simpa [List.drop_drop] using this
      by_cases hpa : p a
      · simp only [List.headD_cons, hpa, if_true]
        rw [ih (cur + 1) (by omega), hr, List.takeWhile_cons_of_pos hpa]
        simp; omega
      · simp [hpa]

theorem next_token_input (s : Scanner) : s.next_token.2.input = s.input := by
  unfold Scanner.next_token
  dsimp only
  generalize scanWhile (fun c => c == ' ') s.input (s.input.length - s.current) s.current = k
  generalize charAt s.input k = c
  by_cases h0 : (c == NUL) = true
  · rw [if_pos h0]
  · rw [if_neg h0]
    by_cases h1 : c.isDigit = true
    · rw [if_pos h1]
    · rw [if_neg h1]
      by_cases h2 : c.isAlpha = true
      · rw [if_pos h2]
        split_ifs <;> rfl
      · rw [if_neg h2]
        by_cases h3 : isPunctuation c = true
        · rw [if_pos h3]
        · rw [if_neg h3]

theorem scan_run (q : Char → Bool) (hq : q NUL = false) (input : List Char) (k : Nat)
    (c : Char) (r : List Char) (hd : input.drop k = c :: r) :
    (input.drop k).take
        (scanWhile q input (input.length - (k + 1)) (k + 1) - k) = c :: r.takeWhile q ∧
      input.drop (scanWhile q input (input.length - (k + 1)) (k + 1)) = r.dropWhile q := by
  have hr : input.drop (k + 1) = r := by
    have := congrArg (List.drop 1) hd
    simpa [List.drop_drop] using this
  rw [scanWhile_eq q hq input _ _ (le_refl _), hr, hd]
  constructor
  · rw [show k + 1 + (r.takeWhile q).length - k = (r.takeWhile q).length + 1 by omega]
    simp [take_length_takeWhile]
  · rw [← List.drop_drop, hr, drop_length_takeWhile]

theorem next_token_eq_lexHead (s : Scanner) :
    s.next_token.1 = (lexHead s.rest).1 ∧ s.next_token.2.rest = (lexHead s.rest).2 := by
  have hsp : (fun c : Char => c == ' ') NUL = false := by decide
  have hdg : Char.isDigit NUL = false := by decide
  have hal : Char.isAlphanum NUL = false := by decide
  have hk := scanWhile_eq (fun c => c == ' ') hsp s.input (s.input.length - s.current)
    s.current (le_refl _)
  have hdrop : s.input.drop (scanWhile (fun c => c == ' ') s.input
      (s.input.length - s.current) s.current)
      = (s.input.drop s.current).dropWhile (fun c => c == ' ') := by
    rw [hk, ← List.drop_drop, drop_length_takeWhile]
  unfold Scanner.next_token lexHead Scanner.rest
  dsimp only
  generalize scanWhile (fun c => c == ' ') s.input (s.input.length - s.current) s.current = k
    at hdrop
  rw [charAt_eq_headD, ← hdrop]
  cases hd : s.input.drop k with
  | nil => simp [hd]
  | cons c r =>
    have hr : s.input.drop (k + 1) = r := by
      have := congrArg (List.drop 1) hd
      simpa [List.drop_drop] using this
    simp only [List.headD_cons]
    by_cases h0 : (c == NUL) = true
    · rw [if_pos h0, if_pos h0]
      exact ⟨rfl, hd⟩
    · rw [if_neg h0, if_neg h0]
      by_cases h1 : c.isDigit = true
      · rw [if_pos h1, if_pos h1]
        obtain ⟨ha, hb⟩ := scan_run Char.isDigit hdg s.input k c r hd
        refine ⟨?_, hb⟩
        simp only [Token.ofSubstr, ha]
      · rw [if_neg h1, if_neg h1]
        by_cases h2 : c.isAlpha = true
        · rw [if_pos h2, if_pos h2]
          obtain ⟨ha, hb⟩ := scan_run Char.isAlphanum hal s.input k c r hd
          have ha2 := ha
          rw [hd] at ha2
          simp only [Token.ofSubstr, ha, ha2]
          split_ifs
          · exact ⟨rfl, hb⟩
          · exact ⟨rfl, hb⟩
        · rw [if_neg h2, if_neg h2]
          by_cases h3 : isPunctuation c = true
          · rw [if_pos h3, if_pos h3]
            exact ⟨rfl, hr⟩
          · rw [if_neg h3, if_neg h3]
            exact ⟨rfl, hr⟩

/-! ## The primitives of the parser -/

theorem Feeds.head_tail {s : Scanner} {t : Token} {ts : List Token} (h : Feeds s (t :: ts)) :
    s.next_token.1 = t ∧
      (if t.type = .END then ts = [] else Feeds s.next_token.2 ts) := by
  cases h with
  | last _ h => simp [h]
  | more _ _ h rest => simp [h, rest]

theorem Feeds.ne_nil {s : Scanner} {ts : List Token} (h : Feeds s ts) : ts ≠ [] := by
  cases h <;> simp

/-- A complete run of `Scanner.tokens` is what the scanner feeds. -/
theorem feeds_of_tokens : ∀ (fuel : Nat) (s : Scanner) (ts : List Token) (e : Token),
    Scanner.tokens fuel s = ts ++ [e] → e.type = .END → Feeds s (ts ++ [e]) := by
  intro fuel
  induction fuel with
  | zero => intro s ts e h; simp [Scanner.tokens] at h
  | succ n ih =>
    intro s ts e h he
    unfold Scanner.tokens at h
    by_cases hend : s.next_token.1.type = .END
    · rw [if_pos hend] at h
      rw [← h]
      exact Feeds.last s hend
    · rw [if_neg hend] at h
      cases ts with
      | nil =>
        simp only [List.nil_append, List.cons.injEq] at h
        exact absurd (h.1 ▸ he) hend
      | cons t ts =>
        simp only [List.cons_append, List.cons.injEq] at h
        rw [← h.1]
        exact Feeds.more s _ hend (ih _ ts e h.2 he)

theorem sees_new {s : Scanner} {ts : List Token} (h : Feeds s ts) : (Parser.new s).Sees ts := by
  cases h with
  | last _ h => simp [Parser.Sees, Parser.new, h]
  | more _ _ h rest => simp [Parser.Sees, Parser.new, h, rest]

theorem Parser.Sees.current_eq {p : Parser} {t : Token} {ts : List Token}
    (h : p.Sees (t :: ts)) : p.current = t := h.1

theorem Parser.Sees.not_end {p : Parser} {a b : Token} {ts : List Token}
    (h : p.Sees (a :: b :: ts)) : a.type ≠ .END := by
  intro he
  have := h.2
  simp [he] at this

/-- A `match` that does not find its token kind changes nothing. -/
theorem match_token_miss {p : Parser} {k : TokenType} (h : p.current.type ≠ k) :
    p.match_token k = .ok false p := by
  simp [Parser.match_token, Parser.check, h]

/-- A `match` that finds its token kind takes the next token from the
scanner. -/
theorem match_token_hit {p : Parser} {a b : Token} {ts : List Token} {k : TokenType}
    (h : p.Sees (a :: b :: ts)) (hk : a.type = k) (hb : b.type ≠ .ERR) :
    ∃ q, p.match_token k = .ok true q ∧ q.previous = some a ∧ q.Sees (b :: ts) := by
  have hne := h.not_end
  obtain ⟨hc, hf⟩ := h
  rw [if_neg hne] at hf
  obtain ⟨hn, hrest⟩ := hf.head_tail
  refine ⟨⟨p.scanner.next_token.2, p.scanner.next_token.1, some p.current⟩, ?_, ?_, ?_⟩
  · have hk2 : k ≠ .END := hk ▸ hne
    simp [Parser.match_token, Parser.check, Parser.is_at_end, Parser.advance, PRes.bind, hc, hk,
      hk2, hn, hb]
  · simp [hc]
  · exact ⟨hn, hrest⟩

/-- A `match` that finds its token kind and then gets an `ERR` token from the
scanner ends the run in `advance`. -/
theorem match_token_err {p : Parser} {a b : Token} {ts : List Token} {k : TokenType}
    (h : p.Sees (a :: b :: ts)) (hk : a.type = k) (hb : b.type = .ERR) :
    p.match_token k = .halt (.unrecognizedChar b.lexema) := by
  have hne := h.not_end
  obtain ⟨hc, hf⟩ := h
  rw [if_neg hne] at hf
  obtain ⟨hn, _⟩ := hf.head_tail
  have hk2 : k ≠ .END := hk ▸ hne
  simp [Parser.match_token, Parser.check, Parser.is_at_end, Parser.advance, PRes.bind, hc, hk,
    hk2, hn, hb]

/-! ## The parser accepts what the grammar derives -/

theorem readable_append {a b : List Token} : Readable (a ++ b) ↔ Readable a ∧ Readable b := by
  simp only [Readable, List.mem_append]
  constructor
  · intro h
    exact ⟨fun t ht => h t (Or.inl ht), fun t ht => h t (Or.inr ht)⟩
  · rintro ⟨h1, h2⟩ t (ht | ht)
    · exact h1 t ht
    · exact h2 t ht

theorem readable_cons {t : Token} {a : List Token} :
    Readable (t :: a) ↔
      (t.type ≠ .ERR ∧ (t.type = .NUM → stoi t.lexema = some (digitsValue t.lexema : Int))) ∧
        Readable a := by
  simp [Readable]

theorem readable_nil : Readable [] := by simp [Readable]

/-- The first token of a stream that starts with readable tokens. -/
theorem stream_head {ys : List Token} (la : Token) (rest : List Token) (hy : Readable ys) :
    ∃ la2 rest2, ys ++ la :: rest = la2 :: rest2 ∧
      (la2.type = .ERR → ys = [] ∧ la2 = la ∧ rest2 = rest) := by
  cases ys with
  | nil => exact ⟨la, rest, rfl, fun _ => ⟨rfl, rfl, rfl⟩⟩
  | cons y ys =>
    refine ⟨y, ys ++ la :: rest, rfl, fun h => ?_⟩
    exact absurd h (readable_cons.1 hy).1.1

theorem Lands.ok {α : Type} {r : PRes α} {v : α} {la : Token} {rest : List Token}
    (h : Lands r v la rest) (hla : la.type ≠ .ERR) : ∃ q : Parser, r = .ok v q ∧ q.Sees (la :: rest) := by
  simpa [Lands, hla] using h

theorem Lands.err {α : Type} {r : PRes α} {v : α} {la : Token} {rest : List Token}
    (h : Lands r v la rest) (hla : la.type = .ERR) : r = .halt (.unrecognizedChar la.lexema) := by
  simpa [Lands, hla] using h

theorem lands_of_err {α : Type} {r : PRes α} {v : α} {la : Token} {rest : List Token}
    (hla : la.type = .ERR) (h : r = .halt (.unrecognizedChar la.lexema)) : Lands r v la rest := by
  simpa [Lands, hla] using h

theorem lands_of_ok {α : Type} {r : PRes α} {v : α} {la : Token} {rest : List Token} {q : Parser}
    (hla : la.type ≠ .ERR) (h : r = .ok v q) (hs : q.Sees (la :: rest)) : Lands r v la rest := by
  simp only [Lands, if_neg hla]
  exact ⟨q, h, hs⟩

/-- A `match` on the token kind of the current token. -/
theorem match_token_lands {p : Parser} {a b : Token} {ts : List Token} {k : TokenType}
    (h : p.Sees (a :: b :: ts)) (hk : a.type = k) :
    (b.type = .ERR ∧ p.match_token k = .halt (.unrecognizedChar b.lexema)) ∨
      (b.type ≠ .ERR ∧ ∃ q, p.match_token k = .ok true q ∧ q.previous = some a ∧
        q.Sees (b :: ts)) := by
  by_cases hb : b.type = .ERR
  · exact Or.inl ⟨hb, match_token_err h hk hb⟩
  · exact Or.inr ⟨hb, match_token_hit h hk hb⟩

theorem match_either_miss {p : Parser} {a b : TokenType} (ha : p.current.type ≠ a)
    (hb : p.current.type ≠ b) : p.match_either a b = .ok false p := by
  simp [Parser.match_either, match_token_miss ha, match_token_miss hb, PRes.bind]

theorem match_either_lands {p : Parser} {x y : Token} {ts : List Token} {a b : TokenType}
    (h : p.Sees (x :: y :: ts)) (hk : x.type = a ∨ x.type = b) :
    (y.type = .ERR ∧ p.match_either a b = .halt (.unrecognizedChar y.lexema)) ∨
      (y.type ≠ .ERR ∧ ∃ q, p.match_either a b = .ok true q ∧ q.previous = some x ∧
        q.Sees (y :: ts)) := by
  by_cases ha : x.type = a
  · rcases match_token_lands h ha with ⟨hy, hm⟩ | ⟨hy, q, hm, hp, hs⟩
    · exact Or.inl ⟨hy, by simp [Parser.match_either, hm, PRes.bind]⟩
    · exact Or.inr ⟨hy, q, by simp [Parser.match_either, hm, PRes.bind], hp, hs⟩
  · have hb : x.type = b := hk.resolve_left ha
    have hmiss : p.match_token a = .ok false p := match_token_miss (by rw [h.1]; exact ha)
    rcases match_token_lands h hb with ⟨hy, hm⟩ | ⟨hy, q, hm, hp, hs⟩
    · exact Or.inl ⟨hy, by simp [Parser.match_either, hmiss, hm, PRes.bind]⟩
    · exact Or.inr ⟨hy, q, by simp [Parser.match_either, hmiss, hm, PRes.bind], hp, hs⟩

theorem factor_yield_length_pos (f : CFactor) : 0 < f.yield.length := by
  cases f <;> simp [CFactor.yield]

/-- The first token after a term: the lookahead, or a `*` or `/`. -/
theorem termTail_head (tt : CTermTail) (la : Token) (rest : List Token) :
    ∃ la2 rest2, tt.yield ++ la :: rest = la2 :: rest2 ∧
      ((tt = .nil ∧ la2 = la ∧ rest2 = rest) ∨ la2.type = .MUL ∨ la2.type = .DIV) := by
  cases tt with
  | nil => exact ⟨la, rest, by simp [CTermTail.yield], Or.inl ⟨rfl, rfl, rfl⟩⟩
  | cons op f tt =>
    refine ⟨op.token, f.yield ++ tt.yield ++ la :: rest, by simp [CTermTail.yield], Or.inr ?_⟩
    cases op
    · exact Or.inl rfl
    · exact Or.inr rfl

/-- The first token after an expression: the lookahead, or a `+` or `-`. -/
theorem expTail_head (et : CExpTail) (la : Token) (rest : List Token) :
    ∃ la2 rest2, et.yield ++ la :: rest = la2 :: rest2 ∧
      ((et = .nil ∧ la2 = la ∧ rest2 = rest) ∨ la2.type = .PLUS ∨ la2.type = .MINUS) := by
  cases et with
  | nil => exact ⟨la, rest, by simp [CExpTail.yield], Or.inl ⟨rfl, rfl, rfl⟩⟩
  | cons op t et =>
    refine ⟨op.token, t.yield ++ et.yield ++ la :: rest, by simp [CExpTail.yield], Or.inr ?_⟩
    cases op
    · exact Or.inl rfl
    · exact Or.inr rfl

theorem multiplicative_op_eq {q : Parser} (op : MulOp) (h : q.previous = some op.token) :
    q.multiplicative_op = op.op := by
  cases op <;> simp [Parser.multiplicative_op, h, MulOp.token, MulOp.op, Token.ofChar]

theorem additive_op_eq {q : Parser} (op : AddOp) (h : q.previous = some op.token) :
    q.additive_op = op.op := by
  cases op <;> simp [Parser.additive_op, h, AddOp.token, AddOp.op, Token.ofChar]

theorem mulOp_token_type (op : MulOp) : op.token.type = .MUL ∨ op.token.type = .DIV := by
  cases op
  · exact Or.inl rfl
  · exact Or.inr rfl

theorem addOp_token_type (op : AddOp) : op.token.type = .PLUS ∨ op.token.type = .MINUS := by
  cases op
  · exact Or.inl rfl
  · exact Or.inr rfl

mutual

/-- The function `parse_factor` on a stream that starts with a factor. -/
theorem factor_lands : ∀ (f : CFactor) (fuel : Nat) (p : Parser) (la : Token)
    (rest : List Token), p.Sees (f.yield ++ la :: rest) → Readable f.yield →
      3 * f.yield.length ≤ fuel → Lands (Parser.parse_factor fuel p) f.ast la rest
  | .id lexema, fuel, p, la, rest, hs, _, hf => by
    obtain ⟨n, rfl⟩ : ∃ n, fuel = n + 1 :=
      ⟨fuel - 1, by simp [CFactor.yield] at hf; omega⟩
    simp only [CFactor.yield, List.cons_append, List.nil_append] at hs
    rcases match_token_lands (k := .ID) hs rfl with ⟨hy, hm⟩ | ⟨hy, q, hm, hp, hq⟩
    · exact lands_of_err hy (by simp [Parser.parse_factor, hm, PRes.bind])
    · exact lands_of_ok hy
        (by simp [Parser.parse_factor, hm, PRes.bind, Parser.previous_lexema, hp, CFactor.ast]) hq
  | .num lexema, fuel, p, la, rest, hs, hr, hf => by
    obtain ⟨n, rfl⟩ : ∃ n, fuel = n + 1 :=
      ⟨fuel - 1, by simp [CFactor.yield] at hf; omega⟩
    simp only [CFactor.yield, List.cons_append, List.nil_append] at hs hr
    have hid : p.match_token .ID = .ok false p := match_token_miss (by rw [hs.1]; simp)
    have hst : stoi lexema = some (digitsValue lexema : Int) := (readable_cons.1 hr).1.2 rfl
    rcases match_token_lands (k := .NUM) hs rfl with ⟨hy, hm⟩ | ⟨hy, q, hm, hp, hq⟩
    · exact lands_of_err hy (by simp [Parser.parse_factor, hid, hm, PRes.bind])
    · exact lands_of_ok hy
        (by simp [Parser.parse_factor, hid, hm, PRes.bind, Parser.previous_lexema, hp, hst,
          CFactor.ast]) hq
  | .paren e, fuel, p, la, rest, hs, hr, hf => by
    obtain ⟨n, rfl⟩ : ∃ n, fuel = n + 1 :=
      ⟨fuel - 1, by simp [CFactor.yield] at hf; omega⟩
    simp only [CFactor.yield, List.cons_append, List.append_assoc, List.nil_append,
      List.length_cons, List.length_append, List.length_nil] at hs hr hf
    have hre : Readable e.yield := (readable_append.1 (readable_cons.1 hr).2).1
    have hid : p.match_token .ID = .ok false p :=
      match_token_miss (by rw [hs.1]; simp [Token.ofChar])
    have hnum : p.match_token .NUM = .ok false p :=
      match_token_miss (by rw [hs.1]; simp [Token.ofChar])
    obtain ⟨b, ts, hbt, hberr⟩ := stream_head (Token.ofChar .RP ')') (la :: rest) hre
    rw [hbt] at hs
    rcases match_token_lands (k := .LP) hs rfl with ⟨hy, _⟩ | ⟨_, q3, hm, _, hq⟩
    · obtain ⟨_, hb, _⟩ := hberr hy
      rw [hb] at hy
      exact absurd hy (by simp [Token.ofChar])
    · rw [← hbt] at hq
      obtain ⟨q4, he, hq4⟩ :=
        (exp_lands e n q3 (Token.ofChar .RP ')') (la :: rest) hq hre
          (by simp [Token.ofChar]) (by simp [Token.ofChar]) (by simp [Token.ofChar])
          (by simp [Token.ofChar]) (by omega)).ok (by simp [Token.ofChar])
      rcases match_token_lands (k := .RP) hq4 rfl with ⟨hy2, hm2⟩ | ⟨hy2, q5, hm2, _, hq5⟩
      · exact lands_of_err hy2
          (by simp [Parser.parse_factor, hid, hnum, hm, he, hm2, PRes.bind])
      · exact lands_of_ok hy2
          (by simp [Parser.parse_factor, hid, hnum, hm, he, hm2, PRes.bind, CFactor.ast]) hq5

/-- The loop of `parse_term` on a stream that starts with the rest of a term. -/
theorem termTail_lands : ∀ (tt : CTermTail) (fuel : Nat) (left : Exp) (p : Parser) (la : Token)
    (rest : List Token), p.Sees (tt.yield ++ la :: rest) → Readable tt.yield →
      la.type ≠ .MUL → la.type ≠ .DIV → p.current.type ≠ .ERR →
      3 * tt.yield.length + 1 ≤ fuel →
      Lands (Parser.term_loop fuel left p) (tt.ast left) la rest
  | .nil, fuel, left, p, la, rest, hs, _, h1, h2, hc, hf => by
    obtain ⟨n, rfl⟩ : ∃ n, fuel = n + 1 := ⟨fuel - 1, by omega⟩
    simp only [CTermTail.yield, List.nil_append] at hs
    have hcur : p.current = la := hs.1
    refine lands_of_ok (hcur ▸ hc) ?_ hs
    simp [Parser.term_loop, match_either_miss (hcur ▸ h1) (hcur ▸ h2), PRes.bind, CTermTail.ast]
  | .cons op f tt, fuel, left, p, la, rest, hs, hr, h1, h2, _, hf => by
    obtain ⟨n, rfl⟩ : ∃ n, fuel = n + 1 := ⟨fuel - 1, by omega⟩
    simp only [CTermTail.yield, List.cons_append, List.append_assoc,
      List.length_cons, List.length_append] at hs hr hf
    have hrf : Readable f.yield := (readable_append.1 (readable_cons.1 hr).2).1
    have hrt : Readable tt.yield := (readable_append.1 (readable_cons.1 hr).2).2
    have hfl := factor_yield_length_pos f
    obtain ⟨la2, rest2, h2eq, h2c⟩ := termTail_head tt la rest
    rw [h2eq] at hs
    obtain ⟨b, ts, hbt, hberr⟩ := stream_head la2 rest2 hrf
    rw [hbt] at hs
    rcases match_either_lands (a := .MUL) (b := .DIV) hs (mulOp_token_type op) with
      ⟨hy, _⟩ | ⟨_, q, hm, hp, hq⟩
    · obtain ⟨hnil, _, _⟩ := hberr hy
      rw [hnil] at hfl
      exact absurd hfl (by simp)
    · rw [← hbt] at hq
      have hfac := factor_lands f n q la2 rest2 hq hrf (by omega)
      have hop := multiplicative_op_eq op hp
      by_cases hla2 : la2.type = .ERR
      · have hhalt := hfac.err hla2
        rcases h2c with ⟨_, hl, _⟩ | h | h
        · rw [hl] at hla2 hhalt
          exact lands_of_err hla2 (by simp [Parser.term_loop, hm, hhalt, PRes.bind])
        · rw [h] at hla2; cases hla2
        · rw [h] at hla2; cases hla2
      · obtain ⟨q2, hq2, hs2⟩ := hfac.ok hla2
        rw [← h2eq] at hs2
        have hcur2 : q2.current.type ≠ .ERR := by
          have : q2.current = la2 := by
            rw [h2eq] at hs2
            exact hs2.1
          rw [this]
          exact hla2
        have ih := termTail_lands tt n (.BinaryExp left f.ast op.op) q2 la rest hs2 hrt h1 h2
          hcur2 (by omega)
        have heq : Parser.term_loop (n + 1) left p =
            Parser.term_loop n (.BinaryExp left f.ast op.op) q2 := by
          simp [Parser.term_loop, hm, hq2, hop, PRes.bind]
        rw [heq]
        simpa [CTermTail.ast] using ih

/-- The function `parse_term` on a stream that starts with a term. -/
theorem term_lands : ∀ (t : CTerm) (fuel : Nat) (p : Parser) (la : Token)
    (rest : List Token), p.Sees (t.yield ++ la :: rest) → Readable t.yield →
      la.type ≠ .MUL → la.type ≠ .DIV →
      3 * t.yield.length + 1 ≤ fuel → Lands (Parser.parse_term fuel p) t.ast la rest
  | .mk f tt, fuel, p, la, rest, hs, hr, h1, h2, hf => by
    obtain ⟨n, rfl⟩ : ∃ n, fuel = n + 1 := ⟨fuel - 1, by omega⟩
    simp only [CTerm.yield, List.append_assoc, List.length_append] at hs hr hf
    have hrf : Readable f.yield := (readable_append.1 hr).1
    have hrt : Readable tt.yield := (readable_append.1 hr).2
    have hfl := factor_yield_length_pos f
    obtain ⟨la2, rest2, h2eq, h2c⟩ := termTail_head tt la rest
    rw [h2eq] at hs
    have hfac := factor_lands f n p la2 rest2 hs hrf (by omega)
    by_cases hla2 : la2.type = .ERR
    · have hhalt := hfac.err hla2
      rcases h2c with ⟨_, hl, _⟩ | h | h
      · rw [hl] at hla2 hhalt
        exact lands_of_err hla2 (by simp [Parser.parse_term, hhalt, PRes.bind])
      · rw [h] at hla2; cases hla2
      · rw [h] at hla2; cases hla2
    · obtain ⟨q2, hq2, hs2⟩ := hfac.ok hla2
      have hcur2 : q2.current.type ≠ .ERR := by
        rw [hs2.1]
        exact hla2
      rw [← h2eq] at hs2
      have ih := termTail_lands tt n f.ast q2 la rest hs2 hrt h1 h2 hcur2 (by omega)
      have heq : Parser.parse_term (n + 1) p = Parser.term_loop n f.ast q2 := by
        simp [Parser.parse_term, hq2, PRes.bind]
      rw [heq]
      simpa [CTerm.ast] using ih

/-- The loop of `parse_expression` on a stream that starts with the rest of
an expression. -/
theorem expTail_lands : ∀ (et : CExpTail) (fuel : Nat) (left : Exp) (p : Parser) (la : Token)
    (rest : List Token), p.Sees (et.yield ++ la :: rest) → Readable et.yield →
      la.type ≠ .PLUS → la.type ≠ .MINUS → la.type ≠ .MUL → la.type ≠ .DIV →
      p.current.type ≠ .ERR → 3 * et.yield.length + 1 ≤ fuel →
      Lands (Parser.expression_loop fuel left p) (et.ast left) la rest
  | .nil, fuel, left, p, la, rest, hs, _, h1, h2, _, _, hc, hf => by
    obtain ⟨n, rfl⟩ : ∃ n, fuel = n + 1 := ⟨fuel - 1, by omega⟩
    simp only [CExpTail.yield, List.nil_append] at hs
    have hcur : p.current = la := hs.1
    refine lands_of_ok (hcur ▸ hc) ?_ hs
    simp [Parser.expression_loop, match_either_miss (hcur ▸ h1) (hcur ▸ h2), PRes.bind,
      CExpTail.ast]
  | .cons op t et, fuel, left, p, la, rest, hs, hr, h1, h2, h3, h4, _, hf => by
    obtain ⟨n, rfl⟩ : ∃ n, fuel = n + 1 := ⟨fuel - 1, by omega⟩
    simp only [CExpTail.yield, List.cons_append, List.append_assoc,
      List.length_cons, List.length_append] at hs hr hf
    have hrt : Readable t.yield := (readable_append.1 (readable_cons.1 hr).2).1
    have hre : Readable et.yield := (readable_append.1 (readable_cons.1 hr).2).2
    have htl : 0 < t.yield.length := by
      cases t with
      | mk f tt =>
        have := factor_yield_length_pos f
        simp only [CTerm.yield, List.length_append]
        omega
    obtain ⟨la2, rest2, h2eq, h2c⟩ := expTail_head et la rest
    rw [h2eq] at hs
    obtain ⟨b, ts, hbt, hberr⟩ := stream_head la2 rest2 hrt
    rw [hbt] at hs
    rcases match_either_lands (a := .PLUS) (b := .MINUS) hs (addOp_token_type op) with
      ⟨hy, _⟩ | ⟨_, q, hm, hp, hq⟩
    · obtain ⟨hnil, _, _⟩ := hberr hy
      rw [hnil] at htl
      exact absurd htl (by simp)
    · rw [← hbt] at hq
      have hla2m : la2.type ≠ .MUL := by
        rcases h2c with ⟨_, hl, _⟩ | h | h
        · rw [hl]; exact h3
        · rw [h]; decide
        · rw [h]; decide
      have hla2d : la2.type ≠ .DIV := by
        rcases h2c with ⟨_, hl, _⟩ | h | h
        · rw [hl]; exact h4
        · rw [h]; decide
        · rw [h]; decide
      have hterm := term_lands t n q la2 rest2 hq hrt hla2m hla2d (by omega)
      have hop := additive_op_eq op hp
      by_cases hla2 : la2.type = .ERR
      · have hhalt := hterm.err hla2
        rcases h2c with ⟨_, hl, _⟩ | h | h
        · rw [hl] at hla2 hhalt
          exact lands_of_err hla2 (by simp [Parser.expression_loop, hm, hhalt, PRes.bind])
        · rw [h] at hla2; cases hla2
        · rw [h] at hla2; cases hla2
      · obtain ⟨q2, hq2, hs2⟩ := hterm.ok hla2
        have hcur2 : q2.current.type ≠ .ERR := by
          rw [hs2.1]
          exact hla2
        rw [← h2eq] at hs2
        have ih := expTail_lands et n (.BinaryExp left t.ast op.op) q2 la rest hs2 hre h1 h2
          h3 h4 hcur2 (by omega)
        have heq : Parser.expression_loop (n + 1) left p =
            Parser.expression_loop n (.BinaryExp left t.ast op.op) q2 := by
          simp [Parser.expression_loop, hm, hq2, hop, PRes.bind]
        rw [heq]
        simpa [CExpTail.ast] using ih

/-- The function `parse_expression` on a stream that starts with an
expression. -/
theorem exp_lands : ∀ (e : CExp) (fuel : Nat) (p : Parser) (la : Token)
    (rest : List Token), p.Sees (e.yield ++ la :: rest) → Readable e.yield →
      la.type ≠ .PLUS → la.type ≠ .MINUS → la.type ≠ .MUL → la.type ≠ .DIV →
      3 * e.yield.length + 2 ≤ fuel → Lands (Parser.parse_expression fuel p) e.ast la rest
  | .mk t et, fuel, p, la, rest, hs, hr, h1, h2, h3, h4, hf => by
    obtain ⟨n, rfl⟩ : ∃ n, fuel = n + 1 := ⟨fuel - 1, by omega⟩
    simp only [CExp.yield, List.append_assoc, List.length_append] at hs hr hf
    have hrt : Readable t.yield := (readable_append.1 hr).1
    have hre : Readable et.yield := (readable_append.1 hr).2
    obtain ⟨la2, rest2, h2eq, h2c⟩ := expTail_head et la rest
    rw [h2eq] at hs
    have hla2m : la2.type ≠ .MUL := by
      rcases h2c with ⟨_, hl, _⟩ | h | h
      · rw [hl]; exact h3
      · rw [h]; decide
      · rw [h]; decide
    have hla2d : la2.type ≠ .DIV := by
      rcases h2c with ⟨_, hl, _⟩ | h | h
      · rw [hl]; exact h4
      · rw [h]; decide
      · rw [h]; decide
    have hterm := term_lands t n p la2 rest2 hs hrt hla2m hla2d (by omega)
    by_cases hla2 : la2.type = .ERR
    · have hhalt := hterm.err hla2
      rcases h2c with ⟨_, hl, _⟩ | h | h
      · rw [hl] at hla2 hhalt
        exact lands_of_err hla2 (by simp [Parser.parse_expression, hhalt, PRes.bind])
      · rw [h] at hla2; cases hla2
      · rw [h] at hla2; cases hla2
    · obtain ⟨q2, hq2, hs2⟩ := hterm.ok hla2
      have hcur2 : q2.current.type ≠ .ERR := by
        rw [hs2.1]
        exact hla2
      rw [← h2eq] at hs2
      have ih := expTail_lands et n t.ast q2 la rest hs2 hre h1 h2 h3 h4 hcur2 (by omega)
      have heq : Parser.parse_expression (n + 1) p = Parser.expression_loop n t.ast q2 := by
        simp [Parser.parse_expression, hq2, PRes.bind]
      rw [heq]
      simpa [CExp.ast] using ih

end

theorem term_yield_length_pos (t : CTerm) : 0 < t.yield.length := by
  cases t with
  | mk f tt =>
    have := factor_yield_length_pos f
    simp only [CTerm.yield, List.length_append]
    omega

theorem exp_yield_length_pos (e : CExp) : 0 < e.yield.length := by
  cases e with
  | mk t et =>
    have := term_yield_length_pos t
    simp only [CExp.yield, List.length_append]
    omega

theorem stmt_yield_length_pos (s : CStmt) : 0 < s.yield.length := by
  cases s <;> simp [CStmt.yield]

/-- The first token of a stream that starts with a non-empty run of readable
tokens is not `ERR`. -/
theorem stream_head_ok {ys : List Token} (la : Token) (rest : List Token) (hy : Readable ys)
    (hpos : 0 < ys.length) :
    ∃ b ts, ys ++ la :: rest = b :: ts ∧ b.type ≠ .ERR := by
  obtain ⟨b, ts, hbt, hberr⟩ := stream_head la rest hy
  refine ⟨b, ts, hbt, fun h => ?_⟩
  obtain ⟨hnil, _, _⟩ := hberr h
  rw [hnil] at hpos
  exact absurd hpos (by simp)

/-- The function `parse_stmt` on a stream that starts with a statement. -/
theorem stmt_lands (s : CStmt) (fuel : Nat) (p : Parser) (la : Token) (rest : List Token)
    (hs : p.Sees (s.yield ++ la :: rest)) (hr : Readable s.yield)
    (h1 : la.type ≠ .PLUS) (h2 : la.type ≠ .MINUS) (h3 : la.type ≠ .MUL) (h4 : la.type ≠ .DIV)
    (hf : 3 * s.yield.length ≤ fuel) : Lands (Parser.parse_stmt fuel p) s.ast la rest := by
  cases s with
  | assign lexema e =>
    simp only [CStmt.yield, List.cons_append, List.length_cons] at hs hr hf
    have hre : Readable e.yield := (readable_cons.1 (readable_cons.1 hr).2).2
    obtain ⟨q1, hm1, hp1, hq1⟩ := match_token_hit (k := .ID) hs rfl (by simp [Token.ofChar])
    obtain ⟨b, ts, hbt, hb⟩ := stream_head_ok la rest hre (exp_yield_length_pos e)
    rw [hbt] at hq1
    obtain ⟨q2, hm2, _, hq2⟩ := match_token_hit (k := .ASSIGN) hq1 rfl hb
    rw [← hbt] at hq2
    have hexp := exp_lands e fuel q2 la rest hq2 hre h1 h2 h3 h4 (by omega)
    by_cases hla : la.type = .ERR
    · exact lands_of_err hla
        (by simp [Parser.parse_stmt, hm1, hm2, hexp.err hla, PRes.bind])
    · obtain ⟨q3, he, hq3⟩ := hexp.ok hla
      exact lands_of_ok hla
        (by simp [Parser.parse_stmt, hm1, hm2, he, PRes.bind, Parser.previous_lexema, hp1,
          CStmt.ast]) hq3
  | print e =>
    simp only [CStmt.yield, List.cons_append, List.append_assoc, List.nil_append,
      List.length_cons, List.length_append, List.length_nil] at hs hr hf
    have hre : Readable e.yield :=
      (readable_append.1 (readable_cons.1 (readable_cons.1 hr).2).2).1
    have hid : p.match_token .ID = .ok false p := match_token_miss (by rw [hs.1]; simp)
    obtain ⟨q1, hm1, _, hq1⟩ := match_token_hit (k := .PRINT) hs rfl (by simp [Token.ofChar])
    obtain ⟨b, ts, hbt, hb⟩ :=
      stream_head_ok (Token.ofChar .RP ')') (la :: rest) hre (exp_yield_length_pos e)
    rw [hbt] at hq1
    obtain ⟨q2, hm2, _, hq2⟩ := match_token_hit (k := .LP) hq1 rfl hb
    rw [← hbt] at hq2
    obtain ⟨q3, he, hq3⟩ :=
      (exp_lands e fuel q2 (Token.ofChar .RP ')') (la :: rest) hq2 hre
        (by simp [Token.ofChar]) (by simp [Token.ofChar]) (by simp [Token.ofChar])
        (by simp [Token.ofChar]) (by omega)).ok (by simp [Token.ofChar])
    rcases match_token_lands (k := .RP) hq3 rfl with ⟨hy, hm4⟩ | ⟨hy, q5, hm4, _, hq5⟩
    · exact lands_of_err hy
        (by simp [Parser.parse_stmt, hid, hm1, hm2, he, hm4, PRes.bind])
    · exact lands_of_ok hy
        (by simp [Parser.parse_stmt, hid, hm1, hm2, he, hm4, PRes.bind, CStmt.ast]) hq5

/-- The first token after a statement: the lookahead, or a `;`. -/
theorem yieldRest_head (ss : List CStmt) (la : Token) (rest : List Token) :
    ∃ la2 rest2, yieldRest ss ++ la :: rest = la2 :: rest2 ∧
      ((ss = [] ∧ la2 = la ∧ rest2 = rest) ∨ la2.type = .SC) := by
  cases ss with
  | nil => exact ⟨la, rest, by simp [yieldRest], Or.inl ⟨rfl, rfl, rfl⟩⟩
  | cons s ss =>
    exact ⟨Token.ofChar .SC ';', s.yield ++ yieldRest ss ++ la :: rest, by simp [yieldRest],
      Or.inr rfl⟩

/-- The loop of `parse_program` on a stream that starts with the rest of a
program. -/
theorem program_loop_lands : ∀ (ss : List CStmt) (fuel : Nat) (prog : Program) (p : Parser)
    (la : Token) (rest : List Token), p.Sees (yieldRest ss ++ la :: rest) →
      Readable (yieldRest ss) → la.type ≠ .SC →
      la.type ≠ .PLUS → la.type ≠ .MINUS → la.type ≠ .MUL → la.type ≠ .DIV →
      p.current.type ≠ .ERR → 3 * (yieldRest ss).length + 1 ≤ fuel →
      Lands (Parser.program_loop fuel prog p) ⟨prog.slist ++ ss.map CStmt.ast⟩ la rest := by
  intro ss
  induction ss with
  | nil =>
    intro fuel prog p la rest hs _ h0 _ _ _ _ hc hf
    obtain ⟨n, rfl⟩ : ∃ n, fuel = n + 1 := ⟨fuel - 1, by omega⟩
    simp only [yieldRest, List.nil_append] at hs
    have hcur : p.current = la := hs.1
    refine lands_of_ok (hcur ▸ hc) ?_ hs
    simp [Parser.program_loop, match_token_miss (hcur ▸ h0), PRes.bind]
  | cons s ss ih =>
    intro fuel prog p la rest hs hr h0 h1 h2 h3 h4 _ hf
    obtain ⟨n, rfl⟩ : ∃ n, fuel = n + 1 := ⟨fuel - 1, by omega⟩
    simp only [yieldRest, List.cons_append, List.append_assoc,
      List.length_cons, List.length_append] at hs hr hf
    have hrs : Readable s.yield := (readable_append.1 (readable_cons.1 hr).2).1
    have hrr : Readable (yieldRest ss) := (readable_append.1 (readable_cons.1 hr).2).2
    obtain ⟨la2, rest2, h2eq, h2c⟩ := yieldRest_head ss la rest
    rw [h2eq] at hs
    obtain ⟨b, ts, hbt, hb⟩ := stream_head_ok la2 rest2 hrs (stmt_yield_length_pos s)
    rw [hbt] at hs
    obtain ⟨q, hm, _, hq⟩ := match_token_hit (k := .SC) hs rfl hb
    rw [← hbt] at hq
    have hl : la2.type ≠ .PLUS ∧ la2.type ≠ .MINUS ∧ la2.type ≠ .MUL ∧ la2.type ≠ .DIV := by
      rcases h2c with ⟨_, hl, _⟩ | h
      · rw [hl]; exact ⟨h1, h2, h3, h4⟩
      · rw [h]; decide
    have hstmt := stmt_lands s n q la2 rest2 hq hrs hl.1 hl.2.1 hl.2.2.1 hl.2.2.2 (by omega)
    by_cases hla2 : la2.type = .ERR
    · have hhalt := hstmt.err hla2
      rcases h2c with ⟨_, hl, _⟩ | h
      · rw [hl] at hla2 hhalt
        exact lands_of_err hla2 (by simp [Parser.program_loop, hm, hhalt, PRes.bind])
      · rw [h] at hla2; cases hla2
    · obtain ⟨q2, hq2, hs2⟩ := hstmt.ok hla2
      have hcur2 : q2.current.type ≠ .ERR := by
        rw [hs2.1]
        exact hla2
      rw [← h2eq] at hs2
      have ih2 := ih n (prog.add s.ast) q2 la rest hs2 hrr h0 h1 h2 h3 h4 hcur2 (by omega)
      have heq : Parser.program_loop (n + 1) prog p =
          Parser.program_loop n (prog.add s.ast) q2 := by
        simp [Parser.program_loop, hm, hq2, PRes.bind]
      rw [heq]
      simpa [Program.add] using ih2

/-- The function `parse_program` on a stream that starts with a program. -/
theorem program_lands (c : CProgram) (fuel : Nat) (p : Parser) (la : Token) (rest : List Token)
    (hs : p.Sees (c.yield ++ la :: rest)) (hr : Readable c.yield) (h0 : la.type ≠ .SC)
    (h1 : la.type ≠ .PLUS) (h2 : la.type ≠ .MINUS) (h3 : la.type ≠ .MUL) (h4 : la.type ≠ .DIV)
    (hf : 3 * c.yield.length + 1 ≤ fuel) :
    Lands (Parser.parse_program fuel p) c.ast la rest := by
  simp only [CProgram.yield, List.append_assoc, List.length_append] at hs hr hf
  have hrs : Readable c.first.yield := (readable_append.1 hr).1
  have hrr : Readable (yieldRest c.rest) := (readable_append.1 hr).2
  obtain ⟨la2, rest2, h2eq, h2c⟩ := yieldRest_head c.rest la rest
  rw [h2eq] at hs
  have hl : la2.type ≠ .PLUS ∧ la2.type ≠ .MINUS ∧ la2.type ≠ .MUL ∧ la2.type ≠ .DIV := by
    rcases h2c with ⟨_, hl, _⟩ | h
    · rw [hl]; exact ⟨h1, h2, h3, h4⟩
    · rw [h]; decide
  have hstmt := stmt_lands c.first fuel p la2 rest2 hs hrs hl.1 hl.2.1 hl.2.2.1 hl.2.2.2
    (by omega)
  by_cases hla2 : la2.type = .ERR
  · have hhalt := hstmt.err hla2
    rcases h2c with ⟨_, hl, _⟩ | h
    · rw [hl] at hla2 hhalt
      exact lands_of_err hla2 (by simp [Parser.parse_program, hhalt, PRes.bind])
    · rw [h] at hla2; cases hla2
  · obtain ⟨q2, hq2, hs2⟩ := hstmt.ok hla2
    have hcur2 : q2.current.type ≠ .ERR := by
      rw [hs2.1]
      exact hla2
    rw [← h2eq] at hs2
    have ih := program_loop_lands c.rest fuel (Program.add ⟨[]⟩ c.first.ast) q2 la rest hs2 hrr
      h0 h1 h2 h3 h4 hcur2 (by omega)
    have heq : Parser.parse_program fuel p =
        Parser.program_loop fuel (Program.add ⟨[]⟩ c.first.ast) q2 := by
      simp [Parser.parse_program, hq2, PRes.bind]
    rw [heq]
    simpa [Program.add, CProgram.ast] using ih

/-! ## Tokens of the scanner and tokens of the grammar -/

mutual

theorem factor_yield_type : ∀ (f : CFactor) (t : Token), t ∈ f.yield →
    t.type ≠ .ERR ∧ t.type ≠ .END
  | .id _, t, h => by
    simp only [CFactor.yield, List.mem_singleton] at h
    subst h; simp
  | .num _, t, h => by
    simp only [CFactor.yield, List.mem_singleton] at h
    subst h; simp
  | .paren e, t, h => by
    simp only [CFactor.yield, List.mem_cons, List.mem_append, List.mem_singleton,
      List.not_mem_nil, or_false] at h
    rcases h with h | h | h
    · subst h; simp [Token.ofChar]
    · exact exp_yield_type e t h
    · subst h; simp [Token.ofChar]

theorem termTail_yield_type : ∀ (tt : CTermTail) (t : Token), t ∈ tt.yield →
    t.type ≠ .ERR ∧ t.type ≠ .END
  | .nil, t, h => by simp [CTermTail.yield] at h
  | .cons op f tt, t, h => by
    simp only [CTermTail.yield, List.mem_cons, List.mem_append] at h
    rcases h with h | h | h
    · subst h; cases op <;> simp [MulOp.token, Token.ofChar]
    · exact factor_yield_type f t h
    · exact termTail_yield_type tt t h

theorem term_yield_type : ∀ (tm : CTerm) (t : Token), t ∈ tm.yield →
    t.type ≠ .ERR ∧ t.type ≠ .END
  | .mk f tt, t, h => by
    simp only [CTerm.yield, List.mem_append] at h
    rcases h with h | h
    · exact factor_yield_type f t h
    · exact termTail_yield_type tt t h

theorem expTail_yield_type : ∀ (et : CExpTail) (t : Token), t ∈ et.yield →
    t.type ≠ .ERR ∧ t.type ≠ .END
  | .nil, t, h => by simp [CExpTail.yield] at h
  | .cons op tm et, t, h => by
    simp only [CExpTail.yield, List.mem_cons, List.mem_append] at h
    rcases h with h | h | h
    · subst h; cases op <;> simp [AddOp.token, Token.ofChar]
    · exact term_yield_type tm t h
    · exact expTail_yield_type et t h

theorem exp_yield_type : ∀ (e : CExp) (t : Token), t ∈ e.yield →
    t.type ≠ .ERR ∧ t.type ≠ .END
  | .mk tm et, t, h => by
    simp only [CExp.yield, List.mem_append] at h
    rcases h with h | h
    · exact term_yield_type tm t h
    · exact expTail_yield_type et t h

end

theorem stmt_yield_type (s : CStmt) (t : Token) (h : t ∈ s.yield) :
    t.type ≠ .ERR ∧ t.type ≠ .END := by
  cases s with
  | assign lexema e =>
    simp only [CStmt.yield, List.mem_cons] at h
    rcases h with h | h | h
    · subst h; simp
    · subst h; simp [Token.ofChar]
    · exact exp_yield_type e t h
  | print e =>
    simp only [CStmt.yield, List.mem_cons, List.mem_append, List.mem_singleton,
      List.not_mem_nil, or_false] at h
    rcases h with h | h | h | h
    · subst h; simp
    · subst h; simp [Token.ofChar]
    · exact exp_yield_type e t h
    · subst h; simp [Token.ofChar]

theorem yieldRest_type (ss : List CStmt) (t : Token) (h : t ∈ yieldRest ss) :
    t.type ≠ .ERR ∧ t.type ≠ .END := by
  induction ss with
  | nil => simp [yieldRest] at h
  | cons s ss ih =>
    simp only [yieldRest, List.mem_cons, List.mem_append] at h
    rcases h with h | h | h
    · subst h; simp [Token.ofChar]
    · exact stmt_yield_type s t h
    · exact ih h

/-- No token derived by the grammar is `ERR` or `END`. -/
theorem program_yield_type (c : CProgram) (t : Token) (h : t ∈ c.yield) :
    t.type ≠ .ERR ∧ t.type ≠ .END := by
  simp only [CProgram.yield, List.mem_append] at h
  rcases h with h | h
  · exact stmt_yield_type c.first t h
  · exact yieldRest_type c.rest t h

theorem feeds_mem {s : Scanner} {ts : List Token} (h : Feeds s ts) :
    ∀ t ∈ ts, ∃ s2 : Scanner, t = s2.next_token.1 := by
  induction h with
  | last s _ =>
    intro t ht
    simp only [List.mem_singleton] at ht
    exact ⟨s, ht⟩
  | more s ts _ _ ih =>
    intro t ht
    simp only [List.mem_cons] at ht
    rcases ht with ht | ht
    · exact ⟨s, ht⟩
    · exact ih t ht

/-- The lexeme of a `NUM` token of the scanner is a non-empty run of digits. -/
theorem lexHead_num_lexema (cs : List Char) (h : (lexHead cs).1.type = .NUM) :
    ∃ c r, (lexHead cs).1.lexema = c :: List.takeWhile Char.isDigit r ∧ c.isDigit = true := by
  unfold lexHead at h ⊢
  cases hd : cs.dropWhile (fun c => c == ' ') with
  | nil => simp [hd, Token.ofType] at h
  | cons c r =>
    simp only [hd] at h ⊢
    by_cases h0 : (c == NUL) = true
    · simp [h0, Token.ofType] at h
    · rw [if_neg h0] at h ⊢
      by_cases h1 : c.isDigit = true
      · rw [if_pos h1]
        exact ⟨c, r, rfl, h1⟩
      · rw [if_neg h1] at h
        by_cases h2 : c.isAlpha = true
        · rw [if_pos h2] at h
          split_ifs at h
        · rw [if_neg h2] at h
          by_cases h3 : isPunctuation c = true
          · rw [if_pos h3] at h
            simp only [punctuationToken, Token.ofChar] at h
            split_ifs at h
          · rw [if_neg h3] at h
            simp [Token.ofChar] at h

theorem stoi_of_digits (ds : List Char) (hne : ds ≠ []) (hall : ∀ d ∈ ds, d.isDigit = true)
    (hv : (digitsValue ds : Int) ≤ INT_MAX) : stoi ds = some (digitsValue ds : Int) := by
  have htw : ds.takeWhile Char.isDigit = ds := List.takeWhile_eq_self_iff.2 hall
  unfold stoi
  simp only [htw]
  rw [if_neg (by simpa using hne), if_pos hv]

/-- On a `NUM` token of the scanner whose value fits an `int`, `std::stoi`
returns the value. -/
theorem stoi_of_feeds {s : Scanner} {ts : List Token} (h : Feeds s ts) (t : Token)
    (ht : t ∈ ts) (hty : t.type = .NUM) (hv : (digitsValue t.lexema : Int) ≤ INT_MAX) :
    stoi t.lexema = some (digitsValue t.lexema : Int) := by
  obtain ⟨s2, rfl⟩ := feeds_mem h t ht
  rw [(next_token_eq_lexHead s2).1] at hty hv ⊢
  obtain ⟨c, r, hlex, hc⟩ := lexHead_num_lexema s2.rest hty
  rw [hlex] at hv ⊢
  refine stoi_of_digits _ (by simp) ?_ hv
  intro d hd
  simp only [List.mem_cons] at hd
  rcases hd with hd | hd
  · rw [hd]; exact hc
  · exact List.mem_takeWhile_imp hd

theorem tokens_length_le (fuel : Nat) (s : Scanner) : (Scanner.tokens fuel s).length ≤ fuel := by
  induction fuel generalizing s with
  | zero => simp [Scanner.tokens]
  | succ n ih =>
    unfold Scanner.tokens
    split_ifs
    · simp
    · have := ih s.next_token.2
      simp only [List.length_cons]
      omega

/-- The token sequence of a text, as a statement about the scanner. -/
theorem feeds_tokenize {text : List Char} {ts : List Token}
    (h : tokenize text = ts ++ [Token.ofType .END]) :
    Feeds (Scanner.new text) (ts ++ [Token.ofType .END]) :=
  feeds_of_tokens _ _ ts _ h rfl

theorem tokenize_length_le {text : List Char} {ts : List Token}
    (h : tokenize text = ts ++ [Token.ofType .END]) : ts.length ≤ text.length := by
  have := tokens_length_le (text.length + 1) (Scanner.new text)
  rw [show Scanner.tokens (text.length + 1) (Scanner.new text) = tokenize text from rfl, h] at this
  simpa using this

/-- Lemma behind the acceptance theorem: a parser that has a derivable token
sequence and then `END` to read returns the program of the derivation. -/
theorem parse_program_of_sees (c : CProgram) (fuel : Nat) (p : Parser)
    (hs : p.Sees (c.yield ++ [Token.ofType .END])) (hr : Readable c.yield)
    (hf : 3 * c.yield.length + 1 ≤ fuel) :
    ∃ q : Parser, Parser.parse_program fuel p = .ok c.ast q ∧ q.Sees [Token.ofType .END] :=
  (program_lands c fuel p (Token.ofType .END) [] hs hr (by simp [Token.ofType])
    (by simp [Token.ofType]) (by simp [Token.ofType]) (by simp [Token.ofType])
    (by simp [Token.ofType]) hf).ok (by simp [Token.ofType])

theorem readable_of_feeds {s : Scanner} {ts : List Token} (c : CProgram)
    (h : Feeds s (ts ++ [Token.ofType .END])) (hc : c.yield = ts)
    (hnum : ∀ t ∈ ts, t.type = .NUM → (digitsValue t.lexema : Int) ≤ INT_MAX) :
    Readable c.yield := by
  intro t ht
  refine ⟨(program_yield_type c t ht).1, fun hty => ?_⟩
  rw [hc] at ht
  exact stoi_of_feeds h t (List.mem_append_left _ ht) hty (hnum t ht hty)

/-- C5. The parser accepts everything inside the grammar: when the token
sequence of the text, followed by `END`, is the one a derivation `c` of
`Program ::= Stmt (';' Stmt)*` derives, and every number literal is at most
2147483647, `parse_program` returns (with the budget of `run`, and with any
larger one) the program that has one statement node per `Stmt` of the
derivation, in source order, and the parser is left at `END`. -/
theorem parse_program_accepts (text : List Char) (c : CProgram) (fuel : Nat)
    (hder : tokenize text = c.yield ++ [Token.ofType .END])
    (hnum : ∀ t ∈ c.yield, t.type = .NUM → (digitsValue t.lexema : Int) ≤ INT_MAX)
    (hfuel : fuelFor text ≤ fuel) :
    ∃ q : Parser, Parser.parse_program fuel (Parser.new (Scanner.new text)) = .ok c.ast q ∧
      q.is_at_end = true ∧
      c.ast.slist = (c.first :: c.rest).map CStmt.ast := by
  have hfeeds := feeds_tokenize hder
  have hr := readable_of_feeds c hfeeds rfl hnum
  have hlen := tokenize_length_le hder
  obtain ⟨q, hq, hsees⟩ := parse_program_of_sees c fuel _ (sees_new hfeeds) hr
    (by unfold fuelFor at hfuel; omega)
  refine ⟨q, hq, ?_, rfl⟩
  simp [Parser.is_at_end, hsees.1, Token.ofType]

/-- C5, at the text `x=5;print(x*x)`. -/
theorem parse_program_accepts_witness :
    ∃ q : Parser, Parser.parse_program 48 (Parser.new (Scanner.new "x=5;print(x*x)".toList)) =
        .ok ⟨[.AssignStm ['x'] (.NumberExp 5),
              .PrintStm (.BinaryExp (.IdExp ['x']) (.IdExp ['x']) .MUL)]⟩ q ∧
      q.is_at_end = true ∧
      (⟨[.AssignStm ['x'] (.NumberExp 5),
          .PrintStm (.BinaryExp (.IdExp ['x']) (.IdExp ['x']) .MUL)]⟩ : Program).slist =
        [.AssignStm ['x'] (.NumberExp 5),
          .PrintStm (.BinaryExp (.IdExp ['x']) (.IdExp ['x']) .MUL)] :=
  parse_program_accepts "x=5;print(x*x)".toList
    ⟨.assign ['x'] (.mk (.mk (.num ['5']) .nil) .nil),
      [.print (.mk (.mk (.id ['x']) (.cons .times (.id ['x']) .nil)) .nil)]⟩ 48
    (by decide) (by decide) (by decide)

/-! ## Scanning texts built from factors and operators -/

theorem isDigit_isAlphanum (c : Char) (h : c.isDigit = true) : c.isAlphanum = true := by
  simp [Char.isAlphanum, h]

theorem isAlpha_isAlphanum (c : Char) (h : c.isAlpha = true) : c.isAlphanum = true := by
  simp [Char.isAlphanum, h]

theorem isAlpha_not_isDigit (c : Char) (h : c.isAlpha = true) : c.isDigit = false := by
  simp only [Char.isAlpha, Char.isUpper, Char.isLower, Char.isDigit, Bool.or_eq_true,
    Bool.and_eq_true, decide_eq_true_eq, Bool.and_eq_false_imp, decide_eq_false_iff_not] at h ⊢
  have e1 : ∀ a b : UInt32, a ≤ b ↔ a.toNat ≤ b.toNat := fun a b => Iff.rfl
  simp only [ge_iff_le, e1] at h ⊢
  norm_num at h ⊢
  omega

theorem isAlphanum_ne_space (c : Char) (h : c.isAlphanum = true) : (c == ' ') = false := by
  by_contra hc
  simp at hc
  subst hc
  exact absurd h (by decide)

theorem isAlphanum_ne_NUL (c : Char) (h : c.isAlphanum = true) : (c == NUL) = false := by
  by_contra hc
  simp at hc
  subst hc
  exact absurd h (by decide)

/-- A run of characters that satisfy `p`, followed by one that does not. -/
theorem takeWhile_run (p : Char → Bool) (l r : List Char) (hl : ∀ x ∈ l, p x = true)
    (hr : ∀ c ∈ r.head?, p c = false) :
    (l ++ r).takeWhile p = l ∧ (l ++ r).dropWhile p = r := by
  induction l with
  | nil =>
    cases r with
    | nil => simp
    | cons c r =>
      have : p c = false := hr c (by simp)
      simp [this]
  | cons a l ih =>
    have ha : p a = true := hl a (by simp)
    have := ih (fun x hx => hl x (List.mem_cons_of_mem _ hx))
    simp [ha, this]

theorem head_not_isDigit (r : List Char) (hr : ∀ c ∈ r.head?, c.isAlphanum = false) :
    ∀ c ∈ r.head?, c.isDigit = false := by
  intro c hc
  have := hr c hc
  by_contra h
  simp at h
  rw [isDigit_isAlphanum c h] at this
  cases this

/-- The scanner on a factor followed by something that is neither a letter
nor a digit. -/
theorem lexHead_atom (a : Atom) (hw : a.wellFormed = true) (r : List Char)
    (hr : ∀ c ∈ r.head?, c.isAlphanum = false) : lexHead (a.text ++ r) = (a.token, r) := by
  cases a with
  | number digits =>
    cases digits with
    | nil => simp [Atom.wellFormed] at hw
    | cons d ds =>
      simp only [Atom.wellFormed, Bool.and_eq_true, List.all_cons, List.all_eq_true] at hw
      obtain ⟨⟨_, hd, hds⟩, _⟩ := hw
      have hsp := isAlphanum_ne_space d (isDigit_isAlphanum d hd)
      have hnul := isAlphanum_ne_NUL d (isDigit_isAlphanum d hd)
      obtain ⟨ht, hdr⟩ := takeWhile_run Char.isDigit ds r hds (head_not_isDigit r hr)
      simp only [Atom.text, Atom.token, lexHead, List.cons_append]
      rw [List.dropWhile_cons_of_neg (by simp [hsp])]
      simp only [hnul, hd, if_true, Bool.false_eq_true, if_false, ht, hdr]
  | identifier name =>
    cases name with
    | nil => simp [Atom.wellFormed] at hw
    | cons c cs =>
      simp only [Atom.wellFormed, Bool.and_eq_true, List.all_eq_true, bne_iff_ne, ne_eq] at hw
      obtain ⟨⟨hc, hcs⟩, hnp⟩ := hw
      have hsp := isAlphanum_ne_space c (isAlpha_isAlphanum c hc)
      have hnul := isAlphanum_ne_NUL c (isAlpha_isAlphanum c hc)
      have hnd := isAlpha_not_isDigit c hc
      obtain ⟨ht, hdr⟩ := takeWhile_run Char.isAlphanum cs r hcs hr
      have hnp2 : ("print".toList == c :: cs) = false := by
        simp only [beq_eq_false_iff_ne, ne_eq]
        exact fun h => hnp h.symm
      simp only [Atom.text, Atom.token, lexHead, List.cons_append]
      rw [List.dropWhile_cons_of_neg (by simp [hsp])]
      simp only [hnul, hnd, hc, if_true, Bool.false_eq_true, if_false, ht, hdr, hnp2]

/-- The scanner on one of the characters `+ - * / ( ) ; =`. -/
theorem lexHead_punctuation (c : Char) (r : List Char) (hc : isPunctuation c = true) :
    lexHead (c :: r) = (punctuationToken c, r) := by
  have h : c = '+' ∨ c = '-' ∨ c = '*' ∨ c = '/' ∨ c = '(' ∨ c = ')' ∨ c = ';' ∨ c = '=' := by
    simpa [isPunctuation] using hc
  rcases h with h | h | h | h | h | h | h | h <;> subst h <;> rfl

theorem lexHead_print (r : List Char) (hr : ∀ c ∈ r.head?, c.isAlphanum = false) :
    lexHead ("print".toList ++ r) = (⟨.PRINT, "print".toList⟩, r) := by
  obtain ⟨ht, hdr⟩ := takeWhile_run Char.isAlphanum "rint".toList r (by decide) hr
  have hp : "print".toList ++ r = 'p' :: ("rint".toList ++ r) := rfl
  rw [hp]
  simp only [lexHead]
  rw [List.dropWhile_cons_of_neg (by decide)]
  simp only [ht, hdr]
  rfl

theorem lexes_cons {cs r : List Char} {t : Token} {ts : List Token} (h : lexHead cs = (t, r))
    (ht : t.type ≠ .END) (hr : Lexes r ts) : Lexes cs (t :: ts) := by
  intro s hs
  obtain ⟨h1, h2⟩ := next_token_eq_lexHead s
  rw [hs, h] at h1 h2
  have := Feeds.more s ts (by rw [h1]; exact ht) (hr _ h2)
  rwa [h1] at this

theorem lexes_nil : Lexes [] [Token.ofType .END] := by
  intro s hs
  obtain ⟨h1, _⟩ := next_token_eq_lexHead s
  rw [hs] at h1
  have := Feeds.last s (by rw [h1]; rfl)
  rwa [h1] at this

theorem feeds_of_lexes {text : List Char} {ts : List Token} (h : Lexes text ts) :
    Feeds (Scanner.new text) ts := h _ rfl

theorem atom_readable (a : Atom) (hw : a.wellFormed = true) : Readable a.factor.yield := by
  cases a with
  | number digits =>
    simp only [Atom.wellFormed, Bool.and_eq_true, List.all_eq_true, decide_eq_true_eq,
      Bool.not_eq_true', List.isEmpty_eq_false] at hw
    obtain ⟨⟨hne, hall⟩, hv⟩ := hw
    simp only [Atom.factor, CFactor.yield]
    refine readable_cons.2 ⟨⟨by simp, fun _ => ?_⟩, readable_nil⟩
    exact stoi_of_digits digits (by simpa using hne) hall hv
  | identifier name =>
    simp only [Atom.factor, CFactor.yield]
    exact readable_cons.2 ⟨⟨by simp, by simp⟩, readable_nil⟩

theorem atom_yield (a : Atom) : a.factor.yield = [a.token] := by
  cases a <;> rfl

theorem atom_ast (a : Atom) : a.factor.ast = a.exp := by
  cases a <;> rfl

theorem atom_token_type (a : Atom) : a.token.type ≠ .END := by
  cases a <;> simp [Atom.token]

theorem atom_text_length_pos (a : Atom) (hw : a.wellFormed = true) : 0 < a.text.length := by
  cases a with
  | number digits =>
    cases digits with
    | nil => simp [Atom.wellFormed] at hw
    | cons d ds => simp [Atom.text]
  | identifier name =>
    cases name with
    | nil => simp [Atom.wellFormed] at hw
    | cons d ds => simp [Atom.text]

theorem punctuationToken_type (c : Char) : (punctuationToken c).type ≠ .END ∧
    (punctuationToken c).type ≠ .ERR ∧ (punctuationToken c).type ≠ .NUM := by
  unfold punctuationToken
  split_ifs <;> simp [Token.ofChar]

theorem isPunctuation_op (op : BinaryOp) : isPunctuation (Exp.bin_op_to_char op) = true := by
  cases op <;> decide

theorem op_not_isAlphanum (op : BinaryOp) : (Exp.bin_op_to_char op).isAlphanum = false := by
  cases op <;> decide

/-- The function `parse_expression` on a text whose tokens are derived by an
expression. -/
theorem parse_expression_of_lexes (text : List Char) (e : CExp) (fuel : Nat)
    (hl : Lexes text (e.yield ++ [Token.ofType .END])) (hr : Readable e.yield)
    (hf : 3 * e.yield.length + 2 ≤ fuel) :
    ∃ q : Parser, Parser.parse_expression fuel (Parser.new (Scanner.new text)) = .ok e.ast q ∧
      q.is_at_end = true := by
  obtain ⟨q, hq, hs⟩ := (exp_lands e fuel _ (Token.ofType .END) [] (sees_new (feeds_of_lexes hl))
    hr (by simp [Token.ofType]) (by simp [Token.ofType]) (by simp [Token.ofType])
    (by simp [Token.ofType]) hf).ok (by simp [Token.ofType])
  exact ⟨q, hq, by simp [Parser.is_at_end, hs.1, Token.ofType]⟩

/-- Scanning `op f` in front of a text. -/
theorem lexes_op_atom (op : BinaryOp) (f : Atom) (hw : f.wellFormed = true) (r : List Char)
    (ts : List Token) (hr : ∀ c ∈ r.head?, c.isAlphanum = false) (h : Lexes r ts) :
    Lexes (Exp.bin_op_to_char op :: (f.text ++ r))
      (punctuationToken (Exp.bin_op_to_char op) :: f.token :: ts) :=
  lexes_cons (lexHead_punctuation _ _ (isPunctuation_op op)) (punctuationToken_type _).1
    (lexes_cons (lexHead_atom f hw r hr) (atom_token_type f) h)

theorem punctuationToken_additive (op : BinaryOp) (h : op.isAdditive = true) :
    punctuationToken (Exp.bin_op_to_char op) =
      AddOp.token (if op = .PLUS then .plus else .minus) ∧
    AddOp.op (if op = .PLUS then .plus else .minus) = op := by
  cases op <;> first | exact ⟨rfl, rfl⟩ | cases h

theorem punctuationToken_multiplicative (op : BinaryOp) (h : op.isMultiplicative = true) :
    punctuationToken (Exp.bin_op_to_char op) =
      MulOp.token (if op = .MUL then .times else .over) ∧
    MulOp.op (if op = .MUL then .times else .over) = op := by
  cases op <;> first | exact ⟨rfl, rfl⟩ | cases h

/-- The text `a op1 b op2 c` with `op1` additive and `op2` multiplicative. -/
theorem parse_add_mul (a b c : Atom) (o1 o2 : BinaryOp) (ha : a.wellFormed = true)
    (hb : b.wellFormed = true) (hc : c.wellFormed = true) (h1 : o1.isAdditive = true)
    (h2 : o2.isMultiplicative = true) (fuel : Nat)
    (hf : fuelFor (a.text ++ chainText [(o1, b), (o2, c)]) ≤ fuel) :
    ∃ q : Parser, Parser.parse_expression fuel
        (Parser.new (Scanner.new (a.text ++ chainText [(o1, b), (o2, c)]))) =
          .ok (.BinaryExp a.exp (.BinaryExp b.exp c.exp o2) o1) q ∧ q.is_at_end = true := by
  obtain ⟨ht1, hop1⟩ := punctuationToken_additive o1 h1
  obtain ⟨ht2, hop2⟩ := punctuationToken_multiplicative o2 h2
  have hl : Lexes (a.text ++ chainText [(o1, b), (o2, c)])
      (a.token :: punctuationToken (Exp.bin_op_to_char o1) :: b.token ::
        punctuationToken (Exp.bin_op_to_char o2) :: c.token :: [Token.ofType .END]) := by
    refine lexes_cons (lexHead_atom a ha _ (by simp [chainText, op_not_isAlphanum]))
      (atom_token_type a) ?_
    refine lexes_op_atom o1 b hb _ _ (by simp [chainText, op_not_isAlphanum]) ?_
    have := lexes_op_atom o2 c hc [] _ (by simp) lexes_nil
    simpa [chainText] using this
  have e := parse_expression_of_lexes _
    (.mk (.mk a.factor .nil)
      (.cons (if o1 = .PLUS then .plus else .minus)
        (.mk b.factor (.cons (if o2 = .MUL then .times else .over) c.factor .nil)) .nil)) fuel
    (by simpa [CExp.yield, CTerm.yield, CTermTail.yield, CExpTail.yield, atom_yield, ← ht1,
      ← ht2] using hl)
    (by
      simp only [CExp.yield, CTerm.yield, CTermTail.yield, CExpTail.yield, List.append_nil]
      refine readable_append.2 ⟨atom_readable a ha, readable_cons.2 ⟨?_, readable_append.2
        ⟨atom_readable b hb, readable_cons.2 ⟨?_, atom_readable c hc⟩⟩⟩⟩
      · rw [← ht1]
        exact ⟨(punctuationToken_type _).2.1, fun h => absurd h (punctuationToken_type _).2.2⟩
      · rw [← ht2]
        exact ⟨(punctuationToken_type _).2.1, fun h => absurd h (punctuationToken_type _).2.2⟩)
    (by
      have la := atom_text_length_pos a ha
      have lb := atom_text_length_pos b hb
      have lc := atom_text_length_pos c hc
      simp only [fuelFor, chainText, List.length_append, List.length_cons,
        List.length_nil] at hf
      simp only [CExp.yield, CTerm.yield, CTermTail.yield, CExpTail.yield, atom_yield,
        List.length_append, List.length_cons, List.length_nil]
      omega)
  simpa [CExp.ast, CTerm.ast, CTermTail.ast, CExpTail.ast, atom_ast, hop1, hop2] using e

theorem op_readable (c : Char) : (punctuationToken c).type ≠ .ERR ∧
    ((punctuationToken c).type = .NUM →
      stoi (punctuationToken c).lexema = some (digitsValue (punctuationToken c).lexema : Int)) :=
  ⟨(punctuationToken_type c).2.1, fun h => absurd h (punctuationToken_type c).2.2⟩

/-- The text `a op2 b op1 c` with `op2` multiplicative and `op1` additive. -/
theorem parse_mul_add (a b c : Atom) (o1 o2 : BinaryOp) (ha : a.wellFormed = true)
    (hb : b.wellFormed = true) (hc : c.wellFormed = true) (h1 : o1.isAdditive = true)
    (h2 : o2.isMultiplicative = true) (fuel : Nat)
    (hf : fuelFor (a.text ++ chainText [(o2, b), (o1, c)]) ≤ fuel) :
    ∃ q : Parser, Parser.parse_expression fuel
        (Parser.new (Scanner.new (a.text ++ chainText [(o2, b), (o1, c)]))) =
          .ok (.BinaryExp (.BinaryExp a.exp b.exp o2) c.exp o1) q ∧ q.is_at_end = true := by
  obtain ⟨ht1, hop1⟩ := punctuationToken_additive o1 h1
  obtain ⟨ht2, hop2⟩ := punctuationToken_multiplicative o2 h2
  have hl : Lexes (a.text ++ chainText [(o2, b), (o1, c)])
      (a.token :: punctuationToken (Exp.bin_op_to_char o2) :: b.token ::
        punctuationToken (Exp.bin_op_to_char o1) :: c.token :: [Token.ofType .END]) := by
    refine lexes_cons (lexHead_atom a ha _ (by simp [chainText, op_not_isAlphanum]))
      (atom_token_type a) ?_
    refine lexes_op_atom o2 b hb _ _ (by simp [chainText, op_not_isAlphanum]) ?_
    have := lexes_op_atom o1 c hc [] _ (by simp) lexes_nil
    simpa [chainText] using this
  have e := parse_expression_of_lexes _
    (.mk (.mk a.factor (.cons (if o2 = .MUL then .times else .over) b.factor .nil))
      (.cons (if o1 = .PLUS then .plus else .minus) (.mk c.factor .nil) .nil)) fuel
    (by simpa [CExp.yield, CTerm.yield, CTermTail.yield, CExpTail.yield, atom_yield, ← ht1,
      ← ht2] using hl)
    (by
      simp only [CExp.yield, CTerm.yield, CTermTail.yield, CExpTail.yield, List.append_nil]
      refine readable_append.2 ⟨readable_append.2 ⟨atom_readable a ha, readable_cons.2
        ⟨?_, atom_readable b hb⟩⟩, readable_cons.2 ⟨?_, atom_readable c hc⟩⟩
      · rw [← ht2]; exact op_readable _
      · rw [← ht1]; exact op_readable _)
    (by
      have la := atom_text_length_pos a ha
      have lb := atom_text_length_pos b hb
      have lc := atom_text_length_pos c hc
      simp only [fuelFor, chainText, List.length_append, List.length_cons,
        List.length_nil] at hf
      simp only [CExp.yield, CTerm.yield, CTermTail.yield, CExpTail.yield, atom_yield,
        List.length_append, List.length_cons, List.length_nil]
      omega)
  simpa [CExp.ast, CTerm.ast, CTermTail.ast, CExpTail.ast, atom_ast, hop1, hop2] using e

/-- The text `(a op1 b) op2 c` with `op1` additive and `op2` multiplicative. -/
theorem parse_paren_mul (a b c : Atom) (o1 o2 : BinaryOp) (ha : a.wellFormed = true)
    (hb : b.wellFormed = true) (hc : c.wellFormed = true) (h1 : o1.isAdditive = true)
    (h2 : o2.isMultiplicative = true) (fuel : Nat)
    (hf : fuelFor ('(' :: (a.text ++ chainText [(o1, b)] ++ ')' :: chainText [(o2, c)])) ≤ fuel) :
    ∃ q : Parser, Parser.parse_expression fuel
        (Parser.new (Scanner.new
          ('(' :: (a.text ++ chainText [(o1, b)] ++ ')' :: chainText [(o2, c)])))) =
          .ok (.BinaryExp (.BinaryExp a.exp b.exp o1) c.exp o2) q ∧ q.is_at_end = true := by
  obtain ⟨ht1, hop1⟩ := punctuationToken_additive o1 h1
  obtain ⟨ht2, hop2⟩ := punctuationToken_multiplicative o2 h2
  have hl : Lexes ('(' :: (a.text ++ chainText [(o1, b)] ++ ')' :: chainText [(o2, c)]))
      (Token.ofChar .LP '(' :: a.token :: punctuationToken (Exp.bin_op_to_char o1) :: b.token ::
        Token.ofChar .RP ')' :: punctuationToken (Exp.bin_op_to_char o2) :: c.token ::
        [Token.ofType .END]) := by
    refine lexes_cons (lexHead_punctuation '(' _ (by decide)) (by simp [Token.ofChar]) ?_
    rw [List.append_assoc]
    refine lexes_cons (lexHead_atom a ha _ (by simp [chainText, op_not_isAlphanum]))
      (atom_token_type a) ?_
    have h3 : Lexes (')' :: chainText [(o2, c)])
        (Token.ofChar .RP ')' :: punctuationToken (Exp.bin_op_to_char o2) :: c.token ::
          [Token.ofType .END]) := by
      refine lexes_cons (lexHead_punctuation ')' _ (by decide)) (by simp [Token.ofChar]) ?_
      have := lexes_op_atom o2 c hc [] _ (by simp) lexes_nil
      simpa [chainText] using this
    have := lexes_op_atom o1 b hb _ _ (by simp) h3
    simpa [chainText] using this
  have e := parse_expression_of_lexes _
    (.mk (.mk (.paren (.mk (.mk a.factor .nil)
        (.cons (if o1 = .PLUS then .plus else .minus) (.mk b.factor .nil) .nil)))
      (.cons (if o2 = .MUL then .times else .over) c.factor .nil)) .nil) fuel
    (by simpa [CExp.yield, CTerm.yield, CTermTail.yield, CExpTail.yield, CFactor.yield,
      atom_yield, ← ht1, ← ht2] using hl)
    (by
      simp only [CExp.yield, CTerm.yield, CTermTail.yield, CExpTail.yield, CFactor.yield,
        List.append_nil]
      refine readable_append.2 ⟨readable_cons.2 ⟨by simp [Token.ofChar], readable_append.2
        ⟨readable_append.2 ⟨atom_readable a ha, readable_cons.2 ⟨?_, atom_readable b hb⟩⟩,
          readable_cons.2 ⟨by simp [Token.ofChar], readable_nil⟩⟩⟩,
        readable_cons.2 ⟨?_, atom_readable c hc⟩⟩
      · rw [← ht1]; exact op_readable _
      · rw [← ht2]; exact op_readable _)
    (by
      have la := atom_text_length_pos a ha
      have lb := atom_text_length_pos b hb
      have lc := atom_text_length_pos c hc
      simp only [fuelFor, chainText, List.length_append, List.length_cons,
        List.length_nil] at hf
      simp only [CExp.yield, CTerm.yield, CTermTail.yield, CExpTail.yield, CFactor.yield,
        atom_yield, List.length_append, List.length_cons, List.length_nil]
      omega)
  simpa [CExp.ast, CTerm.ast, CTermTail.ast, CExpTail.ast, CFactor.ast, atom_ast, hop1,
    hop2] using e

/-- C1, counterexample: the text `2147483648+1*2` is `a+b*c` with number
literals for `a`, `b` and `c`; the scanner hands out the `NUM` token of
`2147483648`, `std::stoi` throws on it in `parse_factor`, and
`parse_expression` builds no tree: the run is killed by the uncaught
exception. -/
theorem precedence_counterexample :
    tokenize "2147483648+1*2".toList =
        [⟨.NUM, "2147483648".toList⟩, ⟨.PLUS, ['+']⟩, ⟨.NUM, ['1']⟩, ⟨.MUL, ['*']⟩,
          ⟨.NUM, ['2']⟩, ⟨.END, []⟩] ∧
      stoi "2147483648".toList = none ∧
      Parser.parse_expression (fuelFor "2147483648+1*2".toList)
        (Parser.new (Scanner.new "2147483648+1*2".toList)) = .halt .stoiFailed ∧
      Err.stoiFailed.exitCode = none := by
  decide

/-- C1, amended. Operator precedence in the parser: for factors `a`, `b`, `c`
that are identifiers or number literals of value at most 2147483647, an
operator `op1` among `+ -` and an operator `op2` among `* /`,
`parse_expression` builds `BinaryExp(a, BinaryExp(b, c, op2), op1)` from the
text `a op1 b op2 c`, `BinaryExp(BinaryExp(a, b, op2), c, op1)` from
`a op2 b op1 c`, and `BinaryExp(BinaryExp(a, b, op1), c, op2)` from
`(a op1 b) op2 c`, each time reading the whole text; and the tree built from
`(1+2)*3` evaluates to 9. -/
theorem parse_expression_precedence (a b c : Atom) (op1 op2 : BinaryOp)
    (ha : a.wellFormed = true) (hb : b.wellFormed = true) (hc : c.wellFormed = true)
    (h1 : op1.isAdditive = true) (h2 : op2.isMultiplicative = true) :
    (∀ fuel, fuelFor (a.text ++ [Exp.bin_op_to_char op1] ++ b.text ++
          [Exp.bin_op_to_char op2] ++ c.text) ≤ fuel →
      ∃ q : Parser, Parser.parse_expression fuel (Parser.new (Scanner.new
          (a.text ++ [Exp.bin_op_to_char op1] ++ b.text ++ [Exp.bin_op_to_char op2] ++ c.text))) =
        .ok (.BinaryExp a.exp (.BinaryExp b.exp c.exp op2) op1) q ∧ q.is_at_end = true) ∧
    (∀ fuel, fuelFor (a.text ++ [Exp.bin_op_to_char op2] ++ b.text ++
          [Exp.bin_op_to_char op1] ++ c.text) ≤ fuel →
      ∃ q : Parser, Parser.parse_expression fuel (Parser.new (Scanner.new
          (a.text ++ [Exp.bin_op_to_char op2] ++ b.text ++ [Exp.bin_op_to_char op1] ++ c.text))) =
        .ok (.BinaryExp (.BinaryExp a.exp b.exp op2) c.exp op1) q ∧ q.is_at_end = true) ∧
    (∀ fuel, fuelFor (['('] ++ a.text ++ [Exp.bin_op_to_char op1] ++ b.text ++ [')'] ++
          [Exp.bin_op_to_char op2] ++ c.text) ≤ fuel →
      ∃ q : Parser, Parser.parse_expression fuel (Parser.new (Scanner.new
          (['('] ++ a.text ++ [Exp.bin_op_to_char op1] ++ b.text ++ [')'] ++
            [Exp.bin_op_to_char op2] ++ c.text))) =
        .ok (.BinaryExp (.BinaryExp a.exp b.exp op1) c.exp op2) q ∧ q.is_at_end = true) ∧
    (∃ (e : Exp) (q : Parser),
      Parser.parse_expression (fuelFor "(1+2)*3".toList)
          (Parser.new (Scanner.new "(1+2)*3".toList)) = .ok e q ∧
        e.eval World.start = .ok 9 World.start) := by
  refine ⟨fun fuel hf => ?_, fun fuel hf => ?_, fun fuel hf => ?_, ?_⟩
  · have := parse_add_mul a b c op1 op2 ha hb hc h1 h2 fuel (by simpa [chainText] using hf)
    simpa [chainText] using this
  · have := parse_mul_add a b c op1 op2 ha hb hc h1 h2 fuel (by simpa [chainText] using hf)
    simpa [chainText] using this
  · have := parse_paren_mul a b c op1 op2 ha hb hc h1 h2 fuel (by simpa [chainText] using hf)
    simpa [chainText] using this
  · exact ⟨.BinaryExp (.BinaryExp (.NumberExp 1) (.NumberExp 2) .PLUS) (.NumberExp 3) .MUL,
      _, by rfl, by decide⟩

/-- C1, amended, at the text `1+x*3`. -/
theorem parse_expression_precedence_witness :
    ∃ q : Parser, Parser.parse_expression 21 (Parser.new (Scanner.new "1+x*3".toList)) =
        .ok (.BinaryExp (.NumberExp 1) (.BinaryExp (.IdExp ['x']) (.NumberExp 3) .MUL) .PLUS) q ∧
      q.is_at_end = true :=
  (parse_expression_precedence (.number ['1']) (.identifier ['x']) (.number ['3']) .PLUS .MUL
    (by decide) (by decide) (by decide) (by decide) (by decide)).1 21 (by decide)

/-! ## Left associativity -/

theorem chainText_head (rest : List (BinaryOp × Atom)) :
    ∀ c ∈ (chainText rest).head?, c.isAlphanum = false := by
  cases rest with
  | nil => simp [chainText]
  | cons x rest =>
    obtain ⟨op, f⟩ := x
    simp [chainText, op_not_isAlphanum]

theorem lexes_chain (rest : List (BinaryOp × Atom))
    (hw : ∀ x ∈ rest, x.2.wellFormed = true) :
    Lexes (chainText rest) (chainTokens rest ++ [Token.ofType .END]) := by
  induction rest with
  | nil => exact lexes_nil
  | cons x rest ih =>
    obtain ⟨op, f⟩ := x
    exact lexes_op_atom op f (hw (op, f) (by simp)) _ _ (chainText_head rest)
      (ih (fun y hy => hw y (List.mem_cons_of_mem _ hy)))

theorem chainTokens_length (rest : List (BinaryOp × Atom)) :
    (chainTokens rest).length = 2 * rest.length := by
  induction rest with
  | nil => rfl
  | cons x rest ih =>
    obtain ⟨op, f⟩ := x
    simp only [chainTokens, List.length_cons, ih]
    omega

theorem chainText_length (rest : List (BinaryOp × Atom))
    (hw : ∀ x ∈ rest, x.2.wellFormed = true) : 2 * rest.length ≤ (chainText rest).length := by
  induction rest with
  | nil => simp
  | cons x rest ih =>
    obtain ⟨op, f⟩ := x
    have hf := atom_text_length_pos f (hw (op, f) (by simp))
    have := ih (fun y hy => hw y (List.mem_cons_of_mem _ hy))
    simp only [chainText, List.length_cons, List.length_append]
    omega

theorem chainTokens_readable (rest : List (BinaryOp × Atom))
    (hw : ∀ x ∈ rest, x.2.wellFormed = true) : Readable (chainTokens rest) := by
  induction rest with
  | nil => exact readable_nil
  | cons x rest ih =>
    obtain ⟨op, f⟩ := x
    have hf := atom_readable f (hw (op, f) (by simp))
    rw [atom_yield] at hf
    exact readable_cons.2 ⟨op_readable _, readable_cons.2
      ⟨(readable_cons.1 hf).1, ih (fun y hy => hw y (List.mem_cons_of_mem _ hy))⟩⟩

theorem additiveTail_yield (rest : List (BinaryOp × Atom))
    (h : ∀ x ∈ rest, x.1.isAdditive = true) : (additiveTail rest).yield = chainTokens rest := by
  induction rest with
  | nil => rfl
  | cons x rest ih =>
    obtain ⟨op, f⟩ := x
    have := (punctuationToken_additive op (h (op, f) (by simp))).1
    simp [additiveTail, chainTokens, CExpTail.yield, CTerm.yield, CTermTail.yield, atom_yield,
      this, ih (fun y hy => h y (List.mem_cons_of_mem _ hy))]

theorem additiveTail_ast (rest : List (BinaryOp × Atom))
    (h : ∀ x ∈ rest, x.1.isAdditive = true) (left : Exp) :
    (additiveTail rest).ast left = leftNested left rest := by
  induction rest generalizing left with
  | nil => rfl
  | cons x rest ih =>
    obtain ⟨op, f⟩ := x
    have := (punctuationToken_additive op (h (op, f) (by simp))).2
    simp [additiveTail, leftNested, CExpTail.ast, CTerm.ast, CTermTail.ast, atom_ast, this,
      ih (fun y hy => h y (List.mem_cons_of_mem _ hy))]

theorem multiplicativeTail_yield (rest : List (BinaryOp × Atom))
    (h : ∀ x ∈ rest, x.1.isMultiplicative = true) :
    (multiplicativeTail rest).yield = chainTokens rest := by
  induction rest with
  | nil => rfl
  | cons x rest ih =>
    obtain ⟨op, f⟩ := x
    have := (punctuationToken_multiplicative op (h (op, f) (by simp))).1
    simp [multiplicativeTail, chainTokens, CTermTail.yield, atom_yield,
      this, ih (fun y hy => h y (List.mem_cons_of_mem _ hy))]

theorem multiplicativeTail_ast (rest : List (BinaryOp × Atom))
    (h : ∀ x ∈ rest, x.1.isMultiplicative = true) (left : Exp) :
    (multiplicativeTail rest).ast left = leftNested left rest := by
  induction rest generalizing left with
  | nil => rfl
  | cons x rest ih =>
    obtain ⟨op, f⟩ := x
    have := (punctuationToken_multiplicative op (h (op, f) (by simp))).2
    simp [multiplicativeTail, leftNested, CTermTail.ast, atom_ast, this,
      ih (fun y hy => h y (List.mem_cons_of_mem _ hy))]

/-- Left associativity for factors of one token: for identifiers and number
literals `f0 ... fn` and operators `op1 ... opn` of one precedence level,
`parse_expression` builds from the text `f0 op1 f1 ... opn fn` the left-nested
tree, reading the whole text; and the tree built from `10-3-2` evaluates to
5. -/
theorem parse_atom_chain (f0 : Atom) (rest : List (BinaryOp × Atom))
    (h0 : f0.wellFormed = true) (hw : ∀ x ∈ rest, x.2.wellFormed = true)
    (hlevel : (∀ x ∈ rest, x.1.isAdditive = true) ∨
      (∀ x ∈ rest, x.1.isMultiplicative = true)) :
    (∀ fuel, fuelFor (f0.text ++ chainText rest) ≤ fuel →
      ∃ q : Parser, Parser.parse_expression fuel
          (Parser.new (Scanner.new (f0.text ++ chainText rest))) =
        .ok (leftNested f0.exp rest) q ∧ q.is_at_end = true) ∧
    (∃ (e : Exp) (q : Parser),
      Parser.parse_expression (fuelFor "10-3-2".toList)
          (Parser.new (Scanner.new "10-3-2".toList)) = .ok e q ∧
        e.eval World.start = .ok 5 World.start) := by
  refine ⟨fun fuel hf => ?_, ?_⟩
  · have hl : Lexes (f0.text ++ chainText rest)
        (f0.token :: (chainTokens rest ++ [Token.ofType .END])) :=
      lexes_cons (lexHead_atom f0 h0 _ (chainText_head rest)) (atom_token_type f0)
        (lexes_chain rest hw)
    have hlen : 3 * (1 + 2 * rest.length) + 2 ≤ fuel := by
      have l0 := atom_text_length_pos f0 h0
      have l1 := chainText_length rest hw
      simp only [fuelFor, List.length_append] at hf
      omega
    have hread : Readable (f0.token :: chainTokens rest) := by
      have hf0 := atom_readable f0 h0
      rw [atom_yield] at hf0
      exact readable_cons.2 ⟨(readable_cons.1 hf0).1, chainTokens_readable rest hw⟩
    rcases hlevel with h | h
    · have e := parse_expression_of_lexes _ (.mk (.mk f0.factor .nil) (additiveTail rest)) fuel
        (by simpa [CExp.yield, CTerm.yield, CTermTail.yield, atom_yield,
          additiveTail_yield rest h] using hl)
        (by simpa [CExp.yield, CTerm.yield, CTermTail.yield, atom_yield,
          additiveTail_yield rest h] using hread)
        (by
          simp only [CExp.yield, CTerm.yield, CTermTail.yield, atom_yield,
            additiveTail_yield rest h, List.length_append, List.length_cons, List.length_nil,
            chainTokens_length]
          omega)
      simpa [CExp.ast, CTerm.ast, CTermTail.ast, atom_ast, additiveTail_ast rest h] using e
    · have e := parse_expression_of_lexes _
        (.mk (.mk f0.factor (multiplicativeTail rest)) .nil) fuel
        (by simpa [CExp.yield, CTerm.yield, CExpTail.yield, atom_yield,
          multiplicativeTail_yield rest h] using hl)
        (by simpa [CExp.yield, CTerm.yield, CExpTail.yield, atom_yield,
          multiplicativeTail_yield rest h] using hread)
        (by
          simp only [CExp.yield, CTerm.yield, CExpTail.yield, atom_yield,
            multiplicativeTail_yield rest h, List.length_append, List.length_cons,
            List.length_nil, chainTokens_length]
          omega)
      simpa [CExp.ast, CTerm.ast, CExpTail.ast, atom_ast, multiplicativeTail_ast rest h] using e
  · exact ⟨.BinaryExp (.BinaryExp (.NumberExp 10) (.NumberExp 3) .MINUS) (.NumberExp 2) .MINUS,
      _, by rfl, by decide⟩

/-! ## The whole pipeline on `print(a+b*c)` -/

theorem wrapInt_of_fits (z : Int) (h0 : 0 ≤ z) (h1 : z ≤ INT_MAX) : wrapInt z = z := by
  unfold wrapInt
  unfold INT_MAX at h1
  omega

/-- The derivation of `print(a+b*c)`. -/
theorem lexes_print_sum_product (a b c : Atom) (ha : a.wellFormed = true)
    (hb : b.wellFormed = true) (hc : c.wellFormed = true) (r : List Char) (ts : List Token)
    (hr : Lexes r ts) :
    Lexes ("print(".toList ++ (a.text ++ chainText [(.PLUS, b), (.MUL, c)] ++ ')' :: r))
      ((CStmt.print (.mk (.mk a.factor .nil)
        (.cons .plus (.mk b.factor (.cons .times c.factor .nil)) .nil))).yield ++ ts) := by
  have h1 : "print(".toList ++ (a.text ++ chainText [(.PLUS, b), (.MUL, c)] ++ ')' :: r) =
      "print".toList ++ '(' :: (a.text ++
        ('+' :: (b.text ++ ('*' :: (c.text ++ ')' :: r))))) := by
    simp [chainText, Exp.bin_op_to_char]
  rw [h1]
  simp only [CStmt.yield, CExp.yield, CTerm.yield, CTermTail.yield, CExpTail.yield, atom_yield,
    List.cons_append, List.nil_append, List.append_nil, List.append_assoc]
  refine lexes_cons (lexHead_print _ (by simp)) (by simp) ?_
  refine lexes_cons (lexHead_punctuation '(' _ (by decide)) (by simp [Token.ofChar]) ?_
  refine lexes_cons (lexHead_atom a ha _ (by simp)) (atom_token_type a) ?_
  refine lexes_cons (lexHead_punctuation '+' _ (by decide)) (by simp [AddOp.token, Token.ofChar])
    ?_
  refine lexes_cons (lexHead_atom b hb _ (by simp)) (atom_token_type b) ?_
  refine lexes_cons (lexHead_punctuation '*' _ (by decide)) (by simp [MulOp.token, Token.ofChar])
    ?_
  refine lexes_cons (lexHead_atom c hc _ (by simp)) (atom_token_type c) ?_
  exact lexes_cons (lexHead_punctuation ')' _ (by decide)) (by simp [Token.ofChar]) hr

theorem print_sum_product_readable (a b c : Atom) (ha : a.wellFormed = true)
    (hb : b.wellFormed = true) (hc : c.wellFormed = true) :
    Readable (CStmt.print (.mk (.mk a.factor .nil)
        (.cons .plus (.mk b.factor (.cons .times c.factor .nil)) .nil))).yield := by
  simp only [CStmt.yield, CExp.yield, CTerm.yield, CTermTail.yield, CExpTail.yield,
    List.append_nil]
  refine readable_cons.2 ⟨by simp, readable_cons.2 ⟨by simp [Token.ofChar], ?_⟩⟩
  refine readable_append.2 ⟨readable_append.2 ⟨atom_readable a ha, readable_cons.2
    ⟨by simp [AddOp.token, Token.ofChar], readable_append.2 ⟨atom_readable b hb, readable_cons.2
      ⟨by simp [MulOp.token, Token.ofChar], atom_readable c hc⟩⟩⟩⟩, ?_⟩
  exact readable_cons.2 ⟨by simp [Token.ofChar], readable_nil⟩

theorem print_sum_product_length (a b c : Atom) :
    (CStmt.print (.mk (.mk a.factor .nil)
        (.cons .plus (.mk b.factor (.cons .times c.factor .nil)) .nil))).yield.length = 8 := by
  simp [CStmt.yield, CExp.yield, CTerm.yield, CTermTail.yield, CExpTail.yield, atom_yield]

/-- The parser on `print(a+b*c)`. -/
theorem parse_print_sum_product (a b c : Atom) (ha : a.wellFormed = true)
    (hb : b.wellFormed = true) (hc : c.wellFormed = true) :
    ∃ q : Parser,
      parse ("print(".toList ++ (a.text ++ chainText [(.PLUS, b), (.MUL, c)] ++ [')'])) =
        .ok ⟨[.PrintStm (.BinaryExp a.exp (.BinaryExp b.exp c.exp .MUL) .PLUS)]⟩ q := by
  have hl := lexes_print_sum_product a b c ha hb hc [] _ lexes_nil
  have hlen := print_sum_product_length a b c
  obtain ⟨q, hq, _⟩ := parse_program_of_sees
    ⟨.print (.mk (.mk a.factor .nil)
      (.cons .plus (.mk b.factor (.cons .times c.factor .nil)) .nil)), []⟩
    (fuelFor ("print(".toList ++ (a.text ++ chainText [(.PLUS, b), (.MUL, c)] ++ [')'])))
    (Parser.new (Scanner.new ("print(".toList ++
      (a.text ++ chainText [(.PLUS, b), (.MUL, c)] ++ [')']))))
    (sees_new (feeds_of_lexes (by simpa [CProgram.yield, yieldRest] using hl)))
    (by simpa [CProgram.yield, yieldRest] using print_sum_product_readable a b c ha hb hc)
    (by
      have h6 : "print(".toList.length = 6 := rfl
      simp only [CProgram.yield, yieldRest, List.append_nil, hlen, fuelFor,
        List.length_append, List.length_cons, List.length_nil, h6]
      omega)
  refine ⟨q, ?_⟩
  simpa [parse, CProgram.ast, CStmt.ast, CExp.ast, CTerm.ast, CTermTail.ast, CExpTail.ast,
    atom_ast, AddOp.op, MulOp.op] using hq

/-- The parser on `print(a+b*c);`: after the `;` it looks for a statement and
finds `END`. -/
theorem parse_print_sum_product_semicolon (a b c : Atom) (ha : a.wellFormed = true)
    (hb : b.wellFormed = true) (hc : c.wellFormed = true) :
    parse ("print(".toList ++ (a.text ++ chainText [(.PLUS, b), (.MUL, c)] ++ ");".toList)) =
      .halt .stmtNotFound := by
  have hsc : Lexes [';'] [Token.ofChar .SC ';', Token.ofType .END] :=
    lexes_cons (lexHead_punctuation ';' [] (by decide)) (by simp [Token.ofChar]) lexes_nil
  have hl := lexes_print_sum_product a b c ha hb hc [';'] _ hsc
  have hlen := print_sum_product_length a b c
  have htext : "print(".toList ++ (a.text ++ chainText [(.PLUS, b), (.MUL, c)] ++ ");".toList)
      = "print(".toList ++ (a.text ++ chainText [(.PLUS, b), (.MUL, c)] ++ ')' :: [';']) := by
    simp
  rw [htext]
  generalize htx : "print(".toList ++ (a.text ++ chainText [(.PLUS, b), (.MUL, c)] ++
    ')' :: [';']) = text at hl
  have hfuel : 25 ≤ fuelFor text := by
    have h6 : "print(".toList.length = 6 := rfl
    rw [← htx]
    simp only [fuelFor, List.length_append, List.length_cons, h6]
    omega
  obtain ⟨n, hn⟩ : ∃ n, fuelFor text = n + 1 := ⟨fuelFor text - 1, by omega⟩
  obtain ⟨q, hq, hs⟩ := (stmt_lands _ (fuelFor text) (Parser.new (Scanner.new text))
    (Token.ofChar .SC ';') [Token.ofType .END] (sees_new (feeds_of_lexes hl))
    (print_sum_product_readable a b c ha hb hc) (by simp [Token.ofChar])
    (by simp [Token.ofChar]) (by simp [Token.ofChar]) (by simp [Token.ofChar])
    (by omega)).ok (by simp [Token.ofChar])
  obtain ⟨q2, hm, _, hs2⟩ := match_token_hit (k := .SC) hs rfl (by simp [Token.ofType])
  have h1 : q2.match_token .ID = .ok false q2 :=
    match_token_miss (by rw [hs2.1]; simp [Token.ofType])
  have h2 : q2.match_token .PRINT = .ok false q2 :=
    match_token_miss (by rw [hs2.1]; simp [Token.ofType])
  unfold parse Parser.parse_program
  rw [hq]
  simp only [PRes.bind]
  rw [hn]
  simp [Parser.program_loop, hm, PRes.bind, Parser.parse_stmt, h1, h2]

/-- C3, counterexample: on `print(1+2*3);`, written with its trailing
semicolon, the run prints no 7; it stops in `parse_stmt` with the message
that no statement was found. -/
theorem run_print_semicolon_counterexample :
    run "print(1+2*3);".toList =
        .halt .stmtNotFound ⟨[], ["Error: Statement not found during Parsing"]⟩ ∧
      (run "print(1+2*3);".toList).out ≠ [toString ((1 : Int) + 2 * 3)] := by
  decide

/-- C3, amended. For number literals `a`, `b`, `c` (runs of digits of value at
most `INT_MAX`) such that `b*c` and `a+b*c` fit an `int`: on the text
`print(a+b*c)`, without a semicolon after it, the run succeeds and standard
output is the one line with the decimal value of `a + b*c`; on the text
`print(a+b*c);` the run stops in `parse_stmt` (no statement after the `;`)
and standard output is the one line of that message. -/
theorem run_print_sum_product (da db dc : List Char)
    (ha : (Atom.number da).wellFormed = true) (hb : (Atom.number db).wellFormed = true)
    (hc : (Atom.number dc).wellFormed = true)
    (hmul : (digitsValue db : Int) * digitsValue dc ≤ INT_MAX)
    (hadd : (digitsValue da : Int) + digitsValue db * digitsValue dc ≤ INT_MAX) :
    run ("print(".toList ++ da ++ ['+'] ++ db ++ ['*'] ++ dc ++ [')']) =
        .ok () ⟨[], [toString ((digitsValue da : Int) + digitsValue db * digitsValue dc)]⟩ ∧
      run ("print(".toList ++ da ++ ['+'] ++ db ++ ['*'] ++ dc ++ ");".toList) =
        .halt .stmtNotFound ⟨[], ["Error: Statement not found during Parsing"]⟩ := by
  constructor
  · obtain ⟨q, hq⟩ := parse_print_sum_product _ _ _ ha hb hc
    have htext : "print(".toList ++ da ++ ['+'] ++ db ++ ['*'] ++ dc ++ [')'] =
        "print(".toList ++ ((Atom.number da).text ++
          chainText [(.PLUS, .number db), (.MUL, .number dc)] ++ [')']) := by
      simp [chainText, Atom.text, Exp.bin_op_to_char]
    have hm : wrapInt ((digitsValue db : Int) * digitsValue dc) =
        (digitsValue db : Int) * digitsValue dc :=
      wrapInt_of_fits _ (by exact_mod_cast Nat.zero_le (digitsValue db * digitsValue dc)) hmul
    have hs : wrapInt ((digitsValue da : Int) + digitsValue db * digitsValue dc) =
        (digitsValue da : Int) + digitsValue db * digitsValue dc :=
      wrapInt_of_fits _
        (by exact_mod_cast Nat.zero_le (digitsValue da + digitsValue db * digitsValue dc)) hadd
    rw [htext]
    simp only [run, hq]
    simp [Program.interpreter, interpret, Stmt.execute, Exp.eval, Res.bind, Atom.exp, hm, hs,
      World.start]
  · have hq := parse_print_sum_product_semicolon _ _ _ ha hb hc
    have htext : "print(".toList ++ da ++ ['+'] ++ db ++ ['*'] ++ dc ++ ");".toList =
        "print(".toList ++ ((Atom.number da).text ++
          chainText [(.PLUS, .number db), (.MUL, .number dc)] ++ ");".toList) := by
      simp [chainText, Atom.text, Exp.bin_op_to_char]
    rw [htext]
    simp only [run, hq]
    simp [Err.diagnostic, World.start]

/-- C3, amended, at `a = 12`, `b = 3`, `c = 4`. -/
theorem run_print_sum_product_witness :
    run "print(12+3*4)".toList = .ok () ⟨[], ["24"]⟩ ∧
      run "print(12+3*4);".toList =
        .halt .stmtNotFound ⟨[], ["Error: Statement not found during Parsing"]⟩ :=
  run_print_sum_product ['1', '2'] ['3'] ['4'] (by decide) (by decide) (by decide)
    (by decide) (by decide)

/-! ## The memory -/

theorem lookup_assign_same (m : Memory) (x : List Char) (v : Int) :
    (Memory.assign m x v).lookup x = some v := by
  induction m with
  | nil => simp [Memory.assign, List.lookup]
  | cons kv rest ih =>
    obtain ⟨k, w⟩ := kv
    unfold Memory.assign
    by_cases h : k = x
    · rw [if_pos h]
      simp [List.lookup, h]
    · rw [if_neg h]
      have : (x == k) = false := by simpa using fun e => h e.symm
      simp [List.lookup, this, ih]

theorem lookup_assign_other (m : Memory) (x y : List Char) (v : Int) (h : y ≠ x) :
    (Memory.assign m x v).lookup y = m.lookup y := by
  induction m with
  | nil =>
    have : (y == x) = false := by simpa using h
    simp [Memory.assign, List.lookup, this]
  | cons kv rest ih =>
    obtain ⟨k, w⟩ := kv
    unfold Memory.assign
    by_cases hk : k = x
    · rw [if_pos hk]
      have : (y == k) = false := by simpa [hk] using h
      simp [List.lookup, this]
    · rw [if_neg hk]
      by_cases hy : (y == k) = true
      · simp [List.lookup, hy]
      · simp only [Bool.not_eq_true] at hy
        simp [List.lookup, hy, ih]

theorem declares_assign (m : Memory) (x y : List Char) (v : Int) :
    (Memory.assign m x v).declares y = true ↔ y = x ∨ m.declares y = true := by
  unfold Memory.declares
  by_cases h : y = x
  · subst h
    simp [lookup_assign_same]
  · rw [lookup_assign_other m x y v h]
    simp [h]

/-! ## Evaluation of expressions -/

/-- The three ways `eval` can end: with a value, the state unchanged and
every identifier of the expression declared; at a division that traps (by
zero, or of `INT_MIN` by -1), the state unchanged; or at an identifier of the
expression that is not declared, the memory unchanged and the diagnostic
written. -/
theorem eval_cases (e : Exp) (w : World) :
    (∃ v, e.eval w = .ok v w ∧ ∀ x ∈ e.ids, w.memory.declares x = true) ∨
      (∃ t, t.isArithmetic = true ∧ e.eval w = .halt t w) ∨
      ∃ y ∈ e.ids, w.memory.declares y = false ∧
        e.eval w = .halt (.undeclared y) ⟨w.memory, w.out ++ (Err.undeclared y).diagnostic⟩ := by
  induction e with
  | NumberExp value => exact Or.inl ⟨value, rfl, by simp [Exp.ids]⟩
  | IdExp id =>
    cases hl : w.memory.lookup id with
    | none =>
      refine Or.inr (Or.inr ⟨id, by simp [Exp.ids], by rw [Memory.declares, hl]; rfl, ?_⟩)
      simp [Exp.eval, Memory.count, hl]
    | some v =>
      refine Or.inl ⟨v, ?_, ?_⟩
      · simp [Exp.eval, Memory.count, Memory.index, hl]
      · intro x hx
        simp only [Exp.ids, List.mem_singleton] at hx
        rw [hx, Memory.declares, hl]
        rfl
  | BinaryExp left right op ihl ihr =>
    rcases ihl with ⟨v1, h1, d1⟩ | ⟨t, ht, h1⟩ | ⟨y, hy, hd, h1⟩
    · rcases ihr with ⟨v2, h2, d2⟩ | ⟨t, ht, h2⟩ | ⟨y, hy, hd, h2⟩
      · cases op
        · exact Or.inl ⟨wrapInt (v1 + v2), by simp [Exp.eval, h1, h2, Res.bind], by
            simp only [Exp.ids, List.mem_append]
            rintro x (hx | hx)
            · exact d1 x hx
            · exact d2 x hx⟩
        · exact Or.inl ⟨wrapInt (v1 - v2), by simp [Exp.eval, h1, h2, Res.bind], by
            simp only [Exp.ids, List.mem_append]
            rintro x (hx | hx)
            · exact d1 x hx
            · exact d2 x hx⟩
        · exact Or.inl ⟨wrapInt (v1 * v2), by simp [Exp.eval, h1, h2, Res.bind], by
            simp only [Exp.ids, List.mem_append]
            rintro x (hx | hx)
            · exact d1 x hx
            · exact d2 x hx⟩
        · by_cases hz : v2 = 0
          · exact Or.inr (Or.inl ⟨.divisionByZero, rfl,
              by simp [Exp.eval, h1, h2, Res.bind, hz]⟩)
          · by_cases hpair : v1 = INT_MIN ∧ v2 = -1
            · exact Or.inr (Or.inl ⟨.divisionOverflow, rfl, by
                simp only [Exp.eval, h1, h2, Res.bind, if_neg hz, if_pos hpair]⟩)
            · exact Or.inl ⟨wrapInt (v1.tdiv v2), by
                simp only [Exp.eval, h1, h2, Res.bind, if_neg hz, if_neg hpair], by
                simp only [Exp.ids, List.mem_append]
                rintro x (hx | hx)
                · exact d1 x hx
                · exact d2 x hx⟩
      · exact Or.inr (Or.inl ⟨t, ht, by simp [Exp.eval, h1, h2, Res.bind]⟩)
      · exact Or.inr (Or.inr ⟨y, by simp [Exp.ids, hy], hd,
          by simp [Exp.eval, h1, h2, Res.bind]⟩)
    · exact Or.inr (Or.inl ⟨t, ht, by simp [Exp.eval, h1, Res.bind]⟩)
    · exact Or.inr (Or.inr ⟨y, by simp [Exp.ids, hy], hd, by simp [Exp.eval, h1, Res.bind]⟩)

/-- An evaluation that returns a value leaves the state as it was. -/
theorem eval_ok_world {e : Exp} {w w1 : World} {v : Int} (h : e.eval w = .ok v w1) :
    w1 = w := by
  rcases eval_cases e w with ⟨v2, h2, _⟩ | ⟨t, _, h2⟩ | ⟨y, _, _, h2⟩
  · rw [h2] at h
    cases h
    rfl
  · rw [h2] at h; cases h
  · rw [h2] at h; cases h

/-! ## Statements -/

/-- C7. Assignment: when the expression `e` evaluates to `v` in the state `w`,
`AssignStm(x, e).execute()` succeeds; in the state it leaves, the memory binds
`x` to `v` (whether or not `x` was a key before) and every other name as
before, and standard output is as before; a later read of `x` returns `v`.
The statements `x=5` then `print(x*x)` print 25. -/
theorem assign_execute (w : World) (x : List Char) (e : Exp) (v : Int) (w1 : World)
    (h : e.eval w = .ok v w1) :
    ∃ w2 : World, (Stmt.AssignStm x e).execute w = .ok () w2 ∧
      w2.memory.lookup x = some v ∧
      (∀ y, y ≠ x → w2.memory.lookup y = w.memory.lookup y) ∧
      w2.out = w.out ∧
      (Exp.IdExp x).eval w2 = .ok v w2 ∧
      run "x=5;print(x*x)".toList = .ok () ⟨[(['x'], 5)], ["25"]⟩ := by
  have hw := eval_ok_world h
  subst hw
  refine ⟨⟨Memory.assign w1.memory x v, w1.out⟩, ?_, lookup_assign_same _ _ _,
    fun y hy => lookup_assign_other _ _ _ _ hy, rfl, ?_, by decide⟩
  · simp [Stmt.execute, h, Res.bind]
  · simp [Exp.eval, Memory.count, Memory.index, lookup_assign_same]

/-- C7, at the assignment `x = 2 + 3` in a memory that binds `x` and `y`. -/
theorem assign_execute_witness :
    ∃ w2 : World,
      (Stmt.AssignStm ['x'] (.BinaryExp (.NumberExp 2) (.NumberExp 3) .PLUS)).execute
          ⟨[(['y'], 7), (['x'], 1)], ["7"]⟩ = .ok () w2 ∧
      w2.memory.lookup ['x'] = some 5 ∧
      (∀ y, y ≠ ['x'] →
        w2.memory.lookup y = (⟨[(['y'], 7), (['x'], 1)], ["7"]⟩ : World).memory.lookup y) ∧
      w2.out = (⟨[(['y'], 7), (['x'], 1)], ["7"]⟩ : World).out ∧
      (Exp.IdExp ['x']).eval w2 = .ok 5 w2 ∧
      run "x=5;print(x*x)".toList = .ok () ⟨[(['x'], 5)], ["25"]⟩ :=
  assign_execute ⟨[(['y'], 7), (['x'], 1)], ["7"]⟩ ['x']
    (.BinaryExp (.NumberExp 2) (.NumberExp 3) .PLUS) 5 ⟨[(['y'], 7), (['x'], 1)], ["7"]⟩
    (by decide)

/-- The three ways a statement can end, after `eval_cases`. -/
theorem execute_cases (s : Stmt) (w : World) :
    (∃ w1, s.execute w = .ok () w1 ∧ (∀ x ∈ s.exp.ids, w.memory.declares x = true) ∧
        (∀ x, w1.memory.declares x = true ↔ (w.memory.declares x = true ∨ x ∈ assigned [s])) ∧
        ∃ lines, w1.out = w.out ++ lines ∧ lines.length = prints [s]) ∨
      (∃ t, t.isArithmetic = true ∧ s.execute w = .halt t w) ∨
      ∃ y ∈ s.exp.ids, w.memory.declares y = false ∧
        s.execute w = .halt (.undeclared y) ⟨w.memory, w.out ++ (Err.undeclared y).diagnostic⟩ := by
  cases s with
  | AssignStm id e =>
    rcases eval_cases e w with ⟨v, hv, hd⟩ | ⟨t, ht, h⟩ | ⟨y, hy, hd, h⟩
    · refine Or.inl ⟨⟨Memory.assign w.memory id v, w.out⟩, by simp [Stmt.execute, hv, Res.bind],
        hd, fun x => ?_, [], by simp, rfl⟩
      simp only [declares_assign, assigned, List.mem_singleton]
      tauto
    · exact Or.inr (Or.inl ⟨t, ht, by simp [Stmt.execute, h, Res.bind]⟩)
    · exact Or.inr (Or.inr ⟨y, hy, hd, by simp [Stmt.execute, h, Res.bind]⟩)
  | PrintStm e =>
    rcases eval_cases e w with ⟨v, hv, hd⟩ | ⟨t, ht, h⟩ | ⟨y, hy, hd, h⟩
    · refine Or.inl ⟨⟨w.memory, w.out ++ [toString v]⟩, by simp [Stmt.execute, hv, Res.bind],
        hd, fun x => ?_, [toString v], rfl, rfl⟩
      simp [assigned]
    · exact Or.inr (Or.inl ⟨t, ht, by simp [Stmt.execute, h, Res.bind]⟩)
    · exact Or.inr (Or.inr ⟨y, hy, hd, by simp [Stmt.execute, h, Res.bind]⟩)

theorem interpret_append (pre rest : List Stmt) (w : World) :
    interpret (pre ++ rest) w = (interpret pre w).bind fun _ w1 => interpret rest w1 := by
  induction pre generalizing w with
  | nil => simp [interpret, Res.bind]
  | cons s pre ih =>
    simp only [List.cons_append, interpret]
    cases hs : s.execute w with
    | ok a w1 => simp [Res.bind, ih]
    | halt e w1 => simp [Res.bind]

theorem assigned_append (pre rest : List Stmt) :
    assigned (pre ++ rest) = assigned pre ++ assigned rest := by
  induction pre with
  | nil => rfl
  | cons s pre ih => cases s <;> simp [assigned, ih]

theorem prints_append (pre rest : List Stmt) :
    prints (pre ++ rest) = prints pre + prints rest := by
  induction pre with
  | nil => simp [prints]
  | cons s pre ih =>
    cases s with
    | AssignStm id e => simp [prints, ih]
    | PrintStm e =>
      show prints (pre ++ rest) + 1 = prints pre + 1 + prints rest
      rw [ih]
      omega

/-- A list of statements in which every identifier is declared at the start
or assigned by an earlier statement runs to its end, unless a division traps;
the keys of the memory are then the keys at the start and the assigned
names. -/
theorem interpret_bound (prog : List Stmt) : ∀ (w0 : World),
    (∀ pre s post, prog = pre ++ s :: post →
      ∀ x ∈ s.exp.ids, w0.memory.declares x = true ∨ x ∈ assigned pre) →
    (∃ w, interpret prog w0 = .ok () w ∧
        ∀ x, w.memory.declares x = true ↔ (w0.memory.declares x = true ∨ x ∈ assigned prog)) ∨
      ∃ t w, t.isArithmetic = true ∧ interpret prog w0 = .halt t w := by
  induction prog with
  | nil =>
    intro w0 _
    exact Or.inl ⟨w0, rfl, by simp [assigned]⟩
  | cons s rest ih =>
    intro w0 hb
    rcases execute_cases s w0 with ⟨w1, h1, _, hk, _⟩ | ⟨t, ht, h1⟩ | ⟨y, hy, hd, _⟩
    · have hb1 : ∀ pre t post, rest = pre ++ t :: post →
          ∀ x ∈ t.exp.ids, w1.memory.declares x = true ∨ x ∈ assigned pre := by
        intro pre t post hr x hx
        have := hb (s :: pre) t post (by simp [hr]) x hx
        rw [show s :: pre = [s] ++ pre from rfl, assigned_append, List.mem_append] at this
        rw [hk x]
        tauto
      rcases ih w1 hb1 with ⟨w, hw, hkeys⟩ | ⟨t, w, ht, hw⟩
      · refine Or.inl ⟨w, by simp [interpret, h1, Res.bind, hw], fun x => ?_⟩
        rw [hkeys x, hk x, show s :: rest = [s] ++ rest from rfl, assigned_append,
          List.mem_append]
        tauto
      · exact Or.inr ⟨t, w, ht, by simp [interpret, h1, Res.bind, hw]⟩
    · exact Or.inr ⟨t, w0, ht, by simp [interpret, h1, Res.bind]⟩
    · have := hb [] s rest rfl y hy
      simp [hd, assigned] at this

/-- The output of a list of statements that runs to its end: what was there,
then one line per `print` statement. -/
theorem interpret_out (prog : List Stmt) : ∀ (w0 w : World), interpret prog w0 = .ok () w →
    ∃ lines, w.out = w0.out ++ lines ∧ lines.length = prints prog := by
  induction prog with
  | nil =>
    intro w0 w h
    simp only [interpret, Res.ok.injEq, true_and] at h
    exact ⟨[], by simp [h], rfl⟩
  | cons s rest ih =>
    intro w0 w h
    rcases execute_cases s w0 with ⟨w1, h1, _, _, l1, ho1, hl1⟩ | ⟨_, _, h1⟩ | ⟨y, _, _, h1⟩
    · simp only [interpret, h1, Res.bind] at h
      obtain ⟨l2, ho2, hl2⟩ := ih w1 w h
      refine ⟨l1 ++ l2, by rw [ho2, ho1, List.append_assoc], ?_⟩
      rw [show s :: rest = [s] ++ rest from rfl, prints_append, List.length_append, hl1, hl2]
    · simp [interpret, h1, Res.bind] at h
    · simp [interpret, h1, Res.bind] at h

/-- Among the statements that satisfy a property of the statement and of what
precedes it, there is a first one. -/
theorem exists_first (P : List Stmt → Stmt → Prop) (prog : List Stmt)
    (h : ∃ pre s post, prog = pre ++ s :: post ∧ P pre s) :
    ∃ pre s post, prog = pre ++ s :: post ∧ P pre s ∧
      ∀ pre1 s1 post1, pre = pre1 ++ s1 :: post1 → ¬ P pre1 s1 := by
  obtain ⟨pre, s, post, hp, hP⟩ := h
  generalize hn : pre.length = n
  induction n using Nat.strong_induction_on generalizing pre s post with
  | _ n ih =>
    by_cases hex : ∃ pre1 s1 post1, pre = pre1 ++ s1 :: post1 ∧ P pre1 s1
    · obtain ⟨pre1, s1, post1, hp1, hP1⟩ := hex
      refine ih pre1.length ?_ pre1 s1 (post1 ++ s :: post) ?_ hP1 rfl
      · rw [← hn, hp1]
        simp
      · rw [hp, hp1]
        simp
    · refine ⟨pre, s, post, hp, hP, fun pre1 s1 post1 hp1 hP1 => hex ⟨pre1, s1, post1, hp1, hP1⟩⟩

theorem start_declares (x : List Char) : World.start.memory.declares x = false := rfl

/-- What the run does at the first statement that refers to an identifier no
earlier statement assigned. -/
theorem interpret_first_unbound (pre : List Stmt) (s : Stmt) (post : List Stmt)
    (hdiv : ∀ t w, t.isArithmetic = true →
      interpret (pre ++ s :: post) World.start ≠ .halt t w)
    (hu : Unbound pre s)
    (hfirst : ∀ pre1 s1 post1, pre = pre1 ++ s1 :: post1 → ¬ Unbound pre1 s1) :
    ∃ w x, interpret pre World.start = .ok () w ∧ x ∈ s.exp.ids ∧
      interpret (pre ++ s :: post) World.start =
        .halt (.undeclared x) ⟨w.memory, w.out ++ (Err.undeclared x).diagnostic⟩ := by
  have hb : ∀ pre1 s1 post1, pre = pre1 ++ s1 :: post1 →
      ∀ x ∈ s1.exp.ids, World.start.memory.declares x = true ∨ x ∈ assigned pre1 := by
    intro pre1 s1 post1 hp x hx
    by_contra hc
    exact hfirst pre1 s1 post1 hp ⟨x, hx, fun hm => hc (Or.inr hm)⟩
  rcases interpret_bound pre World.start hb with ⟨w, hw, hkeys⟩ | ⟨t, w, ht, hw⟩
  · obtain ⟨x, hx, hxa⟩ := hu
    have hnd : w.memory.declares x = false := by
      have := hkeys x
      simp only [start_declares, Bool.false_eq_true, false_or] at this
      cases hd : w.memory.declares x with
      | false => rfl
      | true => exact absurd (this.1 hd) hxa
    rcases execute_cases s w with ⟨w1, _, hall, _, _⟩ | ⟨t, ht, h1⟩ | ⟨y, hy, _, h1⟩
    · rw [hall x hx] at hnd
      cases hnd
    · exact absurd (by simp [interpret_append, hw, Res.bind, interpret, h1])
        (hdiv t w ht)
    · exact ⟨w, y, hw, hy, by simp [interpret_append, hw, Res.bind, interpret, h1]⟩
  · exact absurd (by simp [interpret_append, hw, Res.bind]) (hdiv t w ht)

/-- C6, counterexample: the text `x=(0-2147483647-1)/(0-1);print(y)` parses,
no division by zero is evaluated (the divisor is -1), and `print(y)` refers to
`y`, which no earlier statement assigned; but the first statement divides
`INT_MIN` by -1, and the run is killed there: it does not end with the
undeclared-variable error. -/
theorem undeclared_counterexample :
    (parse "x=(0-2147483647-1)/(0-1);print(y)".toList).value =
        some ⟨[.AssignStm ['x'] (.BinaryExp
            (.BinaryExp (.BinaryExp (.NumberExp 0) (.NumberExp 2147483647) .MINUS)
              (.NumberExp 1) .MINUS)
            (.BinaryExp (.NumberExp 0) (.NumberExp 1) .MINUS) .DIV),
          .PrintStm (.IdExp ['y'])]⟩ ∧
      (Exp.BinaryExp (.BinaryExp (.NumberExp 0) (.NumberExp 2147483647) .MINUS)
          (.NumberExp 1) .MINUS).eval World.start = .ok INT_MIN World.start ∧
      (Exp.BinaryExp (.NumberExp 0) (.NumberExp 1) .MINUS).eval World.start =
        .ok (-1) World.start ∧
      ['y'] ∈ (Stmt.PrintStm (.IdExp ['y'])).exp.ids ∧
      ['y'] ∉ assigned [.AssignStm ['x'] (.BinaryExp
        (.BinaryExp (.BinaryExp (.NumberExp 0) (.NumberExp 2147483647) .MINUS)
          (.NumberExp 1) .MINUS)
        (.BinaryExp (.NumberExp 0) (.NumberExp 1) .MINUS) .DIV)] ∧
      run "x=(0-2147483647-1)/(0-1);print(y)".toList = .halt .divisionOverflow ⟨[], []⟩ ∧
      Err.divisionOverflow.exitCode = none := by
  decide!

/-- C6, amended. Undeclared variables: a program run from the empty memory,
in which no division by zero and no division of `INT_MIN` by -1 is evaluated,
ends with the undeclared-variable error if and only if the expression of some
statement refers to an identifier that no earlier statement assigned.  When
it does, the statements before the first such statement run to their end,
and the run ends at that statement: the memory is the one they left, and
standard output is what they wrote followed by the diagnostic of the error,
whose exit status is 1. -/
theorem undeclared_iff (prog : Program)
    (hdiv : ∀ w, prog.interpreter World.start ≠ .halt .divisionByZero w)
    (hmin : ∀ w, prog.interpreter World.start ≠ .halt .divisionOverflow w) :
    ((∃ x w, prog.interpreter World.start = .halt (.undeclared x) w) ↔
        ∃ pre s post, prog.slist = pre ++ s :: post ∧ Unbound pre s) ∧
      (∀ pre s post, prog.slist = pre ++ s :: post → Unbound pre s →
        (∀ pre1 s1 post1, pre = pre1 ++ s1 :: post1 → ¬ Unbound pre1 s1) →
        ∃ w x, interpret pre World.start = .ok () w ∧ x ∈ s.exp.ids ∧
          prog.interpreter World.start = .halt (.undeclared x)
            ⟨w.memory, w.out ++ ["Error: variable '" ++ String.mk x ++ "' not declared."]⟩ ∧
          (Err.undeclared x).exitCode = some 1) := by
  unfold Program.interpreter at hdiv hmin ⊢
  have htrap : ∀ t w, t.isArithmetic = true → interpret prog.slist World.start ≠ .halt t w := by
    intro t w ht
    cases t <;> first | exact hdiv w | exact hmin w | cases ht
  have hsecond : ∀ pre s post, prog.slist = pre ++ s :: post → Unbound pre s →
      (∀ pre1 s1 post1, pre = pre1 ++ s1 :: post1 → ¬ Unbound pre1 s1) →
      ∃ w x, interpret pre World.start = .ok () w ∧ x ∈ s.exp.ids ∧
        interpret prog.slist World.start = .halt (.undeclared x)
          ⟨w.memory, w.out ++ ["Error: variable '" ++ String.mk x ++ "' not declared."]⟩ ∧
        (Err.undeclared x).exitCode = some 1 := by
    intro pre s post hp hu hfirst
    rw [hp] at htrap ⊢
    obtain ⟨w, x, hw, hx, hr⟩ := interpret_first_unbound pre s post htrap hu hfirst
    exact ⟨w, x, hw, hx, hr, rfl⟩
  refine ⟨⟨fun hund => ?_, fun hex => ?_⟩, hsecond⟩
  · by_contra hno
    have hb : ∀ pre s post, prog.slist = pre ++ s :: post →
        ∀ x ∈ s.exp.ids, World.start.memory.declares x = true ∨ x ∈ assigned pre := by
      intro pre s post hp x hx
      by_contra hc
      exact hno ⟨pre, s, post, hp, x, hx, fun hm => hc (Or.inr hm)⟩
    obtain ⟨x, w, hxw⟩ := hund
    rcases interpret_bound prog.slist World.start hb with ⟨w2, hw2, _⟩ | ⟨t, w2, ht, hw2⟩
    · rw [hw2] at hxw; cases hxw
    · rw [hw2] at hxw
      simp only [Res.halt.injEq] at hxw
      rw [hxw.1] at ht
      cases ht
  · obtain ⟨pre, s, post, hp, hu, hfirst⟩ := exists_first Unbound prog.slist hex
    obtain ⟨w, x, _, _, hr, _⟩ := hsecond pre s post hp hu hfirst
    exact ⟨x, _, hr⟩

/-- C6, amended, at the program `x=8/2; print(x); print(y+x); x=2`. -/
theorem undeclared_iff_witness :
    ∃ w x, interpret [.AssignStm ['x'] (.BinaryExp (.NumberExp 8) (.NumberExp 2) .DIV),
        .PrintStm (.IdExp ['x'])] World.start =
        .ok () w ∧ x ∈ (Stmt.PrintStm (.BinaryExp (.IdExp ['y']) (.IdExp ['x']) .PLUS)).exp.ids ∧
      (Program.mk [.AssignStm ['x'] (.BinaryExp (.NumberExp 8) (.NumberExp 2) .DIV),
          .PrintStm (.IdExp ['x']),
          .PrintStm (.BinaryExp (.IdExp ['y']) (.IdExp ['x']) .PLUS),
          .AssignStm ['x'] (.NumberExp 2)]).interpreter World.start =
        .halt (.undeclared x)
          ⟨w.memory, w.out ++ ["Error: variable '" ++ String.mk x ++ "' not declared."]⟩ ∧
      (Err.undeclared x).exitCode = some 1 :=
  (undeclared_iff ⟨[.AssignStm ['x'] (.BinaryExp (.NumberExp 8) (.NumberExp 2) .DIV),
      .PrintStm (.IdExp ['x']),
      .PrintStm (.BinaryExp (.IdExp ['y']) (.IdExp ['x']) .PLUS),
      .AssignStm ['x'] (.NumberExp 2)]⟩
      (by
        intro w h
        have hr : (Program.mk [.AssignStm ['x'] (.BinaryExp (.NumberExp 8) (.NumberExp 2) .DIV),
            .PrintStm (.IdExp ['x']),
            .PrintStm (.BinaryExp (.IdExp ['y']) (.IdExp ['x']) .PLUS),
            .AssignStm ['x'] (.NumberExp 2)]).interpreter World.start =
            .halt (.undeclared ['y'])
              ⟨[(['x'], 4)], ["4", "Error: variable 'y' not declared."]⟩ := by decide
        rw [hr] at h
        cases h)
      (by
        intro w h
        have hr : (Program.mk [.AssignStm ['x'] (.BinaryExp (.NumberExp 8) (.NumberExp 2) .DIV),
            .PrintStm (.IdExp ['x']),
            .PrintStm (.BinaryExp (.IdExp ['y']) (.IdExp ['x']) .PLUS),
            .AssignStm ['x'] (.NumberExp 2)]).interpreter World.start =
            .halt (.undeclared ['y'])
              ⟨[(['x'], 4)], ["4", "Error: variable 'y' not declared."]⟩ := by decide
        rw [hr] at h
        cases h)).2
    [.AssignStm ['x'] (.BinaryExp (.NumberExp 8) (.NumberExp 2) .DIV), .PrintStm (.IdExp ['x'])]
    (.PrintStm (.BinaryExp (.IdExp ['y']) (.IdExp ['x']) .PLUS))
    [.AssignStm ['x'] (.NumberExp 2)] rfl
    ⟨['y'], by decide, by decide⟩
    (by
      intro pre1 s1 post1 hp hu
      obtain ⟨x, hx, hn⟩ := hu
      rcases pre1 with _ | ⟨a, _ | ⟨b, pre1⟩⟩
      · simp only [List.nil_append, List.cons.injEq] at hp
        rw [← hp.1] at hx
        simp [Stmt.exp, Exp.ids] at hx
      · simp only [List.cons_append, List.nil_append, List.cons.injEq] at hp
        rw [← hp.1] at hn
        rw [← hp.2.1] at hx
        simp only [Stmt.exp, Exp.ids, List.mem_singleton] at hx
        rw [hx] at hn
        exact hn (by simp [assigned])
      · simp at hp)

/-- The parts of a run that reaches its end, around one of its statements. -/
theorem interpret_split (pre : List Stmt) (s : Stmt) (post : List Stmt) (w0 w : World)
    (h : interpret (pre ++ s :: post) w0 = .ok () w) :
    ∃ wpre w1, interpret pre w0 = .ok () wpre ∧ s.execute wpre = .ok () w1 ∧
      interpret post w1 = .ok () w := by
  rw [interpret_append] at h
  cases hp : interpret pre w0 with
  | halt e w2 => simp [hp, Res.bind] at h
  | ok u wpre =>
    simp only [hp, Res.bind, interpret] at h
    cases hs : s.execute wpre with
    | halt e w2 => simp [hs] at h
    | ok u2 w1 =>
      simp only [hs] at h
      exact ⟨wpre, w1, rfl, hs, h⟩

/-- C8. Output of a successful run: when the program runs to its end from the
start state, standard output has exactly one line per `print` statement, in
program order: the line of each `print` statement is the decimal
representation of the value of its expression in the state left by the
statements before it.  An assignment writes nothing. -/
theorem output_of_run (prog : Program) (w : World)
    (h : prog.interpreter World.start = .ok () w) :
    w.out.length = prints prog.slist ∧
      (∀ pre e post, prog.slist = pre ++ .PrintStm e :: post →
        ∃ wpre v, interpret pre World.start = .ok () wpre ∧ e.eval wpre = .ok v wpre ∧
          w.out[prints pre]? = some (toString v)) ∧
      (∀ pre x e post, prog.slist = pre ++ .AssignStm x e :: post →
        ∃ wpre w1, interpret pre World.start = .ok () wpre ∧
          (Stmt.AssignStm x e).execute wpre = .ok () w1 ∧ w1.out = wpre.out) := by
  unfold Program.interpreter at h
  refine ⟨?_, fun pre e post hp => ?_, fun pre x e post hp => ?_⟩
  · obtain ⟨lines, ho, hl⟩ := interpret_out prog.slist World.start w h
    rw [ho, ← hl]
    simp [World.start]
  · rw [hp] at h
    obtain ⟨wpre, w1, h1, h2, h3⟩ := interpret_split pre _ post _ _ h
    obtain ⟨l1, ho1, hl1⟩ := interpret_out pre World.start wpre h1
    obtain ⟨l3, ho3, _⟩ := interpret_out post w1 w h3
    rcases eval_cases e wpre with ⟨v, hv, _⟩ | ⟨_, _, hd⟩ | ⟨y, _, _, hd⟩
    · refine ⟨wpre, v, h1, hv, ?_⟩
      simp only [Stmt.execute, hv, Res.bind, Res.ok.injEq, true_and] at h2
      rw [ho3, ← h2, ho1, ← hl1]
      simp [World.start, List.getElem_append_right]
    · simp [Stmt.execute, hd, Res.bind] at h2
    · simp [Stmt.execute, hd, Res.bind] at h2
  · rw [hp] at h
    obtain ⟨wpre, w1, h1, h2, _⟩ := interpret_split pre _ post _ _ h
    refine ⟨wpre, w1, h1, h2, ?_⟩
    rcases eval_cases e wpre with ⟨v, hv, _⟩ | ⟨_, _, hd⟩ | ⟨y, _, _, hd⟩
    · simp only [Stmt.execute, hv, Res.bind, Res.ok.injEq, true_and] at h2
      rw [← h2]
    · simp [Stmt.execute, hd, Res.bind] at h2
    · simp [Stmt.execute, hd, Res.bind] at h2

/-- C8, at the program `print(7); x=2; print(x*10)`. -/
theorem output_of_run_witness :
    (⟨[(['x'], 2)], ["7", "20"]⟩ : World).out.length =
        prints [.PrintStm (.NumberExp 7), .AssignStm ['x'] (.NumberExp 2),
          .PrintStm (.BinaryExp (.IdExp ['x']) (.NumberExp 10) .MUL)] ∧
      ∃ wpre v, interpret [.PrintStm (.NumberExp 7), .AssignStm ['x'] (.NumberExp 2)]
          World.start = .ok () wpre ∧
        (Exp.BinaryExp (.IdExp ['x']) (.NumberExp 10) .MUL).eval wpre = .ok v wpre ∧
        (⟨[(['x'], 2)], ["7", "20"]⟩ : World).out[prints
          [.PrintStm (.NumberExp 7), .AssignStm ['x'] (.NumberExp 2)]]? = some (toString v) :=
  have h := output_of_run
    ⟨[.PrintStm (.NumberExp 7), .AssignStm ['x'] (.NumberExp 2),
      .PrintStm (.BinaryExp (.IdExp ['x']) (.NumberExp 10) .MUL)]⟩
    ⟨[(['x'], 2)], ["7", "20"]⟩ (by decide)
  ⟨h.1, h.2.1 [.PrintStm (.NumberExp 7), .AssignStm ['x'] (.NumberExp 2)]
    (.BinaryExp (.IdExp ['x']) (.NumberExp 10) .MUL) [] rfl⟩

/-! ## What the parser lets through -/

theorem countType_append (k : TokenType) (a b : List Token) :
    countType k (a ++ b) = countType k a + countType k b := by
  simp [countType, List.countP_append]

theorem countType_cons (k : TokenType) (t : Token) (a : List Token) :
    countType k (t :: a) = countType k a + (if t.type = k then 1 else 0) := by
  simp [countType, List.countP_cons]

theorem countType_nil (k : TokenType) : countType k [] = 0 := rfl

mutual

theorem factor_balanced : ∀ (f : CFactor), countType .LP f.yield = countType .RP f.yield
  | .id _ => by simp [CFactor.yield, countType_cons, countType_nil]
  | .num _ => by simp [CFactor.yield, countType_cons, countType_nil]
  | .paren e => by
    simp [CFactor.yield, countType_cons, countType_append, countType_nil, Token.ofChar,
      exp_balanced e]

theorem termTail_balanced : ∀ (tt : CTermTail), countType .LP tt.yield = countType .RP tt.yield
  | .nil => by simp [CTermTail.yield, countType_nil]
  | .cons op f tt => by
    cases op <;>
      simp [CTermTail.yield, countType_cons, countType_append, MulOp.token, Token.ofChar,
        factor_balanced f, termTail_balanced tt]

theorem term_balanced : ∀ (t : CTerm), countType .LP t.yield = countType .RP t.yield
  | .mk f tt => by
    simp [CTerm.yield, countType_append, factor_balanced f, termTail_balanced tt]

theorem expTail_balanced : ∀ (et : CExpTail), countType .LP et.yield = countType .RP et.yield
  | .nil => by simp [CExpTail.yield, countType_nil]
  | .cons op t et => by
    cases op <;>
      simp [CExpTail.yield, countType_cons, countType_append, AddOp.token, Token.ofChar,
        term_balanced t, expTail_balanced et]

theorem exp_balanced : ∀ (e : CExp), countType .LP e.yield = countType .RP e.yield
  | .mk t et => by
    simp [CExp.yield, countType_append, term_balanced t, expTail_balanced et]

end

theorem stmt_balanced (s : CStmt) : countType .LP s.yield = countType .RP s.yield := by
  cases s with
  | assign lexema e =>
    simp [CStmt.yield, countType_cons, Token.ofChar, exp_balanced e]
  | print e =>
    simp [CStmt.yield, countType_cons, countType_append, countType_nil, Token.ofChar,
      exp_balanced e]

theorem yieldRest_balanced (ss : List CStmt) :
    countType .LP (yieldRest ss) = countType .RP (yieldRest ss) := by
  induction ss with
  | nil => rfl
  | cons s ss ih =>
    simp [yieldRest, countType_cons, countType_append, Token.ofChar, stmt_balanced s, ih]

/-- In a token sequence derived from `Program` there are as many `(` as `)`. -/
theorem derivable_balanced {ts : List Token} (h : Derivable ts) :
    countType .LP ts = countType .RP ts := by
  obtain ⟨c, rfl⟩ := h
  simp [CProgram.yield, countType_append, stmt_balanced c.first, yieldRest_balanced c.rest]

/-- C4, failing input `x=1)`: the text has no unrecognized character, and its
token sequence `x = 1 )` is not derivable from `Program`; yet `parse_program`
returns the program of the one statement `x=1`, and the run executes it. -/
theorem parse_program_lets_through :
    tokenize "x=1)".toList =
        [⟨.ID, ['x']⟩, ⟨.ASSIGN, ['=']⟩, ⟨.NUM, ['1']⟩, ⟨.RP, [')']⟩, Token.ofType .END] ∧
      ¬ Derivable [⟨.ID, ['x']⟩, ⟨.ASSIGN, ['=']⟩, ⟨.NUM, ['1']⟩, ⟨.RP, [')']⟩] ∧
      (∃ q : Parser, parse "x=1)".toList = .ok ⟨[.AssignStm ['x'] (.NumberExp 1)]⟩ q) ∧
      run "x=1)".toList = .ok () ⟨[(['x'], 1)], []⟩ := by
  refine ⟨by decide, fun h => ?_, ⟨_, by rfl⟩, by decide⟩
  have := derivable_balanced h
  revert this
  decide

/-- C10, failing input `@`: the first token the scanner hands the parser is
an `ERR` token, and the run ends in `parse_stmt` with the message of a syntax
error, not in `advance` with the message of the lexical error. -/
theorem first_token_err_not_lexical :
    (Scanner.new "@".toList).next_token.1 = Token.ofChar .ERR '@' ∧
      run "@".toList =
        .halt .stmtNotFound ⟨[], ["Error: Statement not found during Parsing"]⟩ ∧
      Err.stmtNotFound.isSyntax = true ∧ Err.stmtNotFound.isLexical = false := by
  decide

/-! ## Lexical errors -/

/-- Whenever `advance` gets an `ERR` token from the scanner, it ends the run
with the lexical error that names the lexeme. -/
theorem advance_err (p : Parser) (hend : p.is_at_end = false)
    (herr : p.scanner.next_token.1.type = .ERR) :
    p.advance = .halt (.unrecognizedChar p.scanner.next_token.1.lexema) := by
  have hc : ¬ p.current.type = .END := by simpa [Parser.is_at_end] using hend
  simp [Parser.advance, Parser.check, Parser.is_at_end, herr, hc]

/-- The interpreter ends a run only at an undeclared identifier or at a
division that traps. -/
theorem interpret_halt (prog : List Stmt) : ∀ (w0 w : World) (e : Err),
    interpret prog w0 = .halt e w → e.isArithmetic = true ∨ ∃ y, e = .undeclared y := by
  induction prog with
  | nil => intro w0 w e h; simp [interpret] at h
  | cons s rest ih =>
    intro w0 w e h
    rcases execute_cases s w0 with ⟨w1, h1, _⟩ | ⟨t, ht, h1⟩ | ⟨y, _, _, h1⟩
    · simp only [interpret, h1, Res.bind] at h
      exact ih w1 w e h
    · simp only [interpret, h1, Res.bind, Res.halt.injEq] at h
      exact Or.inl (h.1 ▸ ht)
    · simp only [interpret, h1, Res.bind, Res.halt.injEq] at h
      exact Or.inr ⟨y, h.1.symm⟩

/-- A run that ends with the lexical error ended in the parser: nothing was
executed, and standard output holds the diagnostic and nothing else. -/
theorem run_lexical (text : List Char) (e : Err) (w : World) (h : run text = .halt e w)
    (hlex : e.isLexical = true) : parse text = .halt e ∧ w = ⟨[], e.diagnostic⟩ := by
  unfold run at h
  cases hp : parse text with
  | ok prog q =>
    simp only [hp, Program.interpreter] at h
    rcases interpret_halt _ _ _ _ h with he | ⟨y, he⟩
    · cases e <;> simp [Err.isArithmetic, Err.isLexical] at he hlex
    · rw [he] at hlex; cases hlex
  | halt e2 =>
    simp only [hp, Res.halt.injEq] at h
    obtain ⟨h1, h2⟩ := h
    subst h1
    exact ⟨rfl, by rw [← h2]; rfl⟩
  | outOfFuel =>
    simp only [hp, Res.halt.injEq] at h
    rw [← h.1] at hlex
    cases hlex

theorem split_prefix {a b pre rest : List Token} (h : a ++ b = pre ++ rest) :
    (∃ suf, a = pre ++ suf) ∨ ∃ c, c ≠ [] ∧ pre = a ++ c ∧ b = c ++ rest := by
  rcases List.append_eq_append_iff.1 h with ⟨c, h1, h2⟩ | ⟨suf, h1, _⟩
  · cases c with
    | nil => exact Or.inl ⟨[], by simpa using h1.symm⟩
    | cons u c => exact Or.inr ⟨u :: c, by simp, h1, h2⟩
  · exact Or.inl ⟨suf, h1⟩

theorem termTail_yield_head {tt : CTermTail} {u : Token} {r : List Token}
    (h : tt.yield = u :: r) : u.type = .MUL ∨ u.type = .DIV := by
  cases tt with
  | nil => simp [CTermTail.yield] at h
  | cons op f tt =>
    simp only [CTermTail.yield, List.cons.injEq] at h
    rw [← h.1]
    exact mulOp_token_type op

theorem expTail_yield_head {et : CExpTail} {u : Token} {r : List Token}
    (h : et.yield = u :: r) : u.type = .PLUS ∨ u.type = .MINUS := by
  cases et with
  | nil => simp [CExpTail.yield] at h
  | cons op t et =>
    simp only [CExpTail.yield, List.cons.injEq] at h
    rw [← h.1]
    exact addOp_token_type op

theorem readable_head {u : Token} {c : List Token} (h : Readable (u :: c)) : u.type ≠ .ERR :=
  (readable_cons.1 h).1.1

mutual

/-- The function `parse_factor` on a stream in which an `ERR` token comes
after a non-empty beginning of a factor. -/
theorem factor_stop : ∀ (f : CFactor) (fuel : Nat) (p : Parser) (pre suf : List Token)
    (t : Token) (junk : List Token), f.yield = pre ++ suf → pre ≠ [] →
      p.Sees (pre ++ t :: junk) → t.type = .ERR → Readable pre → 3 * pre.length ≤ fuel →
      Parser.parse_factor fuel p = .halt (.unrecognizedChar t.lexema)
  | .id lexema, fuel, p, pre, suf, t, junk, hy, hne, hs, ht, hr, hf => by
    cases pre with
    | nil => exact absurd rfl hne
    | cons x pre =>
      simp only [CFactor.yield, List.cons_append, List.cons.injEq] at hy
      obtain ⟨hx, hrest⟩ := hy
      have hpre : pre = [] := by
        cases pre with
        | nil => rfl
        | cons y pre => simp at hrest
      subst hpre
      subst hx
      exact (factor_lands (.id lexema) fuel p t junk hs hr hf).err ht
  | .num lexema, fuel, p, pre, suf, t, junk, hy, hne, hs, ht, hr, hf => by
    cases pre with
    | nil => exact absurd rfl hne
    | cons x pre =>
      simp only [CFactor.yield, List.cons_append, List.cons.injEq] at hy
      obtain ⟨hx, hrest⟩ := hy
      have hpre : pre = [] := by
        cases pre with
        | nil => rfl
        | cons y pre => simp at hrest
      subst hpre
      subst hx
      exact (factor_lands (.num lexema) fuel p t junk hs hr hf).err ht
  | .paren e, fuel, p, pre, suf, t, junk, hy, hne, hs, ht, hr, hf => by
    cases pre with
    | nil => exact absurd rfl hne
    | cons x pre =>
      obtain ⟨n, rfl⟩ : ∃ n, fuel = n + 1 := ⟨fuel - 1, by simp at hf; omega⟩
      simp only [CFactor.yield, List.cons_append, List.cons.injEq] at hy
      obtain ⟨hx, hy⟩ := hy
      subst hx
      simp only [List.cons_append, List.length_cons] at hs hf
      have hid : p.match_token .ID = .ok false p :=
        match_token_miss (by rw [hs.1]; simp [Token.ofChar])
      have hnum : p.match_token .NUM = .ok false p :=
        match_token_miss (by rw [hs.1]; simp [Token.ofChar])
      have hrp : Readable pre := (readable_cons.1 hr).2
      cases pre with
      | nil =>
        have hm := match_token_err (k := .LP) hs rfl ht
        simp [Parser.parse_factor, hid, hnum, hm, PRes.bind]
      | cons u pre =>
        simp only [List.length_cons] at hf
        obtain ⟨q, hm, _, hq⟩ := match_token_hit (k := .LP) hs rfl (readable_head hrp)
        rcases split_prefix hy with ⟨suf2, h2⟩ | ⟨c, hc, h2, h3⟩
        · have := exp_stop e n q (u :: pre) suf2 t junk h2 (by simp) hq ht hrp
            (by simp only [List.length_cons]; omega)
          simp [Parser.parse_factor, hid, hnum, hm, this, PRes.bind]
        · have hc1 : c = [Token.ofChar .RP ')'] ∧ suf = [] := by
            cases c with
            | nil => exact absurd rfl hc
            | cons y c =>
              simp only [List.cons_append, List.cons.injEq] at h3
              obtain ⟨h3a, h3b⟩ := h3
              have : c = [] ∧ suf = [] := by
                cases c with
                | nil => simpa using h3b.symm
                | cons z c => simp at h3b
              rw [this.1, ← h3a]
              exact ⟨rfl, this.2⟩
          replace hq : q.Sees ((u :: pre) ++ t :: junk) := hq
          rw [h2, hc1.1, List.append_assoc] at hq
          have hre : Readable e.yield := by
            rw [h2] at hrp
            exact (readable_append.1 hrp).1
          have hlen : pre.length + 1 = e.yield.length + 1 := by
            have := congrArg List.length h2
            simpa [hc1.1] using this
          obtain ⟨q4, he, hq4⟩ :=
            (exp_lands e n q (Token.ofChar .RP ')') (t :: junk) hq hre
              (by simp [Token.ofChar]) (by simp [Token.ofChar]) (by simp [Token.ofChar])
              (by simp [Token.ofChar]) (by omega)).ok (by simp [Token.ofChar])
          have hm2 := match_token_err (k := .RP) hq4 rfl ht
          simp [Parser.parse_factor, hid, hnum, hm, he, hm2, PRes.bind]

/-- The loop of `parse_term` on a stream in which an `ERR` token comes after
a non-empty beginning of the rest of a term. -/
theorem termTail_stop : ∀ (tt : CTermTail) (fuel : Nat) (left : Exp) (p : Parser)
    (pre suf : List Token) (t : Token) (junk : List Token), tt.yield = pre ++ suf → pre ≠ [] →
      p.Sees (pre ++ t :: junk) → t.type = .ERR → Readable pre → 3 * pre.length + 1 ≤ fuel →
      Parser.term_loop fuel left p = .halt (.unrecognizedChar t.lexema)
  | .nil, fuel, left, p, pre, suf, t, junk, hy, hne, _, _, _, _ => by
    simp only [CTermTail.yield] at hy
    have : pre = [] := (List.append_eq_nil.1 hy.symm).1
    exact absurd this hne
  | .cons op f tt, fuel, left, p, pre, suf, t, junk, hy, hne, hs, ht, hr, hf => by
    cases pre with
    | nil => exact absurd rfl hne
    | cons x pre =>
      obtain ⟨n, rfl⟩ : ∃ n, fuel = n + 1 := ⟨fuel - 1, by omega⟩
      simp only [CTermTail.yield, List.cons_append, List.cons.injEq] at hy
      obtain ⟨hx, hy⟩ := hy
      subst hx
      simp only [List.cons_append, List.length_cons] at hs hf
      have hrp : Readable pre := (readable_cons.1 hr).2
      cases pre with
      | nil =>
        rcases match_either_lands (a := .MUL) (b := .DIV) hs (mulOp_token_type op) with
          ⟨_, hm⟩ | ⟨hy2, _⟩
        · simp [Parser.term_loop, hm, PRes.bind]
        · exact absurd ht hy2
      | cons u pre =>
        simp only [List.length_cons] at hf
        rcases match_either_lands (a := .MUL) (b := .DIV) hs (mulOp_token_type op) with
          ⟨hy2, _⟩ | ⟨_, q, hm, hp, hq⟩
        · exact absurd hy2 (readable_head hrp)
        · have hop := multiplicative_op_eq op hp
          rcases split_prefix hy with ⟨suf2, h2⟩ | ⟨c, hc, h2, h3⟩
          · have := factor_stop f n q (u :: pre) suf2 t junk h2 (by simp) hq ht hrp
              (by simp only [List.length_cons]; omega)
            simp [Parser.term_loop, hm, this, PRes.bind]
          · cases c with
            | nil => exact absurd rfl hc
            | cons v c =>
              have hrf : Readable f.yield := by
                rw [h2] at hrp
                exact (readable_append.1 hrp).1
              have hrc : Readable (v :: c) := by
                rw [h2] at hrp
                exact (readable_append.1 hrp).2
              have hlen : pre.length + 1 = f.yield.length + (c.length + 1) := by
                have := congrArg List.length h2
                simpa using this
              replace hq : q.Sees ((u :: pre) ++ t :: junk) := hq
              rw [h2, List.append_assoc, List.cons_append] at hq
              obtain ⟨q2, hq2, hs2⟩ := (factor_lands f n q v (c ++ t :: junk) hq hrf
                (by omega)).ok (readable_head hrc)
              have := termTail_stop tt n (.BinaryExp left f.ast op.op) q2 (v :: c) suf t junk
                h3 (by simp) hs2 ht hrc (by simp only [List.length_cons]; omega)
              simp [Parser.term_loop, hm, hq2, hop, this, PRes.bind]

/-- The function `parse_term` on a stream in which an `ERR` token comes after
a non-empty beginning of a term. -/
theorem term_stop : ∀ (tm : CTerm) (fuel : Nat) (p : Parser) (pre suf : List Token)
    (t : Token) (junk : List Token), tm.yield = pre ++ suf → pre ≠ [] →
      p.Sees (pre ++ t :: junk) → t.type = .ERR → Readable pre → 3 * pre.length + 1 ≤ fuel →
      Parser.parse_term fuel p = .halt (.unrecognizedChar t.lexema)
  | .mk f tt, fuel, p, pre, suf, t, junk, hy, hne, hs, ht, hr, hf => by
    obtain ⟨n, rfl⟩ : ∃ n, fuel = n + 1 := ⟨fuel - 1, by omega⟩
    simp only [CTerm.yield] at hy
    rcases split_prefix hy with ⟨suf2, h2⟩ | ⟨c, hc, h2, h3⟩
    · have := factor_stop f n p pre suf2 t junk h2 hne hs ht hr (by omega)
      simp [Parser.parse_term, this, PRes.bind]
    · cases c with
      | nil => exact absurd rfl hc
      | cons v c =>
        have hrf : Readable f.yield := by
          rw [h2] at hr
          exact (readable_append.1 hr).1
        have hrc : Readable (v :: c) := by
          rw [h2] at hr
          exact (readable_append.1 hr).2
        have hlen : pre.length = f.yield.length + (c.length + 1) := by
          have := congrArg List.length h2
          simpa using this
        have hfl := factor_yield_length_pos f
        rw [h2, List.append_assoc, List.cons_append] at hs
        obtain ⟨q2, hq2, hs2⟩ := (factor_lands f n p v (c ++ t :: junk) hs hrf
          (by omega)).ok (readable_head hrc)
        have := termTail_stop tt n f.ast q2 (v :: c) suf t junk h3 (by simp) hs2 ht hrc
          (by simp only [List.length_cons]; omega)
        simp [Parser.parse_term, hq2, this, PRes.bind]

/-- The loop of `parse_expression` on a stream in which an `ERR` token comes
after a non-empty beginning of the rest of an expression. -/
theorem expTail_stop : ∀ (et : CExpTail) (fuel : Nat) (left : Exp) (p : Parser)
    (pre suf : List Token) (t : Token) (junk : List Token), et.yield = pre ++ suf → pre ≠ [] →
      p.Sees (pre ++ t :: junk) → t.type = .ERR → Readable pre → 3 * pre.length + 1 ≤ fuel →
      Parser.expression_loop fuel left p = .halt (.unrecognizedChar t.lexema)
  | .nil, fuel, left, p, pre, suf, t, junk, hy, hne, _, _, _, _ => by
    simp only [CExpTail.yield] at hy
    have : pre = [] := (List.append_eq_nil.1 hy.symm).1
    exact absurd this hne
  | .cons op tm et, fuel, left, p, pre, suf, t, junk, hy, hne, hs, ht, hr, hf => by
    cases pre with
    | nil => exact absurd rfl hne
    | cons x pre =>
      obtain ⟨n, rfl⟩ : ∃ n, fuel = n + 1 := ⟨fuel - 1, by omega⟩
      simp only [CExpTail.yield, List.cons_append, List.cons.injEq] at hy
      obtain ⟨hx, hy⟩ := hy
      subst hx
      simp only [List.cons_append, List.length_cons] at hs hf
      have hrp : Readable pre := (readable_cons.1 hr).2
      cases pre with
      | nil =>
        rcases match_either_lands (a := .PLUS) (b := .MINUS) hs (addOp_token_type op) with
          ⟨_, hm⟩ | ⟨hy2, _⟩
        · simp [Parser.expression_loop, hm, PRes.bind]
        · exact absurd ht hy2
      | cons u pre =>
        simp only [List.length_cons] at hf
        rcases match_either_lands (a := .PLUS) (b := .MINUS) hs (addOp_token_type op) with
          ⟨hy2, _⟩ | ⟨_, q, hm, hp, hq⟩
        · exact absurd hy2 (readable_head hrp)
        · have hop := additive_op_eq op hp
          rcases split_prefix hy with ⟨suf2, h2⟩ | ⟨c, hc, h2, h3⟩
          · have := term_stop tm n q (u :: pre) suf2 t junk h2 (by simp) hq ht hrp
              (by simp only [List.length_cons]; omega)
            simp [Parser.expression_loop, hm, this, PRes.bind]
          · cases c with
            | nil => exact absurd rfl hc
            | cons v c =>
              have hrt : Readable tm.yield := by
                rw [h2] at hrp
                exact (readable_append.1 hrp).1
              have hrc : Readable (v :: c) := by
                rw [h2] at hrp
                exact (readable_append.1 hrp).2
              have hlen : pre.length + 1 = tm.yield.length + (c.length + 1) := by
                have := congrArg List.length h2
                simpa using this
              have hv := expTail_yield_head h3
              have hvm : v.type ≠ .MUL := by
                rcases hv with h | h <;> rw [h] <;> decide
              have hvd : v.type ≠ .DIV := by
                rcases hv with h | h <;> rw [h] <;> decide
              replace hq : q.Sees ((u :: pre) ++ t :: junk) := hq
              rw [h2, List.append_assoc, List.cons_append] at hq
              obtain ⟨q2, hq2, hs2⟩ := (term_lands tm n q v (c ++ t :: junk) hq hrt hvm hvd
                (by omega)).ok (readable_head hrc)
              have := expTail_stop et n (.BinaryExp left tm.ast op.op) q2 (v :: c) suf t junk
                h3 (by simp) hs2 ht hrc (by simp only [List.length_cons]; omega)
              simp [Parser.expression_loop, hm, hq2, hop, this, PRes.bind]

/-- The function `parse_expression` on a stream in which an `ERR` token comes
after a non-empty beginning of an expression. -/
theorem exp_stop : ∀ (e : CExp) (fuel : Nat) (p : Parser) (pre suf : List Token)
    (t : Token) (junk : List Token), e.yield = pre ++ suf → pre ≠ [] →
      p.Sees (pre ++ t :: junk) → t.type = .ERR → Readable pre → 3 * pre.length + 2 ≤ fuel →
      Parser.parse_expression fuel p = .halt (.unrecognizedChar t.lexema)
  | .mk tm et, fuel, p, pre, suf, t, junk, hy, hne, hs, ht, hr, hf => by
    obtain ⟨n, rfl⟩ : ∃ n, fuel = n + 1 := ⟨fuel - 1, by omega⟩
    simp only [CExp.yield] at hy
    rcases split_prefix hy with ⟨suf2, h2⟩ | ⟨c, hc, h2, h3⟩
    · have := term_stop tm n p pre suf2 t junk h2 hne hs ht hr (by omega)
      simp [Parser.parse_expression, this, PRes.bind]
    · cases c with
      | nil => exact absurd rfl hc
      | cons v c =>
        have hrt : Readable tm.yield := by
          rw [h2] at hr
          exact (readable_append.1 hr).1
        have hrc : Readable (v :: c) := by
          rw [h2] at hr
          exact (readable_append.1 hr).2
        have hlen : pre.length = tm.yield.length + (c.length + 1) := by
          have := congrArg List.length h2
          simpa using this
        have htl := term_yield_length_pos tm
        have hv := expTail_yield_head h3
        have hvm : v.type ≠ .MUL := by
          rcases hv with h | h <;> rw [h] <;> decide
        have hvd : v.type ≠ .DIV := by
          rcases hv with h | h <;> rw [h] <;> decide
        rw [h2, List.append_assoc, List.cons_append] at hs
        obtain ⟨q2, hq2, hs2⟩ := (term_lands tm n p v (c ++ t :: junk) hs hrt hvm hvd
          (by omega)).ok (readable_head hrc)
        have := expTail_stop et n tm.ast q2 (v :: c) suf t junk h3 (by simp) hs2 ht hrc
          (by simp only [List.length_cons]; omega)
        simp [Parser.parse_expression, hq2, this, PRes.bind]

end

theorem tail_singleton {c suf : List Token} {x : Token} (hc : c ≠ []) (h : [x] = c ++ suf) :
    c = [x] ∧ suf = [] := by
  cases c with
  | nil => exact absurd rfl hc
  | cons y c =>
    simp only [List.cons_append, List.cons.injEq] at h
    obtain ⟨h1, h2⟩ := h
    have : c = [] ∧ suf = [] := by
      cases c with
      | nil => simpa using h2.symm
      | cons z c => simp at h2
    rw [this.1, ← h1]
    exact ⟨rfl, this.2⟩

/-- The function `parse_stmt` on a stream in which an `ERR` token comes after
a non-empty beginning of a statement. -/
theorem stmt_stop (s : CStmt) (fuel : Nat) (p : Parser) (pre suf : List Token) (t : Token)
    (junk : List Token) (hy : s.yield = pre ++ suf) (hne : pre ≠ [])
    (hs : p.Sees (pre ++ t :: junk)) (ht : t.type = .ERR) (hr : Readable pre)
    (hf : 3 * pre.length ≤ fuel) :
    Parser.parse_stmt fuel p = .halt (.unrecognizedChar t.lexema) := by
  cases pre with
  | nil => exact absurd rfl hne
  | cons x pre =>
    cases s with
    | assign lexema e =>
      simp only [CStmt.yield, List.cons_append, List.cons.injEq] at hy
      obtain ⟨hx, hy⟩ := hy
      subst hx
      simp only [List.cons_append, List.length_cons] at hs hf
      have hrp : Readable pre := (readable_cons.1 hr).2
      cases pre with
      | nil =>
        have hm := match_token_err (k := .ID) hs rfl ht
        simp [Parser.parse_stmt, hm, PRes.bind]
      | cons y pre =>
        obtain ⟨q1, hm1, _, hq1⟩ := match_token_hit (k := .ID) hs rfl (readable_head hrp)
        simp only [List.cons_append, List.cons.injEq] at hy
        obtain ⟨hy1, hy⟩ := hy
        subst hy1
        simp only [List.length_cons] at hf
        have hrp2 : Readable pre := (readable_cons.1 hrp).2
        replace hq1 : q1.Sees (Token.ofChar .ASSIGN '=' :: (pre ++ t :: junk)) := hq1
        cases pre with
        | nil =>
          have hm2 := match_token_err (k := .ASSIGN) hq1 rfl ht
          simp [Parser.parse_stmt, hm1, hm2, PRes.bind]
        | cons u pre =>
          obtain ⟨q2, hm2, _, hq2⟩ := match_token_hit (k := .ASSIGN) hq1 rfl (readable_head hrp2)
          have := exp_stop e fuel q2 (u :: pre) suf t junk hy (by simp) hq2 ht hrp2
            (by simp only [List.length_cons] at hf ⊢; omega)
          simp [Parser.parse_stmt, hm1, hm2, this, PRes.bind]
    | print e =>
      simp only [CStmt.yield, List.cons_append, List.cons.injEq] at hy
      obtain ⟨hx, hy⟩ := hy
      subst hx
      simp only [List.cons_append, List.length_cons] at hs hf
      have hrp : Readable pre := (readable_cons.1 hr).2
      have hid : p.match_token .ID = .ok false p := match_token_miss (by rw [hs.1]; simp)
      cases pre with
      | nil =>
        have hm := match_token_err (k := .PRINT) hs rfl ht
        simp [Parser.parse_stmt, hid, hm, PRes.bind]
      | cons y pre =>
        obtain ⟨q1, hm1, _, hq1⟩ := match_token_hit (k := .PRINT) hs rfl (readable_head hrp)
        simp only [List.cons_append, List.cons.injEq] at hy
        obtain ⟨hy1, hy⟩ := hy
        subst hy1
        simp only [List.length_cons] at hf
        have hrp2 : Readable pre := (readable_cons.1 hrp).2
        replace hq1 : q1.Sees (Token.ofChar .LP '(' :: (pre ++ t :: junk)) := hq1
        cases pre with
        | nil =>
          have hm2 := match_token_err (k := .LP) hq1 rfl ht
          simp [Parser.parse_stmt, hid, hm1, hm2, PRes.bind]
        | cons u pre =>
          simp only [List.length_cons] at hf
          obtain ⟨q2, hm2, _, hq2⟩ := match_token_hit (k := .LP) hq1 rfl (readable_head hrp2)
          replace hq2 : q2.Sees ((u :: pre) ++ t :: junk) := hq2
          rcases split_prefix hy with ⟨suf2, h2⟩ | ⟨c, hc, h2, h3⟩
          · have := exp_stop e fuel q2 (u :: pre) suf2 t junk h2 (by simp) hq2 ht hrp2
              (by simp only [List.length_cons]; omega)
            simp [Parser.parse_stmt, hid, hm1, hm2, this, PRes.bind]
          · obtain ⟨hc1, _⟩ := tail_singleton hc h3
            rw [h2, hc1, List.append_assoc] at hq2
            have hre : Readable e.yield := by
              rw [h2] at hrp2
              exact (readable_append.1 hrp2).1
            have hlen : pre.length + 1 = e.yield.length + 1 := by
              have := congrArg List.length h2
              simpa [hc1] using this
            obtain ⟨q4, he, hq4⟩ :=
              (exp_lands e fuel q2 (Token.ofChar .RP ')') (t :: junk) hq2 hre
                (by simp [Token.ofChar]) (by simp [Token.ofChar]) (by simp [Token.ofChar])
                (by simp [Token.ofChar]) (by omega)).ok (by simp [Token.ofChar])
            have hm4 := match_token_err (k := .RP) hq4 rfl ht
            simp [Parser.parse_stmt, hid, hm1, hm2, he, hm4, PRes.bind]

theorem yieldRest_yield_head {ss : List CStmt} {u : Token} {r : List Token}
    (h : yieldRest ss = u :: r) : u.type = .SC := by
  cases ss with
  | nil => simp [yieldRest] at h
  | cons s ss =>
    simp only [yieldRest, List.cons.injEq] at h
    rw [← h.1]
    rfl

/-- The loop of `parse_program` on a stream in which an `ERR` token comes
after a non-empty beginning of the rest of a program. -/
theorem program_loop_stop : ∀ (ss : List CStmt) (fuel : Nat) (prog : Program) (p : Parser)
    (pre suf : List Token) (t : Token) (junk : List Token), yieldRest ss = pre ++ suf →
      pre ≠ [] → p.Sees (pre ++ t :: junk) → t.type = .ERR → Readable pre →
      3 * pre.length + 1 ≤ fuel →
      Parser.program_loop fuel prog p = .halt (.unrecognizedChar t.lexema) := by
  intro ss
  induction ss with
  | nil =>
    intro fuel prog p pre suf t junk hy hne
    simp only [yieldRest] at hy
    exact absurd (List.append_eq_nil.1 hy.symm).1 hne
  | cons s ss ih =>
    intro fuel prog p pre suf t junk hy hne hs ht hr hf
    cases pre with
    | nil => exact absurd rfl hne
    | cons x pre =>
      obtain ⟨n, rfl⟩ : ∃ n, fuel = n + 1 := ⟨fuel - 1, by omega⟩
      simp only [yieldRest, List.cons_append, List.cons.injEq] at hy
      obtain ⟨hx, hy⟩ := hy
      subst hx
      simp only [List.cons_append, List.length_cons] at hs hf
      have hrp : Readable pre := (readable_cons.1 hr).2
      cases pre with
      | nil =>
        have hm := match_token_err (k := .SC) hs rfl ht
        simp [Parser.program_loop, hm, PRes.bind]
      | cons u pre =>
        simp only [List.length_cons] at hf
        obtain ⟨q, hm, _, hq⟩ := match_token_hit (k := .SC) hs rfl (readable_head hrp)
        replace hq : q.Sees ((u :: pre) ++ t :: junk) := hq
        rcases split_prefix hy with ⟨suf2, h2⟩ | ⟨c, hc, h2, h3⟩
        · have := stmt_stop s n q (u :: pre) suf2 t junk h2 (by simp) hq ht hrp
            (by simp only [List.length_cons]; omega)
          simp [Parser.program_loop, hm, this, PRes.bind]
        · cases c with
          | nil => exact absurd rfl hc
          | cons v c =>
            have hrs : Readable s.yield := by
              rw [h2] at hrp
              exact (readable_append.1 hrp).1
            have hrc : Readable (v :: c) := by
              rw [h2] at hrp
              exact (readable_append.1 hrp).2
            have hlen : pre.length + 1 = s.yield.length + (c.length + 1) := by
              have := congrArg List.length h2
              simpa using this
            have hv := yieldRest_yield_head h3
            rw [h2, List.append_assoc, List.cons_append] at hq
            obtain ⟨q2, hq2, hs2⟩ := (stmt_lands s n q v (c ++ t :: junk) hq hrs
              (by rw [hv]; decide) (by rw [hv]; decide) (by rw [hv]; decide)
              (by rw [hv]; decide) (by omega)).ok (readable_head hrc)
            have := ih n (prog.add s.ast) q2 (v :: c) suf t junk h3 (by simp) hs2 ht hrc
              (by simp only [List.length_cons]; omega)
            simp [Parser.program_loop, hm, hq2, this, PRes.bind]

/-- The function `parse_program` on a stream in which an `ERR` token comes
after a non-empty beginning of a program. -/
theorem program_stop (c : CProgram) (fuel : Nat) (p : Parser) (pre suf : List Token)
    (t : Token) (junk : List Token) (hy : c.yield = pre ++ suf) (hne : pre ≠ [])
    (hs : p.Sees (pre ++ t :: junk)) (ht : t.type = .ERR) (hr : Readable pre)
    (hf : 3 * pre.length + 1 ≤ fuel) :
    Parser.parse_program fuel p = .halt (.unrecognizedChar t.lexema) := by
  simp only [CProgram.yield] at hy
  rcases split_prefix hy with ⟨suf2, h2⟩ | ⟨d, hd, h2, h3⟩
  · have := stmt_stop c.first fuel p pre suf2 t junk h2 hne hs ht hr (by omega)
    simp [Parser.parse_program, this, PRes.bind]
  · cases d with
    | nil => exact absurd rfl hd
    | cons v d =>
      have hrs : Readable c.first.yield := by
        rw [h2] at hr
        exact (readable_append.1 hr).1
      have hrc : Readable (v :: d) := by
        rw [h2] at hr
        exact (readable_append.1 hr).2
      have hlen : pre.length = c.first.yield.length + (d.length + 1) := by
        have := congrArg List.length h2
        simpa using this
      have hv := yieldRest_yield_head h3
      rw [h2, List.append_assoc, List.cons_append] at hs
      obtain ⟨q2, hq2, hs2⟩ := (stmt_lands c.first fuel p v (d ++ t :: junk) hs hrs
        (by rw [hv]; decide) (by rw [hv]; decide) (by rw [hv]; decide)
        (by rw [hv]; decide) (by omega)).ok (readable_head hrc)
      have := program_loop_stop c.rest fuel (Program.add ⟨[]⟩ c.first.ast) q2 (v :: d) suf t junk
        h3 (by simp) hs2 ht hrc (by simp only [List.length_cons]; omega)
      simp [Parser.parse_program, hq2, this, PRes.bind]

theorem dropWhile_head_not (p : Char → Bool) (l : List Char) (c : Char) (r : List Char)
    (h : l.dropWhile p = c :: r) : p c = false := by
  induction l with
  | nil => simp at h
  | cons a l ih =>
    by_cases ha : p a = true
    · rw [List.dropWhile_cons_of_pos ha] at h
      exact ih h
    · rw [List.dropWhile_cons_of_neg ha] at h
      simp only [List.cons.injEq] at h
      rw [← h.1]
      simpa using ha

/-- An `ERR` token of the scanner carries one character, which is neither a
space, nor a letter, nor a digit, nor one of `+ - * / ( ) ; =`. -/
theorem lexHead_err_lexema (cs : List Char) (h : (lexHead cs).1.type = .ERR) :
    ∃ ch : Char, (lexHead cs).1 = Token.ofChar .ERR ch ∧ ch ≠ ' ' ∧ ch.isAlphanum = false ∧
      isPunctuation ch = false := by
  unfold lexHead at h ⊢
  cases hd : cs.dropWhile (fun c => c == ' ') with
  | nil => simp [hd, Token.ofType] at h
  | cons c r =>
    have hsp := dropWhile_head_not _ _ _ _ hd
    simp only [hd] at h ⊢
    by_cases h0 : (c == NUL) = true
    · simp [h0, Token.ofType] at h
    · rw [if_neg h0] at h ⊢
      by_cases h1 : c.isDigit = true
      · simp [h1] at h
      · rw [if_neg h1] at h ⊢
        by_cases h2 : c.isAlpha = true
        · rw [if_pos h2] at h
          split_ifs at h
        · rw [if_neg h2] at h ⊢
          by_cases h3 : isPunctuation c = true
          · rw [if_pos h3] at h
            exact absurd h (punctuationToken_type c).2.1
          · rw [if_neg h3]
            refine ⟨c, rfl, by simpa using hsp, ?_, by simpa using h3⟩
            simp only [Bool.not_eq_true] at h1 h2
            simp [Char.isAlphanum, h1, h2]

/-- C9, counterexample: the text `x 5 @` contains the character `@`, and the
run ends in `parse_stmt`, which misses the `=` after `x` before the scanner
has reached the `@`: no lexical error is reported. -/
theorem lexical_error_counterexample :
    '@' ∈ "x 5 @".toList ∧
      ('@' ≠ ' ' ∧ Char.isAlphanum '@' = false ∧ isPunctuation '@' = false) ∧
      run "x 5 @".toList = .halt .assignExpected ⟨[], []⟩ ∧
      Err.assignExpected.isLexical = false := by
  decide

/-- C9, amended. When the first `ERR` token of the text (the first
unrecognized character) comes after a non-empty token sequence that is the
beginning of a sequence derivable from `Program ::= Stmt (';' Stmt)*`, with
every number literal before it at most 2147483647, the run ends with the
lexical error that names the character: nothing is executed, and standard
output holds the diagnostic of that error and no other line. -/
theorem lexical_error_after_viable_prefix (text : List Char) (c : CProgram)
    (pre suf more : List Token) (t : Token)
    (htok : tokenize text = pre ++ t :: (more ++ [Token.ofType .END]))
    (ht : t.type = .ERR) (hpre : pre ≠ []) (hc : c.yield = pre ++ suf)
    (hnum : ∀ tk ∈ pre, tk.type = .NUM → (digitsValue tk.lexema : Int) ≤ INT_MAX) :
    ∃ ch : Char, t = Token.ofChar .ERR ch ∧
      (ch ≠ ' ' ∧ ch.isAlphanum = false ∧ isPunctuation ch = false) ∧
      run text = .halt (.unrecognizedChar [ch])
        ⟨[], ["Error: Parsing an unrecognized character: " ++ String.mk [ch]]⟩ ∧
      (Err.unrecognizedChar [ch]).isLexical = true := by
  have htok2 : tokenize text = (pre ++ t :: more) ++ [Token.ofType .END] := by
    simpa using htok
  have hfeeds := feeds_tokenize htok2
  have hlen := tokenize_length_le htok2
  simp only [List.length_append, List.length_cons] at hlen
  have hr : Readable pre := by
    intro tk htk
    refine ⟨(program_yield_type c tk (by rw [hc]; exact List.mem_append_left _ htk)).1,
      fun hty => ?_⟩
    exact stoi_of_feeds hfeeds tk (by simp [htk]) hty (hnum tk htk hty)
  obtain ⟨s2, hs2⟩ := feeds_mem hfeeds t (by simp)
  have hlex := (next_token_eq_lexHead s2).1
  rw [← hs2] at hlex
  obtain ⟨ch, hch, hprops⟩ := lexHead_err_lexema s2.rest (by rw [← hlex]; exact ht)
  rw [← hlex] at hch
  have hparse : parse text = .halt (.unrecognizedChar t.lexema) :=
    program_stop c (fuelFor text) _ pre suf t (more ++ [Token.ofType .END]) hc hpre
      (sees_new (by simpa using hfeeds)) ht hr (by unfold fuelFor; omega)
  refine ⟨ch, hch, hprops, ?_, rfl⟩
  simp only [run, hparse, hch, Token.ofChar]
  rfl

/-- C9, amended, at the text `x=1;print(x+@)`: the tokens before the `@` begin
the program `x=1;print(x+x)`. -/
theorem lexical_error_after_viable_prefix_witness :
    ∃ ch : Char, (⟨.ERR, ['@']⟩ : Token) = Token.ofChar .ERR ch ∧
      (ch ≠ ' ' ∧ ch.isAlphanum = false ∧ isPunctuation ch = false) ∧
      run "x=1;print(x+@)".toList = .halt (.unrecognizedChar [ch])
        ⟨[], ["Error: Parsing an unrecognized character: " ++ String.mk [ch]]⟩ ∧
      (Err.unrecognizedChar [ch]).isLexical = true :=
  lexical_error_after_viable_prefix "x=1;print(x+@)".toList
    ⟨.assign ['x'] (.mk (.mk (.num ['1']) .nil) .nil),
      [.print (.mk (.mk (.id ['x']) .nil) (.cons .plus (.mk (.id ['x']) .nil) .nil))]⟩
    [⟨.ID, ['x']⟩, ⟨.ASSIGN, ['=']⟩, ⟨.NUM, ['1']⟩, ⟨.SC, [';']⟩, ⟨.PRINT, "print".toList⟩,
      ⟨.LP, ['(']⟩, ⟨.ID, ['x']⟩, ⟨.PLUS, ['+']⟩]
    [⟨.ID, ['x']⟩, ⟨.RP, [')']⟩] [⟨.RP, [')']⟩] ⟨.ERR, ['@']⟩
    (by decide) (by decide) (by decide) (by decide) (by decide)

/-! ## The budget of `run` is enough -/

theorem rest_length (s : Scanner) : s.rest.length = s.input.length - s.current := by
  simp [Scanner.rest]

/-- Every token but `END` takes at least one character. -/
theorem lexHead_length (cs : List Char) (h : (lexHead cs).1.type ≠ .END) :
    (lexHead cs).2.length < cs.length := by
  have hsub : (cs.dropWhile (fun c => c == ' ')).length ≤ cs.length :=
    (List.dropWhile_sublist _).length_le
  unfold lexHead at h ⊢
  cases hd : cs.dropWhile (fun c => c == ' ') with
  | nil => simp [hd, Token.ofType] at h
  | cons c r =>
    rw [hd] at hsub
    simp only [List.length_cons] at hsub
    simp only [hd] at h ⊢
    have h1 : (r.dropWhile Char.isDigit).length ≤ r.length :=
      (List.dropWhile_sublist _).length_le
    have h2 : (r.dropWhile Char.isAlphanum).length ≤ r.length :=
      (List.dropWhile_sublist _).length_le
    split_ifs at h ⊢ <;> first | (simp [Token.ofType] at h; done) | (simp only []; omega)

theorem next_token_progress (s : Scanner) (h : s.next_token.1.type ≠ .END) :
    s.next_token.2.input.length - s.next_token.2.current < s.input.length - s.current := by
  obtain ⟨h1, h2⟩ := next_token_eq_lexHead s
  rw [h1] at h
  have := lexHead_length s.rest h
  rw [← h2, rest_length, rest_length] at this
  exact this

/-- The three ways a `match` can end. -/
theorem match_token_cases (p : Parser) (k : TokenType) :
    p.match_token k = .ok false p ∨
      (∃ q, p.match_token k = .ok true q ∧ q.remaining < p.remaining) ∨
      ∃ e, p.match_token k = .halt e := by
  unfold Parser.match_token
  by_cases hc : p.check k = true
  · rw [if_pos hc]
    have hne : p.current.type ≠ .END := by
      intro he
      simp [Parser.check, Parser.is_at_end, he] at hc
    by_cases herr : (Parser.check ⟨p.scanner.next_token.2, p.scanner.next_token.1,
        some p.current⟩ .ERR) = true
    · have hadv : p.advance = .halt (.unrecognizedChar p.scanner.next_token.1.lexema) := by
        simp [Parser.advance, Parser.is_at_end, hne, herr]
      exact Or.inr (Or.inr ⟨_, by rw [hadv]; rfl⟩)
    · have hadv : p.advance = .ok true ⟨p.scanner.next_token.2, p.scanner.next_token.1,
          some p.current⟩ := by
        simp [Parser.advance, Parser.is_at_end, hne, herr]
      refine Or.inr (Or.inl ⟨⟨p.scanner.next_token.2, p.scanner.next_token.1,
        some p.current⟩, by rw [hadv]; rfl, ?_⟩)
      simp only [Parser.remaining, if_neg hne]
      by_cases hend : p.scanner.next_token.1.type = .END
      · simp [hend]
      · have := next_token_progress p.scanner hend
        simp only [if_neg hend]
        omega
  · rw [if_neg hc]
    exact Or.inl rfl

/-- The three ways the condition of an operator loop can end. -/
theorem match_either_cases (p : Parser) (a b : TokenType) :
    p.match_either a b = .ok false p ∨
      (∃ q, p.match_either a b = .ok true q ∧ q.remaining < p.remaining) ∨
      ∃ e, p.match_either a b = .halt e := by
  unfold Parser.match_either
  rcases match_token_cases p a with h | ⟨q, h, hq⟩ | ⟨e, h⟩
  · rw [h]
    simp only [PRes.bind, Bool.false_eq_true, if_false]
    exact match_token_cases p b
  · exact Or.inr (Or.inl ⟨q, by simp [h, PRes.bind], hq⟩)
  · exact Or.inr (Or.inr ⟨e, by simp [h, PRes.bind]⟩)

theorem within_bind {α β : Type} {r : PRes α} {f : α → Parser → PRes β} {m m2 : Nat}
    (h : Within r m) (hf : ∀ a q, q.remaining < m → Within (f a q) m2) :
    Within (r.bind f) m2 := by
  cases r with
  | ok a q => exact hf a q h
  | halt e => trivial
  | outOfFuel => exact h

theorem within_mono {α : Type} {r : PRes α} {m m2 : Nat} (h : Within r m) (hm : m ≤ m2) :
    Within r m2 := by
  cases r with
  | ok a q => exact Nat.lt_of_lt_of_le h hm
  | halt e => trivial
  | outOfFuel => exact h

theorem within_match_token (p : Parser) (k : TokenType) {β : Type} (f : Bool → Parser → PRes β)
    (m : Nat) (hmiss : Within (f false p) m)
    (hhit : ∀ q, q.remaining < p.remaining → Within (f true q) m) :
    Within ((p.match_token k).bind f) m := by
  rcases match_token_cases p k with h | ⟨q, h, hq⟩ | ⟨e, h⟩
  · rw [h]; exact hmiss
  · rw [h]; exact hhit q hq
  · rw [h]; trivial

theorem within_match_either (p : Parser) (a b : TokenType) {β : Type}
    (f : Bool → Parser → PRes β) (m : Nat) (hmiss : Within (f false p) m)
    (hhit : ∀ q, q.remaining < p.remaining → Within (f true q) m) :
    Within ((p.match_either a b).bind f) m := by
  rcases match_either_cases p a b with h | ⟨q, h, hq⟩ | ⟨e, h⟩
  · rw [h]; exact hmiss
  · rw [h]; exact hhit q hq
  · rw [h]; trivial

/-- With a budget of three per token left to read (and a little more), the
functions of the expression grammar end, and each one that returns has read
at least one token; the loops may read none. -/
theorem expression_within (n : Nat) :
    (∀ p, 3 * p.remaining + 1 ≤ n → Within (Parser.parse_factor n p) p.remaining) ∧
    (∀ left p, 3 * p.remaining + 1 ≤ n →
      Within (Parser.term_loop n left p) (p.remaining + 1)) ∧
    (∀ p, 3 * p.remaining + 2 ≤ n → Within (Parser.parse_term n p) p.remaining) ∧
    (∀ left p, 3 * p.remaining + 2 ≤ n →
      Within (Parser.expression_loop n left p) (p.remaining + 1)) ∧
    (∀ p, 3 * p.remaining + 3 ≤ n → Within (Parser.parse_expression n p) p.remaining) := by
  induction n with
  | zero =>
    refine ⟨fun p h => ?_, fun l p h => ?_, fun p h => ?_, fun l p h => ?_, fun p h => ?_⟩ <;>
      omega
  | succ n ih =>
    obtain ⟨ihF, ihTL, ihT, ihEL, ihE⟩ := ih
    refine ⟨fun p h => ?_, fun left p h => ?_, fun p h => ?_, fun left p h => ?_, fun p h => ?_⟩
    · unfold Parser.parse_factor
      refine within_match_token p .ID _ _ ?_ (fun q hq => hq)
      simp only [Bool.false_eq_true, if_false]
      refine within_match_token p .NUM _ _ ?_ (fun q hq => ?_)
      · simp only [Bool.false_eq_true, if_false]
        refine within_match_token p .LP _ _ trivial (fun q hq => ?_)
        simp only [if_true]
        refine within_bind (ihE q (by omega)) (fun e q4 hq4 => ?_)
        refine within_match_token q4 .RP _ _ trivial (fun q5 hq5 => ?_)
        simp only [if_true]
        show q5.remaining < p.remaining
        omega
      · simp only [if_true]
        cases stoi q.previous_lexema with
        | none => trivial
        | some v => exact hq
    · unfold Parser.term_loop
      refine within_match_either p .MUL .DIV _ _ ?_ (fun q hq => ?_)
      · simp only [Bool.false_eq_true, if_false]
        show p.remaining < p.remaining + 1
        omega
      · simp only [if_true]
        refine within_bind (ihF q (by omega)) (fun e q2 hq2 => ?_)
        exact within_mono (ihTL _ q2 (by omega)) (by omega)
    · unfold Parser.parse_term
      refine within_bind (ihF p (by omega)) (fun e q hq => ?_)
      exact within_mono (ihTL _ q (by omega)) (by omega)
    · unfold Parser.expression_loop
      refine within_match_either p .PLUS .MINUS _ _ ?_ (fun q hq => ?_)
      · simp only [Bool.false_eq_true, if_false]
        show p.remaining < p.remaining + 1
        omega
      · simp only [if_true]
        refine within_bind (ihT q (by omega)) (fun e q2 hq2 => ?_)
        exact within_mono (ihEL _ q2 (by omega)) (by omega)
    · unfold Parser.parse_expression
      refine within_bind (ihT p (by omega)) (fun e q hq => ?_)
      exact within_mono (ihEL _ q (by omega)) (by omega)

theorem stmt_within (fuel : Nat) (p : Parser) (h : 3 * p.remaining + 3 ≤ fuel) :
    Within (Parser.parse_stmt fuel p) p.remaining := by
  unfold Parser.parse_stmt
  refine within_match_token p .ID _ _ ?_ (fun q1 hq1 => ?_)
  · simp only [Bool.false_eq_true, if_false]
    refine within_match_token p .PRINT _ _ trivial (fun q2 hq2 => ?_)
    simp only [if_true]
    refine within_match_token q2 .LP _ _ trivial (fun q3 hq3 => ?_)
    simp only [if_true]
    refine within_bind ((expression_within fuel).2.2.2.2 q3 (by omega)) (fun e q4 hq4 => ?_)
    refine within_match_token q4 .RP _ _ trivial (fun q5 hq5 => ?_)
    simp only [if_true]
    show q5.remaining < p.remaining
    omega
  · simp only [if_true]
    refine within_match_token q1 .ASSIGN _ _ trivial (fun q2 hq2 => ?_)
    simp only [if_true]
    refine within_bind ((expression_within fuel).2.2.2.2 q2 (by omega)) (fun e q3 hq3 => ?_)
    show q3.remaining < p.remaining
    omega

theorem program_loop_within : ∀ (fuel : Nat) (prog : Program) (p : Parser),
    3 * p.remaining + 1 ≤ fuel → Within (Parser.program_loop fuel prog p) (p.remaining + 1) := by
  intro fuel
  induction fuel with
  | zero => intro prog p h; omega
  | succ n ih =>
    intro prog p h
    unfold Parser.program_loop
    refine within_match_token p .SC _ _ ?_ (fun q hq => ?_)
    · simp only [Bool.false_eq_true, if_false]
      show p.remaining < p.remaining + 1
      omega
    · simp only [if_true]
      refine within_bind (stmt_within n q (by omega)) (fun s q2 hq2 => ?_)
      exact within_mono (ih _ q2 (by omega)) (by omega)

theorem new_remaining (text : List Char) :
    (Parser.new (Scanner.new text)).remaining ≤ text.length + 1 := by
  unfold Parser.remaining
  split_ifs
  · omega
  · simp only [Parser.new, next_token_input, Scanner.new]
    omega

/-- The budget that `run` gives the parser is never used up. -/
theorem parse_ne_outOfFuel (text : List Char) : parse text ≠ .outOfFuel := by
  have hr := new_remaining text
  have : Within (parse text) ((Parser.new (Scanner.new text)).remaining + 1) := by
    unfold parse Parser.parse_program
    refine within_bind (stmt_within _ _ (by unfold fuelFor; omega)) (fun s q hq => ?_)
    exact within_mono (program_loop_within _ _ q (by unfold fuelFor; omega)) (by omega)
  intro h
  rw [h] at this
  exact this

/-! ## Division -/

/-- The native division of the model is the quotient rounded toward zero. -/
theorem tdiv_eq_truncatedQuotient (a b : Int) : a.tdiv b = truncatedQuotient a b := by
  unfold truncatedQuotient
  rcases a with m | m <;> rcases b with n | n
  · have h : (0 : Int) ≤ Int.ofNat m * Int.ofNat n :=
      Int.mul_nonneg (Int.ofNat_nonneg m) (Int.ofNat_nonneg n)
    rw [if_pos h]
    rfl
  · by_cases hm : m = 0
    · subst hm
      simp [Int.tdiv]
    · have h : ¬ (0 : Int) ≤ Int.ofNat m * Int.negSucc n := by
        have h1 : (0 : Int) < Int.ofNat m := Int.ofNat_pos.2 (Nat.pos_of_ne_zero hm)
        have h2 : Int.negSucc n < 0 := Int.negSucc_lt_zero n
        have := Int.mul_neg_of_pos_of_neg h1 h2
        omega
      rw [if_neg h]
      rfl
  · by_cases hn : n = 0
    · subst hn
      simp [Int.tdiv]
    · have h : ¬ (0 : Int) ≤ Int.negSucc m * Int.ofNat n := by
        have h1 : (0 : Int) < Int.ofNat n := Int.ofNat_pos.2 (Nat.pos_of_ne_zero hn)
        have h2 : Int.negSucc m < 0 := Int.negSucc_lt_zero m
        have := Int.mul_neg_of_neg_of_pos h2 h1
        omega
      rw [if_neg h]
      rfl
  · have h : (0 : Int) ≤ Int.negSucc m * Int.negSucc n :=
      Int.le_of_lt (Int.mul_pos_of_neg_of_neg (Int.negSucc_lt_zero m) (Int.negSucc_lt_zero n))
    rw [if_pos h]
    rfl

theorem wrapInt_of_range (z : Int) (h0 : INT_MIN ≤ z) (h1 : z ≤ INT_MAX) : wrapInt z = z := by
  unfold wrapInt
  unfold INT_MIN at h0
  unfold INT_MAX at h1
  omega

/-- The quotient rounded toward zero of two `int` values fits an `int`,
except for `INT_MIN / -1`. -/
theorem truncatedQuotient_range (a b : Int) (ha0 : INT_MIN ≤ a) (ha1 : a ≤ INT_MAX)
    (hb : b ≠ 0) (hmin : ¬ (a = INT_MIN ∧ b = -1)) :
    INT_MIN ≤ truncatedQuotient a b ∧ truncatedQuotient a b ≤ INT_MAX := by
  unfold INT_MIN at ha0 hmin ⊢
  unfold INT_MAX at ha1 ⊢
  have hd : a.natAbs / b.natAbs ≤ a.natAbs := Nat.div_le_self _ _
  have hn1 : a.natAbs ≤ 2147483648 := by omega
  have hb1 : 1 ≤ b.natAbs := by omega
  have hq2 : (b.natAbs = 1 ∧ a.natAbs / b.natAbs = a.natAbs) ∨
      a.natAbs / b.natAbs ≤ a.natAbs / 2 := by
    by_cases hb2 : b.natAbs = 1
    · exact Or.inl ⟨hb2, by rw [hb2, Nat.div_one]⟩
    · exact Or.inr (Nat.div_le_div_left (by omega) (by norm_num))
  unfold truncatedQuotient
  generalize a.natAbs / b.natAbs = q at hd hq2 ⊢
  split_ifs with hs
  · constructor
    · omega
    · rcases hq2 with ⟨hb2, hq⟩ | hq
      · by_cases hbpos : 0 ≤ b
        · have hb' : b = 1 := by omega
          subst hb'
          omega
        · have hb' : b = -1 := by omega
          subst hb'
          omega
      · omega
  · omega

/-- C11. Division truncates toward zero: when the operands evaluate to the
`int` values `v1` and `v2`, with `v2` not zero and the pair not
`INT_MIN`, `-1`, `BinaryExp::eval` with the operator `/` returns the quotient
of `v1` by `v2` rounded toward zero, whatever the signs of the operands.  The
text `(0-7)/2` evaluates to -3 and `7/2` to 3. -/
theorem division_truncates (left right : Exp) (w w1 w2 : World) (v1 v2 : Int)
    (h1 : left.eval w = .ok v1 w1) (h2 : right.eval w1 = .ok v2 w2)
    (hmin1 : INT_MIN ≤ v1) (hmax1 : v1 ≤ INT_MAX) (hz : v2 ≠ 0)
    (hpair : ¬ (v1 = INT_MIN ∧ v2 = -1)) :
    (Exp.BinaryExp left right .DIV).eval w = .ok (truncatedQuotient v1 v2) w2 ∧
      run "print((0-7)/2)".toList = .ok () ⟨[], ["-3"]⟩ ∧
      run "print(7/2)".toList = .ok () ⟨[], ["3"]⟩ := by
  refine ⟨?_, by decide, by decide⟩
  obtain ⟨r0, r1⟩ := truncatedQuotient_range v1 v2 hmin1 hmax1 hz hpair
  simp only [Exp.eval, h1, h2, Res.bind, if_neg hz, if_neg hpair, tdiv_eq_truncatedQuotient,
    wrapInt_of_range _ r0 r1]

/-- C11, at the operands `0-7` and `2`. -/
theorem division_truncates_witness :
    ((Exp.BinaryExp (.BinaryExp (.NumberExp 0) (.NumberExp 7) .MINUS) (.NumberExp 2) .DIV).eval
        World.start = .ok (truncatedQuotient (-7) 2) World.start ∧
      run "print((0-7)/2)".toList = .ok () ⟨[], ["-3"]⟩ ∧
      run "print(7/2)".toList = .ok () ⟨[], ["3"]⟩) ∧ truncatedQuotient (-7) 2 = -3 :=
  ⟨division_truncates (.BinaryExp (.NumberExp 0) (.NumberExp 7) .MINUS) (.NumberExp 2)
    World.start World.start World.start (-7) 2 (by decide) (by decide) (by decide) (by decide)
    (by decide) (by decide), by decide⟩

/-! ## Properties of the scanner -/

theorem scanWhile_stop (p : Char → Bool) (input : List Char) (fuel k : Nat)
    (h : p (charAt input k) = false) : scanWhile p input fuel k = k := by
  cases fuel with
  | zero => rfl
  | succ n => simp [scanWhile, h]

/-- A call of `next_token` returns `END` exactly when the first character
that is not a space is NUL; the cursor is then left on that character. -/
theorem next_token_end_iff (s : Scanner) :
    (s.next_token.1.type = .END ↔ charAt s.input (scanWhile (fun c => c == ' ') s.input
        (s.input.length - s.current) s.current) = NUL) ∧
      (s.next_token.1.type = .END → s.next_token =
        (Token.ofType .END, ⟨s.input, s.first, scanWhile (fun c => c == ' ') s.input
          (s.input.length - s.current) s.current⟩)) := by
  unfold Scanner.next_token
  dsimp only
  generalize scanWhile (fun c => c == ' ') s.input (s.input.length - s.current) s.current = k
  generalize charAt s.input k = c
  by_cases h0 : (c == NUL) = true
  · rw [if_pos h0]
    exact ⟨⟨fun _ => by simpa using h0, fun _ => rfl⟩, fun _ => rfl⟩
  · rw [if_neg h0]
    have hc : c ≠ NUL := by simpa using h0
    have hne : ∀ {x : Token × Scanner}, x.1.type ≠ .END →
        (x.1.type = .END ↔ c = NUL) ∧ (x.1.type = .END → x = (Token.ofType .END, ⟨s.input,
          s.first, k⟩)) :=
      fun hx => ⟨⟨fun h => absurd h hx, fun h => absurd h hc⟩, fun h => absurd h hx⟩
    by_cases h1 : c.isDigit = true
    · rw [if_pos h1]
      exact hne (by simp [Token.ofSubstr])
    · rw [if_neg h1]
      by_cases h2 : c.isAlpha = true
      · rw [if_pos h2]
        split_ifs
        · exact hne (by simp [Token.ofSubstr])
        · exact hne (by simp [Token.ofSubstr])
      · rw [if_neg h2]
        by_cases h3 : isPunctuation c = true
        · rw [if_pos h3]
          exact hne (punctuationToken_type c).1
        · rw [if_neg h3]
          exact hne (by simp [Token.ofChar])

/-- After `END`, a call of `next_token` returns `END` and changes nothing. -/
theorem next_token_after_end (s : Scanner) (h : s.next_token.1.type = .END) :
    s.next_token.1 = Token.ofType .END ∧
      s.next_token.2.next_token = (Token.ofType .END, s.next_token.2) := by
  obtain ⟨hiff, hval⟩ := next_token_end_iff s
  have hnul := hiff.1 h
  rw [hval h]
  refine ⟨rfl, ?_⟩
  generalize scanWhile (fun c => c == ' ') s.input (s.input.length - s.current)
    s.current = k at hnul
  have hstop : scanWhile (fun c => c == ' ') s.input (s.input.length - k) k = k :=
    scanWhile_stop _ _ _ _ (by rw [hnul]; decide)
  obtain ⟨hiff2, hval2⟩ := next_token_end_iff ⟨s.input, s.first, k⟩
  dsimp only at hiff2 hval2 ⊢
  rw [hstop] at hiff2 hval2
  exact hval2 (hiff2.2 hnul)

theorem calls_after_end (s : Scanner) (h : s.next_token.1.type = .END) (n : Nat) :
    Scanner.calls n s.next_token.2 = s.next_token.2 := by
  induction n with
  | zero => rfl
  | succ n ih =>
    rw [Scanner.calls, (next_token_after_end s h).2]
    exact ih

/-- C13. `END` is idempotent: once `next_token` has returned an `END` token
(which has the empty lexeme), every later call returns the `END` token with
the empty lexeme again and leaves the scanner, its cursor included, as it
was. -/
theorem end_idempotent (s : Scanner) (h : s.next_token.1.type = .END) (n : Nat) :
    s.next_token.1.lexema = [] ∧
      (Scanner.calls n s.next_token.2).next_token.1 = ⟨.END, []⟩ ∧
      (Scanner.calls n s.next_token.2).next_token.2 = s.next_token.2 ∧
      (Scanner.calls n s.next_token.2).next_token.2.current = s.next_token.2.current := by
  rw [calls_after_end s h n]
  obtain ⟨h1, h2⟩ := next_token_after_end s h
  rw [h2, h1]
  exact ⟨rfl, rfl, rfl, rfl⟩

/-- C13, at the text `7  `, after the call that returned the number. -/
theorem end_idempotent_witness :
    (Scanner.next_token ⟨"7  ".toList, 0, 1⟩).1.lexema = [] ∧
      (Scanner.calls 3 (Scanner.next_token ⟨"7  ".toList, 0, 1⟩).2).next_token.1 = ⟨.END, []⟩ ∧
      (Scanner.calls 3 (Scanner.next_token ⟨"7  ".toList, 0, 1⟩).2).next_token.2 =
        (Scanner.next_token ⟨"7  ".toList, 0, 1⟩).2 ∧
      (Scanner.calls 3 (Scanner.next_token ⟨"7  ".toList, 0, 1⟩).2).next_token.2.current =
        (Scanner.next_token ⟨"7  ".toList, 0, 1⟩).2.current :=
  end_idempotent ⟨"7  ".toList, 0, 1⟩ (by decide) 3

theorem scanWhile_bounds (p : Char → Bool) (hp : p NUL = false) (input : List Char) (cur : Nat)
    (h : cur ≤ input.length) :
    cur ≤ scanWhile p input (input.length - cur) cur ∧
      scanWhile p input (input.length - cur) cur ≤ input.length := by
  rw [scanWhile_eq p hp input _ _ (le_refl _)]
  have h1 : ((input.drop cur).takeWhile p).length ≤ (input.drop cur).length :=
    (List.takeWhile_sublist _).length_le
  rw [List.length_drop] at h1
  omega

theorem charAt_ne_NUL {input : List Char} {k : Nat} (h : charAt input k ≠ NUL) :
    k < input.length := by
  by_contra hk
  exact h (List.getD_eq_default _ _ (by omega))

/-- A call of `next_token` moves the cursor forward, and not past the end of
the text. -/
theorem next_token_bounds (s : Scanner) (h : s.current ≤ s.input.length) :
    s.current ≤ s.next_token.2.current ∧ s.next_token.2.current ≤ s.input.length := by
  have hsp : (fun c : Char => c == ' ') NUL = false := by decide
  have hdg : Char.isDigit NUL = false := by decide
  have hal : Char.isAlphanum NUL = false := by decide
  have hk := scanWhile_bounds (fun c : Char => c == ' ') hsp s.input s.current h
  unfold Scanner.next_token
  dsimp only
  generalize scanWhile (fun c => c == ' ') s.input (s.input.length - s.current) s.current = k
    at hk ⊢
  have hlt : charAt s.input k ≠ NUL → k < s.input.length := charAt_ne_NUL
  have hd := fun hk1 => scanWhile_bounds Char.isDigit hdg s.input (k + 1) hk1
  have ha := fun hk1 => scanWhile_bounds Char.isAlphanum hal s.input (k + 1) hk1
  generalize scanWhile Char.isDigit s.input (s.input.length - (k + 1)) (k + 1) = kd at hd ⊢
  generalize scanWhile Char.isAlphanum s.input (s.input.length - (k + 1)) (k + 1) = ka at ha ⊢
  generalize charAt s.input k = c at hlt ⊢
  by_cases h0 : (c == NUL) = true
  · rw [if_pos h0]
    exact hk
  · rw [if_neg h0]
    have hkl := hlt (by simpa using h0)
    have hd2 := hd (by omega)
    have ha2 := ha (by omega)
    by_cases h1 : c.isDigit = true
    · rw [if_pos h1]
      dsimp only
      omega
    · rw [if_neg h1]
      by_cases h2 : c.isAlpha = true
      · rw [if_pos h2]
        split_ifs <;> (dsimp only; omega)
      · rw [if_neg h2]
        by_cases h3 : isPunctuation c = true
        · rw [if_pos h3]
          dsimp only
          omega
        · rw [if_neg h3]
          dsimp only
          omega

theorem calls_input (n : Nat) (s : Scanner) : (Scanner.calls n s).input = s.input := by
  induction n generalizing s with
  | zero => rfl
  | succ n ih => rw [Scanner.calls, ih, next_token_input]

/-- From a cursor inside the text, `END` comes after at most as many tokens
as there are characters left. -/
theorem end_within (m : Nat) : ∀ (s : Scanner), s.current ≤ s.input.length →
    s.input.length - s.current ≤ m →
    ∃ n, n ≤ s.input.length - s.current ∧ (Scanner.calls n s).next_token.1.type = .END := by
  induction m with
  | zero =>
    intro s h hm
    refine ⟨0, by omega, ?_⟩
    by_contra hne
    have := next_token_progress s hne
    omega
  | succ m ih =>
    intro s h hm
    by_cases hend : s.next_token.1.type = .END
    · exact ⟨0, by omega, hend⟩
    · have hp := next_token_progress s hend
      have hb := next_token_bounds s h
      rw [next_token_input] at hp
      obtain ⟨n, hn, he⟩ := ih s.next_token.2 (by rw [next_token_input]; exact hb.2)
        (by rw [next_token_input]; omega)
      rw [next_token_input] at hn
      exact ⟨n + 1, by omega, he⟩

/-- C18. Cursor invariant and progress of the scanner: from a state whose
cursor is at most the length of the text, a call of `next_token` leaves the
cursor at least where it was and at most at the length of the text, and
strictly further whenever the token returned is not `END`; hence some call
among the first `length + 1` returns `END`. -/
theorem cursor_progress (s : Scanner) (h : s.current ≤ s.input.length) :
    (s.current ≤ s.next_token.2.current ∧ s.next_token.2.current ≤ s.input.length) ∧
      (s.next_token.1.type ≠ .END → s.current < s.next_token.2.current) ∧
      ∃ n, n + 1 ≤ s.input.length + 1 ∧ (Scanner.calls n s).next_token.1.type = .END := by
  have hb := next_token_bounds s h
  refine ⟨hb, fun hne => ?_, ?_⟩
  · have hp := next_token_progress s hne
    rw [next_token_input] at hp
    omega
  · obtain ⟨n, hn, he⟩ := end_within _ s h (le_refl _)
    exact ⟨n, by omega, he⟩

/-- C18, at the text `a+1` from its start. -/
theorem cursor_progress_witness :
    ((Scanner.new "a+1".toList).current ≤ (Scanner.new "a+1".toList).next_token.2.current ∧
        (Scanner.new "a+1".toList).next_token.2.current ≤ (Scanner.new "a+1".toList).input.length) ∧
      ((Scanner.new "a+1".toList).next_token.1.type ≠ .END →
        (Scanner.new "a+1".toList).current < (Scanner.new "a+1".toList).next_token.2.current) ∧
      ∃ n, n + 1 ≤ (Scanner.new "a+1".toList).input.length + 1 ∧
        (Scanner.calls n (Scanner.new "a+1".toList)).next_token.1.type = .END :=
  cursor_progress (Scanner.new "a+1".toList) (by decide)

/-- The cursor after a call, counted from the texts before and after it. -/
theorem next_token_cursor (s : Scanner) (h : s.current ≤ s.input.length) :
    s.next_token.2.current + (lexHead s.rest).2.length = s.current + s.rest.length := by
  have hb := next_token_bounds s h
  have hr := (next_token_eq_lexHead s).2
  have h1 := rest_length s
  have h2 := rest_length s.next_token.2
  rw [next_token_input] at h2
  rw [← hr]
  omega

theorem rest_cursor {s : Scanner} {c : Char} {r : List Char}
    (hd : s.rest.dropWhile (fun c => c == ' ') = c :: r) : s.current ≤ s.input.length := by
  by_contra hlt
  have : s.rest = [] := List.drop_eq_nil_of_le (by omega)
  rw [this] at hd
  simp at hd

theorem length_spaces (l : List Char) (p : Char → Bool) :
    l.length = (l.takeWhile p).length + (l.dropWhile p).length := by
  conv_lhs => rw [← List.takeWhile_append_dropWhile p l]
  rw [List.length_append]

/-- C14. Number tokens use maximal munch: when the first character that is
not a space, at or after the cursor, is a digit, `next_token` returns the
`NUM` token whose lexeme is the longest run of digits that starts at that
character, and leaves the cursor right after the run, where the character,
if any, is not a digit. -/
theorem number_maximal_munch (s : Scanner) (c : Char) (r : List Char)
    (hd : s.rest.dropWhile (fun c => c == ' ') = c :: r) (hc : c.isDigit = true) :
    s.next_token.1 = ⟨.NUM, (c :: r).takeWhile Char.isDigit⟩ ∧
      s.next_token.2.current = s.current + (s.rest.takeWhile (fun c => c == ' ')).length +
        ((c :: r).takeWhile Char.isDigit).length ∧
      s.next_token.2.rest = (c :: r).dropWhile Char.isDigit ∧
      (charAt s.input s.next_token.2.current).isDigit = false := by
  have hnul := isAlphanum_ne_NUL c (isDigit_isAlphanum c hc)
  have hlex : lexHead s.rest = (⟨.NUM, c :: r.takeWhile Char.isDigit⟩,
      r.dropWhile Char.isDigit) := by
    simp only [lexHead, hd, hnul, hc, if_true, Bool.false_eq_true, if_false]
  obtain ⟨h1, h2⟩ := next_token_eq_lexHead s
  have hcur := next_token_cursor s (rest_cursor hd)
  rw [hlex] at h1 h2 hcur
  replace h2 : s.next_token.2.rest = r.dropWhile Char.isDigit := h2
  have hl1 := length_spaces s.rest (fun c => c == ' ')
  have hl2 := length_spaces r Char.isDigit
  rw [hd] at hl1
  simp only [List.length_cons] at hl1
  rw [List.takeWhile_cons_of_pos hc, List.dropWhile_cons_of_pos hc]
  refine ⟨h1, ?_, h2, ?_⟩
  · simp only [List.length_cons]
    dsimp only at hcur
    omega
  · rw [charAt_eq_headD]
    have : s.next_token.2.rest = List.drop s.next_token.2.current s.input := by
      rw [Scanner.rest, next_token_input]
    rw [← this, h2]
    cases hdw : r.dropWhile Char.isDigit with
    | nil => rfl
    | cons x xs =>
      simp only [List.headD_cons]
      exact dropWhile_head_not _ _ _ _ hdw

/-- C14, at the text `  1234ab` from its start. -/
theorem number_maximal_munch_witness :
    (Scanner.new "  1234ab".toList).next_token.1 =
        ⟨.NUM, ("1234ab".toList).takeWhile Char.isDigit⟩ ∧
      (Scanner.new "  1234ab".toList).next_token.2.current =
        (Scanner.new "  1234ab".toList).current +
          ((Scanner.new "  1234ab".toList).rest.takeWhile (fun c => c == ' ')).length +
          (("1234ab".toList).takeWhile Char.isDigit).length ∧
      (Scanner.new "  1234ab".toList).next_token.2.rest =
        ("1234ab".toList).dropWhile Char.isDigit ∧
      (charAt (Scanner.new "  1234ab".toList).input
        (Scanner.new "  1234ab".toList).next_token.2.current).isDigit = false :=
  number_maximal_munch (Scanner.new "  1234ab".toList) '1' "234ab".toList (by decide) (by decide)

/-- C15. Keyword and identifier: when the first character that is not a
space, at or after the cursor, is a letter, `next_token` matches the longest
run of letters and digits that starts at that character and leaves the
cursor right after it; the token has the matched text as its lexeme, and its
kind is `PRINT` if the matched text is exactly `print`, and `ID` otherwise.
So `Print`, `print1` and `printx` are identifiers. -/
theorem keyword_or_identifier (s : Scanner) (c : Char) (r : List Char)
    (hd : s.rest.dropWhile (fun c => c == ' ') = c :: r) (hc : c.isAlpha = true) :
    s.next_token.1.lexema = (c :: r).takeWhile Char.isAlphanum ∧
      (s.next_token.1.type = .PRINT ↔ (c :: r).takeWhile Char.isAlphanum = "print".toList) ∧
      ((c :: r).takeWhile Char.isAlphanum ≠ "print".toList → s.next_token.1.type = .ID) ∧
      s.next_token.2.current = s.current + (s.rest.takeWhile (fun c => c == ' ')).length +
        ((c :: r).takeWhile Char.isAlphanum).length ∧
      (Scanner.new "Print".toList).next_token.1 = ⟨.ID, "Print".toList⟩ ∧
      (Scanner.new "print1".toList).next_token.1 = ⟨.ID, "print1".toList⟩ ∧
      (Scanner.new "printx".toList).next_token.1 = ⟨.ID, "printx".toList⟩ ∧
      (Scanner.new "print".toList).next_token.1 = ⟨.PRINT, "print".toList⟩ := by
  have hca := isAlpha_isAlphanum c hc
  have hnul := isAlphanum_ne_NUL c hca
  have hnd := isAlpha_not_isDigit c hc
  obtain ⟨h1, h2⟩ := next_token_eq_lexHead s
  have hcur := next_token_cursor s (rest_cursor hd)
  have hl1 := length_spaces s.rest (fun c => c == ' ')
  have hl2 := length_spaces r Char.isAlphanum
  rw [hd] at hl1
  simp only [List.length_cons] at hl1
  rw [List.takeWhile_cons_of_pos hca]
  have hkind : (s.next_token.1 = ⟨.PRINT, c :: r.takeWhile Char.isAlphanum⟩ ∧
        c :: r.takeWhile Char.isAlphanum = "print".toList) ∨
      (s.next_token.1 = ⟨.ID, c :: r.takeWhile Char.isAlphanum⟩ ∧
        c :: r.takeWhile Char.isAlphanum ≠ "print".toList) := by
    by_cases hp : ("print".toList == c :: r.takeWhile Char.isAlphanum) = true
    · have hlex : (lexHead s.rest).1 = ⟨.PRINT, c :: r.takeWhile Char.isAlphanum⟩ := by
        simp only [lexHead, hd, hnul, hnd, hc, hp, if_true, Bool.false_eq_true, if_false]
      exact Or.inl ⟨h1.trans hlex, (eq_of_beq hp).symm⟩
    · have hlex : (lexHead s.rest).1 = ⟨.ID, c :: r.takeWhile Char.isAlphanum⟩ := by
        simp only [lexHead, hd, hnul, hnd, hc, hp, if_true, Bool.false_eq_true, if_false]
      exact Or.inr ⟨h1.trans hlex, fun he => hp (by rw [he]; rfl)⟩
  have hrest : (lexHead s.rest).2 = r.dropWhile Char.isAlphanum := by
    simp only [lexHead, hd, hnul, hnd, hc, if_true, Bool.false_eq_true, if_false]
    split_ifs <;> rfl
  rw [hrest] at hcur
  refine ⟨?_, ?_, ?_, ?_, by decide, by decide, by decide, by decide⟩
  · rcases hkind with ⟨hk, _⟩ | ⟨hk, _⟩ <;> rw [hk]
  · rcases hkind with ⟨hk, he⟩ | ⟨hk, he⟩
    · rw [hk]
      exact ⟨fun _ => he, fun _ => rfl⟩
    · rw [hk]
      exact ⟨fun h => by simp at h, fun h => absurd h he⟩
  · intro hne
    rcases hkind with ⟨_, he⟩ | ⟨hk, _⟩
    · exact absurd he hne
    · rw [hk]
  · simp only [List.length_cons]
    omega

/-- C15, at the text ` print9+` from its start. -/
theorem keyword_or_identifier_witness :
    (Scanner.new " print9+".toList).next_token.1.lexema =
        ("print9+".toList).takeWhile Char.isAlphanum ∧
      ((Scanner.new " print9+".toList).next_token.1.type = .PRINT ↔
        ("print9+".toList).takeWhile Char.isAlphanum = "print".toList) ∧
      (("print9+".toList).takeWhile Char.isAlphanum ≠ "print".toList →
        (Scanner.new " print9+".toList).next_token.1.type = .ID) ∧
      (Scanner.new " print9+".toList).next_token.2.current =
        (Scanner.new " print9+".toList).current +
          ((Scanner.new " print9+".toList).rest.takeWhile (fun c => c == ' ')).length +
          (("print9+".toList).takeWhile Char.isAlphanum).length ∧
      (Scanner.new "Print".toList).next_token.1 = ⟨.ID, "Print".toList⟩ ∧
      (Scanner.new "print1".toList).next_token.1 = ⟨.ID, "print1".toList⟩ ∧
      (Scanner.new "printx".toList).next_token.1 = ⟨.ID, "printx".toList⟩ ∧
      (Scanner.new "print".toList).next_token.1 = ⟨.PRINT, "print".toList⟩ :=
  keyword_or_identifier (Scanner.new " print9+".toList) 'p' "rint9+".toList (by decide)
    (by decide)

theorem lexHead_spaces (w cs : List Char) (hw : ∀ c ∈ w, c = ' ') :
    lexHead (w ++ cs) = lexHead cs := by
  unfold lexHead
  rw [List.dropWhile_append_of_pos (fun c hc => by rw [hw c hc]; rfl)]

/-- C16, counterexample: a tab, a newline or a carriage return in front of
the text `1` is not skipped; `next_token` returns an `ERR` token that
carries it, not the `NUM` token of `1`. -/
theorem whitespace_counterexample :
    (Scanner.new "1".toList).next_token.1 = ⟨.NUM, ['1']⟩ ∧
      (Scanner.new (['\t'] ++ "1".toList)).next_token.1 = ⟨.ERR, ['\t']⟩ ∧
      (Scanner.new (['\n'] ++ "1".toList)).next_token.1 = ⟨.ERR, ['\n']⟩ ∧
      (Scanner.new (['\r'] ++ "1".toList)).next_token.1 = ⟨.ERR, ['\r']⟩ := by
  decide

/-- C16, amended. Spaces are consumed before classification: for every text
and every string `w` of space characters, `next_token` on `w` followed by the
text returns the same token, kind and lexeme, as `next_token` on the text;
the same holds from any two scanner states whose texts after the cursor
differ by `w`. -/
theorem spaces_before_token (w : List Char) (hw : ∀ c ∈ w, c = ' ') :
    (∀ text : List Char,
      (Scanner.new (w ++ text)).next_token.1 = (Scanner.new text).next_token.1) ∧
    (∀ s t : Scanner, s.rest = w ++ t.rest → s.next_token.1 = t.next_token.1) := by
  have h2 : ∀ s t : Scanner, s.rest = w ++ t.rest → s.next_token.1 = t.next_token.1 := by
    intro s t hst
    rw [(next_token_eq_lexHead s).1, (next_token_eq_lexHead t).1, hst, lexHead_spaces w _ hw]
  exact ⟨fun text => h2 _ _ rfl, h2⟩

/-- C16, amended, at three spaces in front of `x1=2`. -/
theorem spaces_before_token_witness :
    (Scanner.new ("   ".toList ++ "x1=2".toList)).next_token.1 =
      (Scanner.new "x1=2".toList).next_token.1 :=
  (spaces_before_token "   ".toList (by decide)).1 "x1=2".toList

/-! ## The parser primitives -/

/-- C19, counterexample: at the end of the text the current token has kind
`END`, and `match(END)` returns false without consuming anything; in front
of an unrecognized character, `match` of the current kind ends the run and
returns neither true nor false. -/
theorem match_end_counterexample :
    (Parser.new (Scanner.new [])).current.type = .END ∧
      (Parser.new (Scanner.new [])).match_token .END =
        .ok false (Parser.new (Scanner.new [])) ∧
      (Parser.new (Scanner.new "x@".toList)).current.type = .ID ∧
      (Parser.new (Scanner.new "x@".toList)).match_token .ID =
        .halt (.unrecognizedChar ['@']) := by
  decide

/-- The function `check` finds the kind of the current token, but never
`END`. -/
theorem check_iff (p : Parser) (k : TokenType) :
    p.check k = true ↔ (p.current.type = k ∧ k ≠ .END) := by
  have hend : p.is_at_end = true ↔ p.current.type = .END := by
    simp [Parser.is_at_end]
  unfold Parser.check
  by_cases he : p.current.type = .END
  · rw [if_pos (hend.2 he)]
    constructor
    · intro h; cases h
    · rintro ⟨h1, h2⟩
      exact absurd (h1 ▸ he) h2
  · have hne : ¬ p.is_at_end = true := fun h => he (hend.1 h)
    rw [if_neg hne]
    constructor
    · intro h
      have h1 : p.current.type = k := eq_of_beq h
      exact ⟨h1, h1 ▸ he⟩
    · rintro ⟨h1, _⟩
      simp [h1]

/-- What `match` returns, by cases on `check` and on the next token of the
scanner. -/
theorem match_token_outcomes (p : Parser) (k : TokenType) :
    (p.check k = true → p.scanner.next_token.1.type ≠ .ERR →
        p.match_token k =
          .ok true ⟨p.scanner.next_token.2, p.scanner.next_token.1, some p.current⟩) ∧
      (p.check k = true → p.scanner.next_token.1.type = .ERR →
        p.match_token k = .halt (.unrecognizedChar p.scanner.next_token.1.lexema)) ∧
      (p.check k = false → p.match_token k = .ok false p) := by
  refine ⟨?_, ?_, ?_⟩
  · intro hc hn
    obtain ⟨h1, h2⟩ := (check_iff p k).1 hc
    have he : p.current.type ≠ .END := h1 ▸ h2
    simp [Parser.match_token, Parser.check, Parser.is_at_end, Parser.advance, PRes.bind, h1, h2,
      hn]
  · intro hc hn
    obtain ⟨h1, h2⟩ := (check_iff p k).1 hc
    have he : p.current.type ≠ .END := h1 ▸ h2
    simp [Parser.match_token, Parser.check, Parser.is_at_end, Parser.advance, PRes.bind, h1, h2,
      hn]
  · intro hc
    simp [Parser.match_token, hc]

/-- C19, amended. For every parser state and token kind `k`: `is_at_end` is
true iff the current kind is `END`; `check(k)` is true iff the current kind is
`k` and `k` is not `END`; when `check(k)` holds, `match(k)` takes the next
token from the scanner, and either that token is `ERR` and the run ends with
the report of its character, or `match(k)` returns true with that token as
current and the old current token as previous; when `check(k)` does not hold,
`match(k)` returns false and leaves the parser as it was.  `check` and
`is_at_end` depend on the current token only and return no parser state. -/
theorem match_token_spec (p : Parser) (k : TokenType) :
    (p.is_at_end = true ↔ p.current.type = .END) ∧
      (p.check k = true ↔ (p.current.type = k ∧ k ≠ .END)) ∧
      (p.check k = true → p.scanner.next_token.1.type ≠ .ERR →
        p.match_token k =
          .ok true ⟨p.scanner.next_token.2, p.scanner.next_token.1, some p.current⟩) ∧
      (p.check k = true → p.scanner.next_token.1.type = .ERR →
        p.match_token k = .halt (.unrecognizedChar p.scanner.next_token.1.lexema)) ∧
      (p.check k = false → p.match_token k = .ok false p) ∧
      (∀ q : Parser, q.current = p.current →
        q.check k = p.check k ∧ q.is_at_end = p.is_at_end) := by
  obtain ⟨h3, h4, h5⟩ := match_token_outcomes p k
  refine ⟨?_, check_iff p k, h3, h4, h5, ?_⟩
  · simp [Parser.is_at_end]
  · intro q hq
    simp [Parser.check, Parser.is_at_end, hq]

/-- C19, amended, at the parser on the text `x=1` and the kind `ID`:
`match(ID)` returns true, with `=` as current token and `x` as previous. -/
theorem match_token_spec_witness :
    (Parser.new (Scanner.new "x=1".toList)).check .ID = true ∧
      (Parser.new (Scanner.new "x=1".toList)).scanner.next_token.1.type ≠ .ERR ∧
      ((Parser.new (Scanner.new "x=1".toList)).match_token .ID).bind
          (fun r q => .ok (r, q.current, q.previous) q) =
        ((Parser.new (Scanner.new "x=1".toList)).match_token .ID).bind
          (fun _ q => .ok (true, ⟨.ASSIGN, ['=']⟩, some ⟨.ID, ['x']⟩) q) ∧
      (Parser.new (Scanner.new "x=1".toList)).match_token .ID =
        .ok true ⟨(Parser.new (Scanner.new "x=1".toList)).scanner.next_token.2,
          (Parser.new (Scanner.new "x=1".toList)).scanner.next_token.1,
          some (Parser.new (Scanner.new "x=1".toList)).current⟩ :=
  ⟨by decide, by decide, by decide,
    (match_token_spec (Parser.new (Scanner.new "x=1".toList)) .ID).2.2.1 (by decide) (by decide)⟩

/-! ## Evaluation and the keys of the memory -/

theorem eval_memory (e : Exp) (w : World) : (e.eval w).world.memory = w.memory := by
  rcases eval_cases e w with ⟨v, h, _⟩ | ⟨_, _, h⟩ | ⟨y, _, _, h⟩ <;> rw [h] <;> rfl

theorem executed_prefix (prog : List Stmt) : ∀ w : World, executed prog w <+: prog := by
  induction prog with
  | nil => intro w; exact List.prefix_refl _
  | cons s rest ih =>
    intro w
    unfold executed
    cases hs : s.execute w with
    | ok a w1 => exact (List.prefix_cons_inj s).2 (ih w1)
    | halt e w1 => exact List.nil_prefix

theorem executed_of_ok (prog : List Stmt) : ∀ w w1 : World,
    interpret prog w = .ok () w1 → executed prog w = prog := by
  induction prog with
  | nil => intro w w1 _; rfl
  | cons s rest ih =>
    intro w w1 h
    unfold executed
    cases hs : s.execute w with
    | ok a w2 =>
      simp only [interpret, hs, Res.bind] at h
      simp [ih w2 w1 h]
    | halt e w2 => simp [interpret, hs, Res.bind] at h

theorem interpret_keys (prog : List Stmt) : ∀ (w : World) (x : List Char),
    (interpret prog w).world.memory.declares x = true ↔
      (w.memory.declares x = true ∨ x ∈ assigned (executed prog w)) := by
  induction prog with
  | nil => intro w x; simp [interpret, Res.world, executed, assigned]
  | cons s rest ih =>
    intro w x
    rcases execute_cases s w with ⟨w1, h1, _, hk, _⟩ | ⟨_, _, h1⟩ | ⟨y, _, _, h1⟩
    · have hx : executed (s :: rest) w = s :: executed rest w1 := by
        simp [executed, h1]
      have hi : interpret (s :: rest) w = interpret rest w1 := by
        simp [interpret, h1, Res.bind]
      have ha : ∀ l : List Stmt, x ∈ assigned (s :: l) ↔ (x ∈ assigned [s] ∨ x ∈ assigned l) := by
        intro l
        cases s <;> simp [assigned]
      rw [hx, hi, ih w1 x, hk x, ha (executed rest w1)]
      tauto
    · simp [interpret, executed, h1, Res.bind, Res.world, assigned]
    · simp [interpret, executed, h1, Res.bind, Res.world, assigned]

/-- C20. Evaluating an expression leaves the memory as it was, whether the
evaluation returns a value or ends the run (undeclared variable, division by
zero or of `INT_MIN` by -1); so after interpreting a statement list from any state, to its end or
up to the statement that ends the run, the keys of the memory are the keys
of the start state and the names assigned by the statements that executed, and
after a run of a program text from the empty memory they are exactly those
names.  The statements that executed are a beginning of the list, and all of
it when the run reaches the end. -/
theorem eval_leaves_memory :
    (∀ (e : Exp) (w : World), (e.eval w).world.memory = w.memory) ∧
      (∀ (id : List Char) (w : World) (x : List Char),
        ((Exp.IdExp id).eval w).world.memory.declares x = w.memory.declares x) ∧
      (∀ (prog : List Stmt) (w : World) (x : List Char),
        (interpret prog w).world.memory.declares x = true ↔
          (w.memory.declares x = true ∨ x ∈ assigned (executed prog w))) ∧
      (∀ (prog : List Stmt) (w : World), executed prog w <+: prog) ∧
      (∀ (prog : List Stmt) (w w1 : World),
        interpret prog w = .ok () w1 → executed prog w = prog) ∧
      (∀ (text : List Char) (prog : Program) (q : Parser), parse text = .ok prog q →
        ∀ x, (run text).world.memory.declares x = true ↔
          x ∈ assigned (executed prog.slist World.start)) := by
  refine ⟨eval_memory, ?_, interpret_keys, executed_prefix, executed_of_ok, ?_⟩
  · intro id w x
    rw [eval_memory]
  · intro text prog q hp x
    have hr : run text = interpret prog.slist World.start := by
      simp [run, hp, Program.interpreter]
    rw [hr, interpret_keys]
    simp [World.start, Memory.declares]

/-- C20, at the statements of `x=1;print(y);z=2` from the empty memory: the
run ends at `print(y)`, only `x=1` executed, and `x` is the only key. -/
theorem eval_leaves_memory_witness :
    executed [.AssignStm ['x'] (.NumberExp 1), .PrintStm (.IdExp ['y']),
        .AssignStm ['z'] (.NumberExp 2)] World.start = [.AssignStm ['x'] (.NumberExp 1)] ∧
      (interpret [.AssignStm ['x'] (.NumberExp 1), .PrintStm (.IdExp ['y']),
        .AssignStm ['z'] (.NumberExp 2)] World.start).world.memory = [(['x'], 1)] ∧
      ∀ x, (interpret [.AssignStm ['x'] (.NumberExp 1), .PrintStm (.IdExp ['y']),
          .AssignStm ['z'] (.NumberExp 2)] World.start).world.memory.declares x = true ↔
        (World.start.memory.declares x = true ∨
          x ∈ assigned (executed [.AssignStm ['x'] (.NumberExp 1), .PrintStm (.IdExp ['y']),
            .AssignStm ['z'] (.NumberExp 2)] World.start)) :=
  ⟨by decide, by decide, eval_leaves_memory.2.2.1 _ _⟩

/-! ## Rendering a tree and parsing the text again -/

theorem digitChar_digit : ∀ k : Nat, k < 10 →
    (Nat.digitChar k).isDigit = true ∧ (Nat.digitChar k).toNat - '0'.toNat = k := by
  decide

theorem digitsValue_snoc (pre : List Char) (d : Char) :
    digitsValue (pre ++ [d]) = 10 * digitsValue pre + (d.toNat - '0'.toNat) := by
  simp [digitsValue, List.foldl_append]

theorem toDigitsCore_spec : ∀ (fuel n : Nat) (ds : List Char), n < fuel →
    ∃ pre, Nat.toDigitsCore 10 fuel n ds = pre ++ ds ∧ pre ≠ [] ∧
      (∀ c ∈ pre, c.isDigit = true) ∧ digitsValue pre = n := by
  intro fuel
  induction fuel with
  | zero => intro n ds h; omega
  | succ m ih =>
    intro n ds h
    obtain ⟨hd, hv⟩ := digitChar_digit (n % 10) (Nat.mod_lt _ (by decide))
    unfold Nat.toDigitsCore
    by_cases h0 : n / 10 = 0
    · simp only [h0, if_true]
      refine ⟨[Nat.digitChar (n % 10)], rfl, by simp, by simpa using hd, ?_⟩
      have : digitsValue [Nat.digitChar (n % 10)] =
          (Nat.digitChar (n % 10)).toNat - '0'.toNat := by
        simp [digitsValue]
      rw [this, hv]
      omega
    · simp only [h0, if_false]
      obtain ⟨pre, hp, hne, hall, hval⟩ := ih (n / 10) (Nat.digitChar (n % 10) :: ds) (by omega)
      refine ⟨pre ++ [Nat.digitChar (n % 10)], by simp [hp], by simp, ?_, ?_⟩
      · intro c hc
        simp only [List.mem_append, List.mem_singleton] at hc
        rcases hc with hc | hc
        · exact hall c hc
        · rw [hc]; exact hd
      · rw [digitsValue_snoc, hval, hv]
        omega

/-- The decimal text of a natural number is a non-empty run of digits with
the number as its value. -/
theorem toString_nat_spec (n : Nat) : (toString n).toList ≠ [] ∧
    (∀ c ∈ (toString n).toList, c.isDigit = true) ∧ digitsValue (toString n).toList = n := by
  obtain ⟨pre, hp, hne, hall, hval⟩ := toDigitsCore_spec (n + 1) n [] (by omega)
  have : (toString n).toList = pre := by
    show (Nat.toDigits 10 n) = pre
    simpa [Nat.toDigits] using hp
  rw [this]
  exact ⟨hne, hall, hval⟩

theorem toString_int_spec (v : Int) (h : 0 ≤ v) : (toString v).toList ≠ [] ∧
    (∀ c ∈ (toString v).toList, c.isDigit = true) ∧
    (digitsValue (toString v).toList : Int) = v := by
  obtain ⟨n, rfl⟩ := Int.eq_ofNat_of_zero_le h
  have h2 : toString (n : Int) = toString n := rfl
  rw [h2]
  obtain ⟨a, b, c⟩ := toString_nat_spec n
  exact ⟨a, b, by rw [c]⟩

/-- A leaf that is the tree of a factor renders to a well-formed factor and
is the node of that factor. -/
theorem isFactor_atom (e : Exp) (h : e.isFactor = true) :
    e.atom.wellFormed = true ∧ e.atom.exp = e ∧ e.atom.text = e.print := by
  cases e with
  | BinaryExp l r op => simp [Exp.isFactor] at h
  | IdExp id => exact ⟨h, rfl, rfl⟩
  | NumberExp v =>
    simp only [Exp.isFactor, Bool.and_eq_true, decide_eq_true_eq] at h
    obtain ⟨hne, hall, hv⟩ := toString_int_spec v h.1
    refine ⟨?_, ?_, rfl⟩
    · simp only [Exp.atom, Atom.wellFormed, Bool.and_eq_true, List.all_eq_true,
        decide_eq_true_eq, Bool.not_eq_true', List.isEmpty_eq_false]
      exact ⟨⟨by simpa using hne, hall⟩, by rw [hv]; exact h.2⟩
    · simp only [Exp.atom, Atom.exp, hv]

theorem termTail_snoc_yield : ∀ (tt : CTermTail) (op : MulOp) (f : CFactor),
    (tt.snoc op f).yield = tt.yield ++ op.token :: f.yield
  | .nil, op, f => by simp [CTermTail.snoc, CTermTail.yield]
  | .cons o g rest, op, f => by
    simp [CTermTail.snoc, CTermTail.yield, termTail_snoc_yield rest op f]

theorem termTail_snoc_ast : ∀ (tt : CTermTail) (op : MulOp) (f : CFactor) (left : Exp),
    (tt.snoc op f).ast left = .BinaryExp (tt.ast left) f.ast op.op
  | .nil, op, f, left => by simp [CTermTail.snoc, CTermTail.ast]
  | .cons o g rest, op, f, left => by
    simp [CTermTail.snoc, CTermTail.ast, termTail_snoc_ast rest op f]

theorem expTail_snoc_yield : ∀ (et : CExpTail) (op : AddOp) (t : CTerm),
    (et.snoc op t).yield = et.yield ++ op.token :: t.yield
  | .nil, op, t => by simp [CExpTail.snoc, CExpTail.yield]
  | .cons o u rest, op, t => by
    simp [CExpTail.snoc, CExpTail.yield, expTail_snoc_yield rest op t]

theorem expTail_snoc_ast : ∀ (et : CExpTail) (op : AddOp) (t : CTerm) (left : Exp),
    (et.snoc op t).ast left = .BinaryExp (et.ast left) t.ast op.op
  | .nil, op, t, left => by simp [CExpTail.snoc, CExpTail.ast]
  | .cons o u rest, op, t, left => by
    simp [CExpTail.snoc, CExpTail.ast, expTail_snoc_ast rest op t]

theorem term_snoc (t : CTerm) (op : MulOp) (f : CFactor) :
    (t.snoc op f).yield = t.yield ++ op.token :: f.yield ∧
      (t.snoc op f).ast = .BinaryExp t.ast f.ast op.op := by
  cases t with
  | mk first rest =>
    simp [CTerm.snoc, CTerm.yield, CTerm.ast, termTail_snoc_yield, termTail_snoc_ast]

theorem exp_snoc (e : CExp) (op : AddOp) (t : CTerm) :
    (e.snoc op t).yield = e.yield ++ op.token :: t.yield ∧
      (e.snoc op t).ast = .BinaryExp e.ast t.ast op.op := by
  cases e with
  | mk first rest =>
    simp [CExp.snoc, CExp.yield, CExp.ast, expTail_snoc_yield, expTail_snoc_ast]

theorem isFactor_isTerm (e : Exp) (h : e.isFactor = true) : e.isTerm = true := by
  cases e with
  | BinaryExp l r op => simp [Exp.isFactor] at h
  | NumberExp v => exact h
  | IdExp id => exact h

theorem isTerm_isExpression (e : Exp) (h : e.isTerm = true) : e.isExpression = true := by
  cases e with
  | BinaryExp l r op =>
    simp only [Exp.isTerm] at h
    simp only [Exp.isExpression, h, Bool.or_true]
  | NumberExp v => exact h
  | IdExp id => exact h

theorem leaf_tokens (e : Exp) (h : e.isFactor = true) :
    e.tokens = [e.atom.token] ∧ e.term = .mk e.atom.factor .nil := by
  cases e with
  | BinaryExp l r op => simp [Exp.isFactor] at h
  | NumberExp v => exact ⟨rfl, rfl⟩
  | IdExp id => exact ⟨rfl, rfl⟩

/-- The derivation of a tree of a term stands for the tree and derives the
tokens of the rendered text. -/
theorem term_of_isTerm (e : Exp) (h : e.isTerm = true) :
    e.term.ast = e ∧ e.term.yield = e.tokens := by
  induction e with
  | NumberExp v =>
    have ha := isFactor_atom _ h
    simp [Exp.term, CTerm.ast, CTermTail.ast, CTerm.yield, CTermTail.yield, atom_ast, atom_yield,
      ha.2.1, Exp.tokens]
  | IdExp id =>
    have ha := isFactor_atom _ h
    simp [Exp.term, CTerm.ast, CTermTail.ast, CTerm.yield, CTermTail.yield, atom_ast, atom_yield,
      ha.2.1, Exp.tokens]
  | BinaryExp l r op ihl ihr =>
    simp only [Exp.isTerm, Bool.and_eq_true] at h
    obtain ⟨⟨hop, hl⟩, hr⟩ := h
    obtain ⟨h1, h2⟩ := ihl hl
    have ha := isFactor_atom _ hr
    obtain ⟨hp1, hp2⟩ := punctuationToken_multiplicative op hop
    obtain ⟨hs1, hs2⟩ := term_snoc l.term (if op = .MUL then .times else .over) r.atom.factor
    refine ⟨?_, ?_⟩
    · simp only [Exp.term]
      rw [hs2, h1, atom_ast, ha.2.1, hp2]
    · simp only [Exp.term, Exp.tokens]
      rw [hs1, h2, atom_yield, ← hp1, (leaf_tokens r hr).1]

/-- The derivation of a tree of an expression stands for the tree and derives
the tokens of the rendered text. -/
theorem expression_of_isExpression (e : Exp) (h : e.isExpression = true) :
    e.expression.ast = e ∧ e.expression.yield = e.tokens := by
  induction e with
  | NumberExp v =>
    have ht := term_of_isTerm _ (isFactor_isTerm _ h)
    simp only [Exp.expression, CExp.ast, CExpTail.ast, CExp.yield, CExpTail.yield,
      List.append_nil]
    exact ht
  | IdExp id =>
    have ht := term_of_isTerm _ (isFactor_isTerm _ h)
    simp only [Exp.expression, CExp.ast, CExpTail.ast, CExp.yield, CExpTail.yield,
      List.append_nil]
    exact ht
  | BinaryExp l r op ihl ihr =>
    by_cases hadd : op.isAdditive = true
    · have hnm : op.isMultiplicative = false := by cases op <;> first | rfl | cases hadd
      simp only [Exp.isExpression, hadd, hnm, Bool.true_and, Bool.false_and, Bool.or_false,
        Bool.and_eq_true] at h
      obtain ⟨hl, hr⟩ := h
      obtain ⟨h1, h2⟩ := ihl hl
      obtain ⟨h3, h4⟩ := term_of_isTerm r hr
      obtain ⟨hp1, hp2⟩ := punctuationToken_additive op hadd
      obtain ⟨hs1, hs2⟩ := exp_snoc l.expression (if op = .PLUS then .plus else .minus) r.term
      refine ⟨?_, ?_⟩
      · simp only [Exp.expression, hadd, if_true]
        rw [hs2, h1, h3, hp2]
      · simp only [Exp.expression, hadd, if_true, Exp.tokens]
        rw [hs1, h2, h4, ← hp1]
    · have hterm : (Exp.BinaryExp l r op).isTerm = true := by
        simp only [Exp.isExpression, hadd, Bool.false_and, Bool.false_or] at h
        exact h
      have ht := term_of_isTerm _ hterm
      simp only [Exp.expression, hadd, Bool.false_eq_true, if_false, CExp.ast, CExpTail.ast,
        CExp.yield, CExpTail.yield, List.append_nil]
      exact ht

theorem scans_leaf (e : Exp) (h : e.isFactor = true) : Scans e := by
  obtain ⟨hw, _, htext⟩ := isFactor_atom e h
  obtain ⟨htok, _⟩ := leaf_tokens e h
  refine ⟨?_, ?_, ?_⟩
  · rw [htok, ← atom_yield]
    exact atom_readable _ hw
  · have := atom_text_length_pos _ hw
    rw [htok, ← htext]
    simpa using this
  · intro w r ts hsp hr hl
    rw [htok, ← htext]
    refine lexes_cons ?_ (atom_token_type _) hl
    rw [lexHead_spaces w _ hsp]
    exact lexHead_atom _ hw r hr

theorem scans_bin (l r : Exp) (op : BinaryOp) (hl : Scans l) (hr : Scans r) :
    Scans (.BinaryExp l r op) := by
  obtain ⟨hl1, hl2, hl3⟩ := hl
  obtain ⟨hr1, hr2, hr3⟩ := hr
  refine ⟨?_, ?_, ?_⟩
  · simp only [Exp.tokens]
    exact readable_append.2 ⟨hl1, readable_cons.2 ⟨⟨(op_readable _).1, (op_readable _).2⟩, hr1⟩⟩
  · simp only [Exp.tokens, Exp.print, List.length_append, List.length_cons, List.length_nil]
    omega
  · intro w rest ts hsp hrest hlex
    have htext : w ++ ((Exp.BinaryExp l r op).print ++ rest) =
        w ++ (l.print ++ ([' '] ++ (Exp.bin_op_to_char op :: ([' '] ++ (r.print ++ rest))))) := by
      simp [Exp.print]
    have htok : (Exp.BinaryExp l r op).tokens ++ ts =
        l.tokens ++ (punctuationToken (Exp.bin_op_to_char op) :: (r.tokens ++ ts)) := by
      simp [Exp.tokens]
    rw [htext, htok]
    refine hl3 w _ _ hsp (by simp) ?_
    refine lexes_cons ?_ (punctuationToken_type _).1
      (hr3 [' '] rest ts (by simp) hrest hlex)
    rw [lexHead_spaces [' '] _ (by simp)]
    exact lexHead_punctuation _ _ (isPunctuation_op op)

theorem scans_of_isTerm (e : Exp) (h : e.isTerm = true) : Scans e := by
  induction e with
  | NumberExp v => exact scans_leaf _ h
  | IdExp id => exact scans_leaf _ h
  | BinaryExp l r op ihl ihr =>
    simp only [Exp.isTerm, Bool.and_eq_true] at h
    exact scans_bin l r op (ihl h.1.2) (scans_leaf r h.2)

theorem scans_of_isExpression (e : Exp) (h : e.isExpression = true) : Scans e := by
  induction e with
  | NumberExp v => exact scans_leaf _ h
  | IdExp id => exact scans_leaf _ h
  | BinaryExp l r op ihl ihr =>
    simp only [Exp.isExpression, Bool.or_eq_true, Bool.and_eq_true] at h
    rcases h with h | h
    · exact scans_bin l r op (ihl h.1.2) (scans_of_isTerm r h.2)
    · exact scans_bin l r op (scans_of_isTerm l h.1.2) (scans_leaf r h.2)

/-- Rendering a tree of an expression written without parentheses and
parsing the text gives the tree back. -/
theorem parse_print (e : Exp) (h : e.isExpression = true) (fuel : Nat)
    (hf : 3 * e.tokens.length + 2 ≤ fuel) :
    ∃ q : Parser, Parser.parse_expression fuel (Parser.new (Scanner.new e.print)) = .ok e q ∧
      q.is_at_end = true := by
  obtain ⟨hr, _, hl⟩ := scans_of_isExpression e h
  obtain ⟨hast, hyield⟩ := expression_of_isExpression e h
  have hlex : Lexes e.print (e.expression.yield ++ [Token.ofType .END]) := by
    have := hl [] [] _ (by simp) (by simp) lexes_nil
    simpa [hyield] using this
  have := parse_expression_of_lexes e.print e.expression fuel hlex (by rw [hyield]; exact hr)
    (by rw [hyield]; exact hf)
  rwa [hast] at this

/-! ## Trees of texts without parentheses -/

/-- A `(` token of the scanner comes from a `(` of the text. -/
theorem lexHead_lp (cs : List Char) (h : (lexHead cs).1.type = .LP) : '(' ∈ cs := by
  unfold lexHead at h
  cases hd : cs.dropWhile (fun c => c == ' ') with
  | nil => simp [hd, Token.ofType] at h
  | cons c r =>
    have hmem : c ∈ cs := (List.dropWhile_sublist _).subset (by rw [hd]; simp)
    simp only [hd] at h
    by_cases h0 : (c == NUL) = true
    · simp [h0, Token.ofType] at h
    · rw [if_neg h0] at h
      by_cases h1 : c.isDigit = true
      · simp [h1] at h
      · rw [if_neg h1] at h
        by_cases h2 : c.isAlpha = true
        · rw [if_pos h2] at h
          split_ifs at h
        · rw [if_neg h2] at h
          by_cases h3 : isPunctuation c = true
          · rw [if_pos h3] at h
            have hc : c = '(' := by
              simp only [punctuationToken, Token.ofChar] at h
              split_ifs at h with a1 a2 a3 a4 a5
              exact a5
            rw [← hc]
            exact hmem
          · rw [if_neg h3] at h
            simp [Token.ofChar] at h

/-- The lexeme of an `ID` token of the scanner is a letter followed by
letters and digits, and is not `print`. -/
theorem lexHead_id (cs : List Char) (h : (lexHead cs).1.type = .ID) :
    (Atom.identifier (lexHead cs).1.lexema).wellFormed = true := by
  unfold lexHead at h ⊢
  cases hd : cs.dropWhile (fun c => c == ' ') with
  | nil => simp [hd, Token.ofType] at h
  | cons c r =>
    simp only [hd] at h ⊢
    by_cases h0 : (c == NUL) = true
    · simp [h0, Token.ofType] at h
    · rw [if_neg h0] at h ⊢
      by_cases h1 : c.isDigit = true
      · simp [h1] at h
      · rw [if_neg h1] at h ⊢
        by_cases h2 : c.isAlpha = true
        · rw [if_pos h2] at h ⊢
          by_cases h4 : ("print".toList == c :: r.takeWhile Char.isAlphanum) = true
          · rw [if_pos h4] at h
            cases h
          · rw [if_neg h4]
            simp only [Atom.wellFormed, Bool.and_eq_true, List.all_eq_true, bne_iff_ne, ne_eq]
            refine ⟨⟨h2, fun x hx => List.mem_takeWhile_imp hx⟩, ?_⟩
            intro heq
            exact h4 (by rw [heq]; simp)
        · rw [if_neg h2] at h
          by_cases h3 : isPunctuation c = true
          · rw [if_pos h3] at h
            simp only [punctuationToken, Token.ofChar] at h
            split_ifs at h
          · rw [if_neg h3] at h
            simp [Token.ofChar] at h

theorem next_token_not_lp (s : Scanner) (h : '(' ∉ s.input) : s.next_token.1.type ≠ .LP := by
  intro hlp
  rw [(next_token_eq_lexHead s).1] at hlp
  exact h (List.mem_of_mem_drop (lexHead_lp _ hlp))

theorem plain_new (text : List Char) (h : '(' ∉ text) : (Parser.new (Scanner.new text)).Plain :=
  ⟨by simpa [Parser.new, next_token_input] using h, Scanner.new text, h, rfl⟩

/-- The three ways a `match` can end on a text without `(`. -/
theorem plain_match_token (p : Parser) (hp : p.Plain) (k : TokenType) :
    p.match_token k = .ok false p ∨
      (∃ q, p.match_token k = .ok true q ∧ q.Plain ∧ q.previous = some p.current ∧
        p.current.type = k) ∨
      ∃ e, p.match_token k = .halt e := by
  have h2 := check_iff p k
  obtain ⟨h3, h4, h5⟩ := match_token_outcomes p k
  by_cases hc : p.check k = true
  · by_cases herr : p.scanner.next_token.1.type = .ERR
    · exact Or.inr (Or.inr ⟨_, h4 hc herr⟩)
    · refine Or.inr (Or.inl ⟨_, h3 hc herr, ⟨?_, p.scanner, hp.1, rfl⟩, rfl, (h2.1 hc).1⟩)
      simpa [next_token_input] using hp.1
  · exact Or.inl (h5 (by simpa using hc))

theorem plain_match_either (p : Parser) (hp : p.Plain) (a b : TokenType) :
    p.match_either a b = .ok false p ∨
      (∃ q, p.match_either a b = .ok true q ∧ q.Plain) ∨
      ∃ e, p.match_either a b = .halt e := by
  unfold Parser.match_either
  rcases plain_match_token p hp a with h | ⟨q, h, hq, _⟩ | ⟨e, h⟩
  · rw [h]
    simp only [PRes.bind, Bool.false_eq_true, if_false]
    rcases plain_match_token p hp b with h2 | ⟨q, h2, hq, _⟩ | ⟨e, h2⟩
    · exact Or.inl h2
    · exact Or.inr (Or.inl ⟨q, h2, hq⟩)
    · exact Or.inr (Or.inr ⟨e, h2⟩)
  · exact Or.inr (Or.inl ⟨q, by simp [h, PRes.bind], hq⟩)
  · exact Or.inr (Or.inr ⟨e, by simp [h, PRes.bind]⟩)

theorem builds_bind {P Q : Exp → Bool} {r : PRes Exp} {f : Exp → Parser → PRes Exp}
    (h : Builds P r) (hf : ∀ e q, P e = true → q.Plain → Builds Q (f e q)) :
    Builds Q (r.bind f) := by
  cases r with
  | ok a q => exact hf a q h.1 h.2
  | halt e => trivial
  | outOfFuel => trivial

theorem builds_match_either (p : Parser) (hp : p.Plain) (a b : TokenType) (Q : Exp → Bool)
    (f : Bool → Parser → PRes Exp) (hmiss : Builds Q (f false p))
    (hhit : ∀ q, q.Plain → Builds Q (f true q)) :
    Builds Q ((p.match_either a b).bind f) := by
  rcases plain_match_either p hp a b with h | ⟨q, h, hq⟩ | ⟨e, h⟩
  · rw [h]; exact hmiss
  · rw [h]; exact hhit q hq
  · rw [h]; trivial

theorem multiplicative_op_isMultiplicative (q : Parser) :
    q.multiplicative_op.isMultiplicative = true := by
  unfold Parser.multiplicative_op
  split <;> rfl

theorem additive_op_isAdditive (q : Parser) : q.additive_op.isAdditive = true := by
  unfold Parser.additive_op
  split <;> rfl

theorem stoi_range (lexema : List Char) (v : Int) (h : stoi lexema = some v) :
    0 ≤ v ∧ v ≤ INT_MAX := by
  unfold stoi at h
  simp only at h
  split_ifs at h with h1 h2
  simp only [Option.some.injEq] at h
  rw [← h]
  exact ⟨Int.ofNat_nonneg _, h2⟩

/-- On a text without `(`, the functions of the expression grammar return
trees of expressions written without parentheses. -/
theorem expression_plain (n : Nat) :
    (∀ p, p.Plain → Builds Exp.isFactor (Parser.parse_factor n p)) ∧
    (∀ left p, left.isTerm = true → p.Plain → Builds Exp.isTerm (Parser.term_loop n left p)) ∧
    (∀ p, p.Plain → Builds Exp.isTerm (Parser.parse_term n p)) ∧
    (∀ left p, left.isExpression = true → p.Plain →
      Builds Exp.isExpression (Parser.expression_loop n left p)) ∧
    (∀ p, p.Plain → Builds Exp.isExpression (Parser.parse_expression n p)) := by
  induction n with
  | zero =>
    refine ⟨fun p h => ?_, fun l p hl h => ?_, fun p h => ?_, fun l p hl h => ?_,
      fun p h => ?_⟩ <;> trivial
  | succ n ih =>
    obtain ⟨ihF, ihTL, ihT, ihEL, ihE⟩ := ih
    refine ⟨fun p hp => ?_, fun left p hl hp => ?_, fun p hp => ?_, fun left p hl hp => ?_,
      fun p hp => ?_⟩
    · unfold Parser.parse_factor
      rcases plain_match_token p hp .ID with h | ⟨q, h, hq, hprev, hty⟩ | ⟨e, h⟩
      · rw [h]
        simp only [PRes.bind, Bool.false_eq_true, if_false]
        rcases plain_match_token p hp .NUM with h | ⟨q, h, hq, hprev, hty⟩ | ⟨e, h⟩
        · rw [h]
          simp only [Bool.false_eq_true, if_false]
          rcases plain_match_token p hp .LP with h | ⟨q, h, hq, hprev, hty⟩ | ⟨e, h⟩
          · rw [h]; trivial
          · obtain ⟨_, s, hs, hcur⟩ := hp
            rw [hcur] at hty
            exact absurd hty (next_token_not_lp s hs)
          · rw [h]; trivial
        · rw [h]
          simp only [if_true]
          cases hst : stoi q.previous_lexema with
          | none => trivial
          | some v =>
            obtain ⟨h0, h1⟩ := stoi_range _ v hst
            exact ⟨by simp [Exp.isFactor, h0, h1], hq⟩
        · rw [h]; trivial
      · rw [h]
        simp only [PRes.bind, if_true]
        refine ⟨?_, hq⟩
        obtain ⟨_, s, hs, hcur⟩ := hp
        have hlex : q.previous_lexema = s.next_token.1.lexema := by
          simp [Parser.previous_lexema, hprev, hcur]
        rw [hcur, (next_token_eq_lexHead s).1] at hty
        simp only [Exp.isFactor, hlex, (next_token_eq_lexHead s).1]
        exact lexHead_id _ hty
      · rw [h]; trivial
    · unfold Parser.term_loop
      refine builds_match_either p hp .MUL .DIV _ _ ?_ (fun q hq => ?_)
      · simp only [Bool.false_eq_true, if_false]
        exact ⟨hl, hp⟩
      · simp only [if_true]
        refine builds_bind (ihF q hq) (fun e q2 he hq2 => ?_)
        refine ihTL _ q2 ?_ hq2
        simp [Exp.isTerm, multiplicative_op_isMultiplicative, hl, he]
    · unfold Parser.parse_term
      refine builds_bind (ihF p hp) (fun e q he hq => ?_)
      exact ihTL _ q (isFactor_isTerm e he) hq
    · unfold Parser.expression_loop
      refine builds_match_either p hp .PLUS .MINUS _ _ ?_ (fun q hq => ?_)
      · simp only [Bool.false_eq_true, if_false]
        exact ⟨hl, hp⟩
      · simp only [if_true]
        refine builds_bind (ihT q hq) (fun e q2 he hq2 => ?_)
        refine ihEL _ q2 ?_ hq2
        simp [Exp.isExpression, additive_op_isAdditive, hl, he]
    · unfold Parser.parse_expression
      refine builds_bind (ihT p hp) (fun e q he hq => ?_)
      exact ihEL _ q (isTerm_isExpression e he) hq

/-- C12, counterexample: the parser returns for `(1+2)*3` the tree
`BinaryExp(BinaryExp(1, 2, +), 3, *)`, which evaluates to 9; `print()` renders
it as `1 + 2 * 3`, without the parentheses; parsing that text returns
`BinaryExp(1, BinaryExp(2, 3, *), +)`, which evaluates to 7. -/
theorem render_parse_counterexample :
    (Parser.parse_expression 27 (Parser.new (Scanner.new "(1+2)*3".toList))).value =
        some (.BinaryExp (.BinaryExp (.NumberExp 1) (.NumberExp 2) .PLUS) (.NumberExp 3) .MUL) ∧
      (Exp.BinaryExp (.BinaryExp (.NumberExp 1) (.NumberExp 2) .PLUS) (.NumberExp 3) .MUL).print =
        "1 + 2 * 3".toList ∧
      (Parser.parse_expression 27 (Parser.new (Scanner.new "1 + 2 * 3".toList))).value =
        some (.BinaryExp (.NumberExp 1) (.BinaryExp (.NumberExp 2) (.NumberExp 3) .MUL) .PLUS) ∧
      (Exp.BinaryExp (.BinaryExp (.NumberExp 1) (.NumberExp 2) .PLUS) (.NumberExp 3) .MUL).eval
        World.start = .ok 9 World.start ∧
      (Exp.BinaryExp (.NumberExp 1) (.BinaryExp (.NumberExp 2) (.NumberExp 3) .MUL) .PLUS).eval
        World.start = .ok 7 World.start := by
  decide

/-- C12, amended. For every expression tree `e` that `parse_expression`
returns on a text without a left parenthesis, and for every tree it returns
that has the form of an expression written without parentheses (factors
joined by `*` and `/` nested to the left, these terms joined by `+` and `-`
nested to the left), `e` has that form, and parsing the text that `print()`
renders for `e` returns the tree `e` itself, with the whole text read: the
same expression, so the same value or the same error in every memory.  The
budget `run` gives for the rendered text is enough. -/
theorem render_parse_round_trip (text : List Char) (fuel : Nat) (e : Exp) (q : Parser)
    (h : Parser.parse_expression fuel (Parser.new (Scanner.new text)) = .ok e q)
    (hx : '(' ∉ text ∨ e.isExpression = true) :
    e.isExpression = true ∧ 3 * e.tokens.length + 2 ≤ fuelFor e.print ∧
      ∀ fuel2, 3 * e.tokens.length + 2 ≤ fuel2 →
        ∃ q2 : Parser,
          Parser.parse_expression fuel2 (Parser.new (Scanner.new e.print)) = .ok e q2 ∧
            q2.is_at_end = true := by
  have hform : e.isExpression = true := by
    rcases hx with hx | hx
    · have := (expression_plain fuel).2.2.2.2 _ (plain_new text hx)
      rw [h] at this
      exact this.1
    · exact hx
  refine ⟨hform, ?_, fun fuel2 hf => parse_print e hform fuel2 hf⟩
  have := (scans_of_isExpression e hform).2.1
  unfold fuelFor
  omega

/-- C12, amended, at the text `1+2*3-x`: the tree renders as
`1 + 2 * 3 - x`, and parsing that text returns the tree. -/
theorem render_parse_round_trip_witness :
    Parser.parse_expression 27 (Parser.new (Scanner.new "1+2*3-x".toList)) =
        .ok (.BinaryExp (.BinaryExp (.NumberExp 1)
            (.BinaryExp (.NumberExp 2) (.NumberExp 3) .MUL) .PLUS) (.IdExp ['x']) .MINUS)
          ⟨⟨"1+2*3-x".toList, 6, 7⟩, ⟨.END, []⟩, some ⟨.ID, ['x']⟩⟩ ∧
      '(' ∉ "1+2*3-x".toList ∧
      (Exp.BinaryExp (.BinaryExp (.NumberExp 1)
        (.BinaryExp (.NumberExp 2) (.NumberExp 3) .MUL) .PLUS) (.IdExp ['x']) .MINUS).print =
          "1 + 2 * 3 - x".toList ∧
      ∃ q2 : Parser,
        Parser.parse_expression 27 (Parser.new (Scanner.new
            (Exp.BinaryExp (.BinaryExp (.NumberExp 1)
              (.BinaryExp (.NumberExp 2) (.NumberExp 3) .MUL) .PLUS) (.IdExp ['x']) .MINUS).print)) =
          .ok (.BinaryExp (.BinaryExp (.NumberExp 1)
            (.BinaryExp (.NumberExp 2) (.NumberExp 3) .MUL) .PLUS) (.IdExp ['x']) .MINUS) q2 ∧
          q2.is_at_end = true :=
  ⟨by decide, by decide, by decide,
    (render_parse_round_trip "1+2*3-x".toList 27
      (.BinaryExp (.BinaryExp (.NumberExp 1)
        (.BinaryExp (.NumberExp 2) (.NumberExp 3) .MUL) .PLUS) (.IdExp ['x']) .MINUS)
      ⟨⟨"1+2*3-x".toList, 6, 7⟩, ⟨.END, []⟩, some ⟨.ID, ['x']⟩⟩
      (by decide) (Or.inl (by decide))).2.2 27 (by decide)⟩

/-! ## Lazy and eager tokenization -/

/-- The token list of a text is what the scanner hands out, call by call. -/
theorem feeds_tokens : ∀ (fuel : Nat) (s : Scanner), s.input.length - s.current < fuel →
    Feeds s (Scanner.tokens fuel s) := by
  intro fuel
  induction fuel with
  | zero => intro s h; omega
  | succ n ih =>
    intro s h
    unfold Scanner.tokens
    by_cases hend : s.next_token.1.type = .END
    · rw [if_pos hend]
      exact Feeds.last s hend
    · rw [if_neg hend]
      have hp := next_token_progress s hend
      exact Feeds.more s _ hend (ih _ (by omega))

theorem feeds_tokenize_text (text : List Char) : Feeds (Scanner.new text) (tokenize text) :=
  feeds_tokens _ _ (by simp [Scanner.new])

theorem sim_take {s : Scanner} {ts : List Token} (prev : Option Token) (h : Feeds s ts) :
    Sim ⟨s.next_token.2, s.next_token.1, prev⟩
      ⟨(EagerParser.take ts).2, (EagerParser.take ts).1, prev⟩ := by
  cases h with
  | last _ h => exact ⟨rfl, rfl, fun hne => absurd h hne⟩
  | more _ _ h rest => exact ⟨rfl, rfl, fun _ => rest⟩

theorem sim_new {s : Scanner} {ts : List Token} (h : Feeds s ts) :
    Sim (Parser.new s) (EagerParser.new ts) := sim_take none h

theorem rsim_bind {α β : Type} {r : PRes α} {r2 : ERes α} {f : α → Parser → PRes β}
    {g : α → EagerParser → ERes β} (h : RSim r r2)
    (hf : ∀ a p l, Sim p l → RSim (f a p) (g a l)) : RSim (r.bind f) (r2.bind g) := by
  cases r with
  | ok a p =>
    cases r2 with
    | ok b l =>
      obtain ⟨rfl, hs⟩ := h
      exact hf a p l hs
    | halt e => exact h.elim
    | outOfFuel => exact h.elim
  | halt e =>
    cases r2 with
    | ok b l => exact h.elim
    | halt e2 => exact h
    | outOfFuel => exact h.elim
  | outOfFuel =>
    cases r2 with
    | ok b l => exact h.elim
    | halt e2 => exact h.elim
    | outOfFuel => exact h

theorem rsim_outcome {α : Type} {r : PRes α} {r2 : ERes α} (h : RSim r r2) :
    r2.outcome = r.outcome := by
  cases r with
  | ok a p =>
    cases r2 with
    | ok b l => simp [PRes.outcome, ERes.outcome, h.1]
    | halt e => exact h.elim
    | outOfFuel => exact h.elim
  | halt e =>
    cases r2 with
    | ok b l => exact h.elim
    | halt e2 =>
      have : e = e2 := h
      simp [PRes.outcome, ERes.outcome, this]
    | outOfFuel => exact h.elim
  | outOfFuel =>
    cases r2 with
    | ok b l => exact h.elim
    | halt e2 => exact h.elim
    | outOfFuel => rfl

/-- What the eager `match` returns, by cases on the current token and on the
next token of the list. -/
theorem eager_match_token_cases (l : EagerParser) (k : TokenType) :
    (l.check k = true → (EagerParser.take l.tokens).1.type ≠ .ERR →
        l.match_token k =
          .ok true ⟨(EagerParser.take l.tokens).2, (EagerParser.take l.tokens).1,
            some l.current⟩) ∧
      (l.check k = true → (EagerParser.take l.tokens).1.type = .ERR →
        l.match_token k = .halt (.unrecognizedChar (EagerParser.take l.tokens).1.lexema)) ∧
      (l.check k = false → l.match_token k = .ok false l) := by
  refine ⟨?_, ?_, ?_⟩
  · intro hc hn
    have he : l.current.type ≠ .END := by
      intro he
      simp [EagerParser.check, EagerParser.is_at_end, he] at hc
    have hk : l.current.type = k := by
      simpa [EagerParser.check, EagerParser.is_at_end, he] using hc
    have hk2 : k ≠ .END := hk ▸ he
    simp [EagerParser.match_token, EagerParser.check, EagerParser.is_at_end,
      EagerParser.advance, ERes.bind, hn, hk, hk2]
  · intro hc hn
    have he : l.current.type ≠ .END := by
      intro he
      simp [EagerParser.check, EagerParser.is_at_end, he] at hc
    have hk : l.current.type = k := by
      simpa [EagerParser.check, EagerParser.is_at_end, he] using hc
    have hk2 : k ≠ .END := hk ▸ he
    simp [EagerParser.match_token, EagerParser.check, EagerParser.is_at_end,
      EagerParser.advance, ERes.bind, hn, hk, hk2]
  · intro hc
    simp [EagerParser.match_token, hc]

theorem sim_match_token {p : Parser} {l : EagerParser} (h : Sim p l) (k : TokenType) :
    RSim (p.match_token k) (l.match_token k) := by
  obtain ⟨hc, hp, hf⟩ := h
  have hcheck : l.check k = p.check k := by
    simp [Parser.check, EagerParser.check, Parser.is_at_end, EagerParser.is_at_end, hc]
  have h2 := check_iff p k
  obtain ⟨h3, h4, h5⟩ := match_token_outcomes p k
  obtain ⟨e3, e4, e5⟩ := eager_match_token_cases l k
  by_cases hk : p.check k = true
  · have hne : p.current.type ≠ .END := by
      rw [(h2.1 hk).1]
      exact (h2.1 hk).2
    have hs := sim_take (some p.current) (hf hne)
    have h1 : p.scanner.next_token.1 = (EagerParser.take l.tokens).1 := hs.1
    by_cases herr : p.scanner.next_token.1.type = .ERR
    · rw [h4 hk herr, e4 (hcheck ▸ hk) (h1 ▸ herr), ← h1]
      rfl
    · rw [h3 hk herr, e3 (hcheck ▸ hk) (h1 ▸ herr), ← hc]
      exact ⟨rfl, hs⟩
  · have hk2 : p.check k = false := by simpa using hk
    rw [h5 hk2, e5 (hcheck ▸ hk2)]
    exact ⟨rfl, hc, hp, hf⟩

theorem sim_match_either {p : Parser} {l : EagerParser} (h : Sim p l) (a b : TokenType) :
    RSim (p.match_either a b) (l.match_either a b) := by
  unfold Parser.match_either EagerParser.match_either
  refine rsim_bind (sim_match_token h a) (fun r q m hs => ?_)
  cases r with
  | true => exact ⟨rfl, hs⟩
  | false => exact sim_match_token hs b

theorem sim_previous {p : Parser} {l : EagerParser} (h : Sim p l) :
    l.previous_lexema = p.previous_lexema ∧ l.additive_op = p.additive_op ∧
      l.multiplicative_op = p.multiplicative_op := by
  simp [Parser.previous_lexema, EagerParser.previous_lexema, Parser.additive_op,
    EagerParser.additive_op, Parser.multiplicative_op, EagerParser.multiplicative_op, h.2.1]

/-- The functions of the expression grammar do the same over the scanner and
over the token list. -/
theorem sim_expression (n : Nat) :
    (∀ p l, Sim p l → RSim (Parser.parse_factor n p) (EagerParser.parse_factor n l)) ∧
    (∀ left p l, Sim p l →
      RSim (Parser.term_loop n left p) (EagerParser.term_loop n left l)) ∧
    (∀ p l, Sim p l → RSim (Parser.parse_term n p) (EagerParser.parse_term n l)) ∧
    (∀ left p l, Sim p l →
      RSim (Parser.expression_loop n left p) (EagerParser.expression_loop n left l)) ∧
    (∀ p l, Sim p l → RSim (Parser.parse_expression n p) (EagerParser.parse_expression n l)) := by
  induction n with
  | zero =>
    refine ⟨fun p l h => ?_, fun left p l h => ?_, fun p l h => ?_, fun left p l h => ?_,
      fun p l h => ?_⟩ <;> trivial
  | succ n ih =>
    obtain ⟨ihF, ihTL, ihT, ihEL, ihE⟩ := ih
    refine ⟨fun p l h => ?_, fun left p l h => ?_, fun p l h => ?_, fun left p l h => ?_,
      fun p l h => ?_⟩
    · unfold Parser.parse_factor EagerParser.parse_factor
      refine rsim_bind (sim_match_token h .ID) (fun r1 q1 l1 h1 => ?_)
      cases r1 with
      | true => exact ⟨by simp [(sim_previous h1).1], h1⟩
      | false =>
        simp only [Bool.false_eq_true, if_false]
        refine rsim_bind (sim_match_token h1 .NUM) (fun r2 q2 l2 h2 => ?_)
        cases r2 with
        | true =>
          simp only [if_true, (sim_previous h2).1]
          cases stoi q2.previous_lexema with
          | none => exact rfl
          | some v => exact ⟨rfl, h2⟩
        | false =>
          simp only [Bool.false_eq_true, if_false]
          refine rsim_bind (sim_match_token h2 .LP) (fun r3 q3 l3 h3 => ?_)
          cases r3 with
          | true =>
            simp only [if_true]
            refine rsim_bind (ihE q3 l3 h3) (fun e q4 l4 h4 => ?_)
            refine rsim_bind (sim_match_token h4 .RP) (fun r4 q5 l5 h5 => ?_)
            cases r4 with
            | true => exact ⟨rfl, h5⟩
            | false => exact rfl
          | false => exact rfl
    · unfold Parser.term_loop EagerParser.term_loop
      refine rsim_bind (sim_match_either h .MUL .DIV) (fun r q m hs => ?_)
      cases r with
      | true =>
        simp only [if_true, (sim_previous hs).2.2]
        refine rsim_bind (ihF q m hs) (fun e q2 m2 hs2 => ?_)
        exact ihTL _ q2 m2 hs2
      | false => exact ⟨rfl, hs⟩
    · unfold Parser.parse_term EagerParser.parse_term
      exact rsim_bind (ihF p l h) (fun e q m hs => ihTL _ q m hs)
    · unfold Parser.expression_loop EagerParser.expression_loop
      refine rsim_bind (sim_match_either h .PLUS .MINUS) (fun r q m hs => ?_)
      cases r with
      | true =>
        simp only [if_true, (sim_previous hs).2.1]
        refine rsim_bind (ihT q m hs) (fun e q2 m2 hs2 => ?_)
        exact ihEL _ q2 m2 hs2
      | false => exact ⟨rfl, hs⟩
    · unfold Parser.parse_expression EagerParser.parse_expression
      exact rsim_bind (ihT p l h) (fun e q m hs => ihEL _ q m hs)

theorem sim_stmt (fuel : Nat) (p : Parser) (l : EagerParser) (h : Sim p l) :
    RSim (Parser.parse_stmt fuel p) (EagerParser.parse_stmt fuel l) := by
  unfold Parser.parse_stmt EagerParser.parse_stmt
  refine rsim_bind (sim_match_token h .ID) (fun r1 q1 l1 h1 => ?_)
  cases r1 with
  | true =>
    simp only [if_true, (sim_previous h1).1]
    refine rsim_bind (sim_match_token h1 .ASSIGN) (fun r2 q2 l2 h2 => ?_)
    cases r2 with
    | true =>
      simp only [if_true]
      refine rsim_bind ((sim_expression fuel).2.2.2.2 q2 l2 h2) (fun e q3 l3 h3 => ?_)
      exact ⟨rfl, h3⟩
    | false => exact rfl
  | false =>
    simp only [Bool.false_eq_true, if_false]
    refine rsim_bind (sim_match_token h1 .PRINT) (fun r2 q2 l2 h2 => ?_)
    cases r2 with
    | true =>
      simp only [if_true]
      refine rsim_bind (sim_match_token h2 .LP) (fun r3 q3 l3 h3 => ?_)
      cases r3 with
      | true =>
        simp only [if_true]
        refine rsim_bind ((sim_expression fuel).2.2.2.2 q3 l3 h3) (fun e q4 l4 h4 => ?_)
        refine rsim_bind (sim_match_token h4 .RP) (fun r4 q5 l5 h5 => ?_)
        cases r4 with
        | true => exact ⟨rfl, h5⟩
        | false => exact rfl
      | false => exact rfl
    | false => exact rfl

theorem sim_program_loop : ∀ (fuel : Nat) (prog : Program) (p : Parser) (l : EagerParser),
    Sim p l → RSim (Parser.program_loop fuel prog p) (EagerParser.program_loop fuel prog l) := by
  intro fuel
  induction fuel with
  | zero => intro prog p l h; trivial
  | succ n ih =>
    intro prog p l h
    unfold Parser.program_loop EagerParser.program_loop
    refine rsim_bind (sim_match_token h .SC) (fun r q m hs => ?_)
    cases r with
    | true =>
      simp only [if_true]
      exact rsim_bind (sim_stmt n q m hs) (fun s q2 m2 hs2 => ih _ q2 m2 hs2)
    | false => exact ⟨rfl, hs⟩

theorem sim_parse (text : List Char) : RSim (parse text) (eager_parse text) := by
  unfold parse eager_parse Parser.parse_program EagerParser.parse_program
  refine rsim_bind (sim_stmt _ _ _ (sim_new (feeds_tokenize_text text))) (fun s q m hs => ?_)
  exact sim_program_loop _ _ q m hs

/-- C17. Lazy and eager tokenization are observably equivalent: for every
text, parsing over the list of tokens made by tokenizing the whole text up to
`END` ends as parsing with the tokens pulled one at a time from the scanner
does: with the same program, or with the same error; neither runs out of
budget; and the runs that follow write the same output, leave the same memory
and end the same way.  The token list is what the scanner hands out call by
call. -/
theorem lazy_eager_equivalent (text : List Char) :
    (eager_parse text).outcome = (parse text).outcome ∧
      (eager_parse text).outcome ≠ .outOfFuel ∧
      eager_run text = run text ∧
      Feeds (Scanner.new text) (tokenize text) := by
  have hs := sim_parse text
  have ho := rsim_outcome hs
  have hne := parse_ne_outOfFuel text
  refine ⟨ho, ?_, ?_, feeds_tokenize_text text⟩
  · rw [ho]
    intro h
    cases hp : parse text with
    | ok a q => rw [hp] at h; cases h
    | halt e => rw [hp] at h; cases h
    | outOfFuel => exact hne hp
  · unfold eager_run run
    cases hp : parse text with
    | ok a q =>
      cases he : eager_parse text with
      | ok b m =>
        rw [hp, he] at hs
        simp [hs.1]
      | halt e => rw [hp, he] at hs; exact hs.elim
      | outOfFuel => rw [hp, he] at hs; exact hs.elim
    | halt e =>
      cases he : eager_parse text with
      | ok b m => rw [hp, he] at hs; exact hs.elim
      | halt e2 =>
        rw [hp, he] at hs
        have : e = e2 := hs
        simp [this]
      | outOfFuel => rw [hp, he] at hs; exact hs.elim
    | outOfFuel => exact absurd hp hne

/-- The eager parser at work: on `x=1;print(x+@` it ends at the unrecognized
character as the lazy one does, and on `x 5 @` both end at the missing `=`,
before the character. -/
theorem eager_parse_examples :
    eager_parse "x=1;print(x+@".toList = .halt (.unrecognizedChar ['@']) ∧
      (parse "x=1;print(x+@".toList).outcome = .error (.unrecognizedChar ['@']) ∧
      eager_parse "x 5 @".toList = .halt .assignExpected ∧
      (eager_parse "x=5;print(x*x)".toList).outcome =
        .value ⟨[.AssignStm ['x'] (.NumberExp 5),
          .PrintStm (.BinaryExp (.IdExp ['x']) (.IdExp ['x']) .MUL)]⟩ ∧
      eager_run "x=5;print(x*x)".toList = .ok () ⟨[(['x'], 5)], ["25"]⟩ := by
  decide

/-! ## Left associativity, for any factors -/

theorem feeds_unique {s : Scanner} {a : List Token} (ha : Feeds s a) :
    ∀ {b : List Token}, Feeds s b → a = b := by
  induction ha with
  | last s h =>
    intro b hb
    cases hb with
    | last _ _ => rfl
    | more _ _ h2 _ => exact absurd h h2
  | more s ts h _ ih =>
    intro b hb
    cases hb with
    | last _ h2 => exact absurd h2 h
    | more _ ts2 _ rest2 => rw [ih rest2]

/-- The token list of a text that the scanner reads as `ts`. -/
theorem tokenize_of_lexes {text : List Char} {ts : List Token} (h : Lexes text ts) :
    tokenize text = ts :=
  feeds_unique (feeds_tokenize_text text) (feeds_of_lexes h)

theorem addOp_char_token (op : AddOp) :
    punctuationToken (Exp.bin_op_to_char op.op) = op.token := by
  cases op <;> rfl

theorem mulOp_char_token (op : MulOp) :
    punctuationToken (Exp.bin_op_to_char op.op) = op.token := by
  cases op <;> rfl

theorem spells_nil : Spells [] [] :=
  ⟨readable_nil, fun _ _ _ h => by simpa using h⟩

theorem spells_atom (a : Atom) (hw : a.wellFormed = true) : Spells a.text [a.token] := by
  refine ⟨?_, fun r ts hr h => ?_⟩
  · rw [← atom_yield]
    exact atom_readable a hw
  · exact lexes_cons (lexHead_atom a hw r hr) (atom_token_type a) h

theorem spells_punctuation (c : Char) (hc : isPunctuation c = true) :
    Spells [c] [punctuationToken c] :=
  ⟨readable_cons.2 ⟨op_readable c, readable_nil⟩, fun r _ _ h =>
    lexes_cons (lexHead_punctuation c r hc) (punctuationToken_type c).1 h⟩

/-- One of the characters `+ - * / ( ) ; =` in front of a text. -/
theorem spells_cons (c : Char) (hc : isPunctuation c = true) {b : List Char}
    {tb : List Token} (hb : Spells b tb) : Spells (c :: b) (punctuationToken c :: tb) :=
  ⟨readable_cons.2 ⟨op_readable c, hb.1⟩, fun r ts hr h =>
    lexes_cons (lexHead_punctuation c (b ++ r) hc) (punctuationToken_type c).1 (hb.2 r ts hr h)⟩

/-- Two texts one after the other, when the second one does not start with a
letter or a digit. -/
theorem spells_append {a b : List Char} {ta tb : List Token} (ha : Spells a ta)
    (hb : Spells b tb)
    (hhead : ∀ r : List Char, (∀ c ∈ r.head?, c.isAlphanum = false) →
      ∀ c ∈ (b ++ r).head?, c.isAlphanum = false) :
    Spells (a ++ b) (ta ++ tb) := by
  refine ⟨readable_append.2 ⟨ha.1, hb.1⟩, fun r ts hr h => ?_⟩
  rw [List.append_assoc, List.append_assoc]
  exact ha.2 _ _ (hhead r hr) (hb.2 r ts hr h)

theorem head_punctuation (c : Char) (b : List Char) (hc : c.isAlphanum = false) :
    ∀ r : List Char, (∀ c ∈ r.head?, c.isAlphanum = false) →
      ∀ d ∈ ((c :: b) ++ r).head?, d.isAlphanum = false := by
  intro r _ d hd
  simp only [List.cons_append, List.head?_cons, Option.mem_def, Option.some.injEq] at hd
  rw [← hd]
  exact hc

theorem head_termTail (tt : CTermTail) :
    ∀ r : List Char, (∀ c ∈ r.head?, c.isAlphanum = false) →
      ∀ d ∈ (tt.text ++ r).head?, d.isAlphanum = false := by
  cases tt with
  | nil => intro r hr; simpa [CTermTail.text] using hr
  | cons op f rest =>
    simp only [CTermTail.text]
    exact head_punctuation _ _ (op_not_isAlphanum _)

theorem head_expTail (et : CExpTail) :
    ∀ r : List Char, (∀ c ∈ r.head?, c.isAlphanum = false) →
      ∀ d ∈ (et.text ++ r).head?, d.isAlphanum = false := by
  cases et with
  | nil => intro r hr; simpa [CExpTail.text] using hr
  | cons op t rest =>
    simp only [CExpTail.text]
    exact head_punctuation _ _ (op_not_isAlphanum _)

mutual

/-- The scanner reads the text of a well-formed derivation as the tokens the
derivation derives. -/
theorem factor_spells : ∀ (f : CFactor), f.wellFormed = true → Spells f.text f.yield
  | .id lexema, h => spells_atom (.identifier lexema) h
  | .num lexema, h => spells_atom (.number lexema) h
  | .paren e, h => by
    have he := exp_spells e h
    have h1 := spells_cons '(' (by decide)
      (spells_append he (spells_punctuation ')' (by decide))
        (head_punctuation ')' [] (by decide)))
    simpa [CFactor.text, CFactor.yield, Token.ofChar, punctuationToken] using h1

theorem termTail_spells : ∀ (tt : CTermTail), tt.wellFormed = true → Spells tt.text tt.yield
  | .nil, _ => spells_nil
  | .cons op f rest, h => by
    simp only [CTermTail.wellFormed, Bool.and_eq_true] at h
    have h1 := spells_cons (Exp.bin_op_to_char op.op) (isPunctuation_op _)
      (spells_append (factor_spells f h.1) (termTail_spells rest h.2) (head_termTail rest))
    simpa [CTermTail.text, CTermTail.yield, mulOp_char_token] using h1

theorem term_spells : ∀ (t : CTerm), t.wellFormed = true → Spells t.text t.yield
  | .mk f tt, h => by
    simp only [CTerm.wellFormed, Bool.and_eq_true] at h
    exact spells_append (factor_spells f h.1) (termTail_spells tt h.2) (head_termTail tt)

theorem expTail_spells : ∀ (et : CExpTail), et.wellFormed = true → Spells et.text et.yield
  | .nil, _ => spells_nil
  | .cons op t rest, h => by
    simp only [CExpTail.wellFormed, Bool.and_eq_true] at h
    have h1 := spells_cons (Exp.bin_op_to_char op.op) (isPunctuation_op _)
      (spells_append (term_spells t h.1) (expTail_spells rest h.2) (head_expTail rest))
    simpa [CExpTail.text, CExpTail.yield, addOp_char_token] using h1

theorem exp_spells : ∀ (e : CExp), e.wellFormed = true → Spells e.text e.yield
  | .mk t et, h => by
    simp only [CExp.wellFormed, Bool.and_eq_true] at h
    exact spells_append (term_spells t h.1) (expTail_spells et h.2) (head_expTail et)

end

theorem factorChain_spells (rest : List (BinaryOp × CFactor))
    (hw : ∀ x ∈ rest, x.2.wellFormed = true) :
    Spells (factorChainText rest) (factorChainTokens rest) := by
  induction rest with
  | nil => exact spells_nil
  | cons x rest ih =>
    obtain ⟨op, f⟩ := x
    have hrest := ih (fun y hy => hw y (List.mem_cons_of_mem _ hy))
    refine spells_cons _ (isPunctuation_op op)
      (spells_append (factor_spells f (hw (op, f) (by simp))) hrest ?_)
    cases rest with
    | nil => intro r hr; simpa [factorChainText] using hr
    | cons y rest =>
      obtain ⟨op2, g⟩ := y
      simp only [factorChainText]
      exact head_punctuation _ _ (op_not_isAlphanum _)

theorem factorChain_head (rest : List (BinaryOp × CFactor)) :
    ∀ r : List Char, (∀ c ∈ r.head?, c.isAlphanum = false) →
      ∀ d ∈ (factorChainText rest ++ r).head?, d.isAlphanum = false := by
  cases rest with
  | nil => intro r hr; simpa [factorChainText] using hr
  | cons y rest =>
    obtain ⟨op2, g⟩ := y
    simp only [factorChainText]
    exact head_punctuation _ _ (op_not_isAlphanum _)

theorem factorChain_type (rest : List (BinaryOp × CFactor)) :
    ∀ t ∈ factorChainTokens rest, t.type ≠ .ERR := by
  induction rest with
  | nil => intro t ht; simp [factorChainTokens] at ht
  | cons x rest ih =>
    obtain ⟨op, f⟩ := x
    intro t ht
    simp only [factorChainTokens, List.mem_cons, List.mem_append] at ht
    rcases ht with ht | ht | ht
    · rw [ht]; exact (punctuationToken_type _).2.1
    · exact (factor_yield_type f t ht).1
    · exact ih t ht

theorem additiveFactors_yield (rest : List (BinaryOp × CFactor))
    (h : ∀ x ∈ rest, x.1.isAdditive = true) :
    (additiveFactors rest).yield = factorChainTokens rest := by
  induction rest with
  | nil => rfl
  | cons x rest ih =>
    obtain ⟨op, f⟩ := x
    have := (punctuationToken_additive op (h (op, f) (by simp))).1
    simp [additiveFactors, factorChainTokens, CExpTail.yield, CTerm.yield, CTermTail.yield,
      this, ih (fun y hy => h y (List.mem_cons_of_mem _ hy))]

theorem additiveFactors_ast (rest : List (BinaryOp × CFactor))
    (h : ∀ x ∈ rest, x.1.isAdditive = true) (left : Exp) :
    (additiveFactors rest).ast left = leftNestedFactors left rest := by
  induction rest generalizing left with
  | nil => rfl
  | cons x rest ih =>
    obtain ⟨op, f⟩ := x
    have := (punctuationToken_additive op (h (op, f) (by simp))).2
    simp [additiveFactors, leftNestedFactors, CExpTail.ast, CTerm.ast, CTermTail.ast, this,
      ih (fun y hy => h y (List.mem_cons_of_mem _ hy))]

theorem multiplicativeFactors_yield (rest : List (BinaryOp × CFactor))
    (h : ∀ x ∈ rest, x.1.isMultiplicative = true) :
    (multiplicativeFactors rest).yield = factorChainTokens rest := by
  induction rest with
  | nil => rfl
  | cons x rest ih =>
    obtain ⟨op, f⟩ := x
    have := (punctuationToken_multiplicative op (h (op, f) (by simp))).1
    simp [multiplicativeFactors, factorChainTokens, CTermTail.yield,
      this, ih (fun y hy => h y (List.mem_cons_of_mem _ hy))]

theorem multiplicativeFactors_ast (rest : List (BinaryOp × CFactor))
    (h : ∀ x ∈ rest, x.1.isMultiplicative = true) (left : Exp) :
    (multiplicativeFactors rest).ast left = leftNestedFactors left rest := by
  induction rest generalizing left with
  | nil => rfl
  | cons x rest ih =>
    obtain ⟨op, f⟩ := x
    have := (punctuationToken_multiplicative op (h (op, f) (by simp))).2
    simp [multiplicativeFactors, leftNestedFactors, CTermTail.ast, this,
      ih (fun y hy => h y (List.mem_cons_of_mem _ hy))]

/-- A chain of factors joined by operators of one precedence level is an
expression whose tree is the left-nested one. -/
theorem chain_derivation (f0 : CFactor) (rest : List (BinaryOp × CFactor))
    (hlevel : (∀ x ∈ rest, x.1.isAdditive = true) ∨
      (∀ x ∈ rest, x.1.isMultiplicative = true)) :
    ∃ e : CExp, e.yield = f0.yield ++ factorChainTokens rest ∧
      e.ast = leftNestedFactors f0.ast rest := by
  rcases hlevel with h | h
  · exact ⟨.mk (.mk f0 .nil) (additiveFactors rest),
      by simp [CExp.yield, CTerm.yield, CTermTail.yield, additiveFactors_yield rest h],
      by simp [CExp.ast, CTerm.ast, CTermTail.ast, additiveFactors_ast rest h]⟩
  · exact ⟨.mk (.mk f0 (multiplicativeFactors rest)) .nil,
      by simp [CExp.yield, CTerm.yield, CExpTail.yield, multiplicativeFactors_yield rest h],
      by simp [CExp.ast, CTerm.ast, CExpTail.ast, multiplicativeFactors_ast rest h]⟩

/-- The parser on a text whose tokens are those of a chain of factors. -/
theorem parse_chain (text : List Char) (f0 : CFactor) (rest : List (BinaryOp × CFactor))
    (hlevel : (∀ x ∈ rest, x.1.isAdditive = true) ∨
      (∀ x ∈ rest, x.1.isMultiplicative = true))
    (ht : tokenize text = f0.yield ++ factorChainTokens rest ++ [Token.ofType .END])
    (hnum : ∀ t ∈ f0.yield ++ factorChainTokens rest, t.type = .NUM →
      (digitsValue t.lexema : Int) ≤ INT_MAX)
    (fuel : Nat) (hf : fuelFor text ≤ fuel) :
    ∃ q : Parser, Parser.parse_expression fuel (Parser.new (Scanner.new text)) =
        .ok (leftNestedFactors f0.ast rest) q ∧ q.is_at_end = true := by
  obtain ⟨e, hy, ha⟩ := chain_derivation f0 rest hlevel
  have hfeeds := feeds_tokenize ht
  have hlen := tokenize_length_le ht
  have hread : Readable e.yield := by
    rw [hy]
    intro t hmem
    refine ⟨?_, fun hty => stoi_of_feeds hfeeds t (List.mem_append_left _ hmem) hty
      (hnum t hmem hty)⟩
    rcases List.mem_append.1 hmem with h | h
    · exact (factor_yield_type f0 t h).1
    · exact factorChain_type rest t h
  rw [← hy] at hfeeds hlen
  obtain ⟨q, hq, hs⟩ := (exp_lands e fuel _ (Token.ofType .END) [] (sees_new hfeeds)
    hread (by simp [Token.ofType]) (by simp [Token.ofType]) (by simp [Token.ofType])
    (by simp [Token.ofType]) (by unfold fuelFor at hf; omega)).ok (by simp [Token.ofType])
  rw [ha] at hq
  exact ⟨q, hq, by simp [Parser.is_at_end, hs.1, Token.ofType]⟩

/-- C2, counterexample: the text `1-2147483648-2` is `f0 - f1 - f2` with
number literals for the factors; the scanner hands out the `NUM` token of
`2147483648`, `std::stoi` throws on it in `parse_factor`, and the parser
builds no tree: the run is killed by the uncaught exception. -/
theorem left_assoc_counterexample :
    tokenize "1-2147483648-2".toList =
        [⟨.NUM, ['1']⟩, ⟨.MINUS, ['-']⟩, ⟨.NUM, "2147483648".toList⟩, ⟨.MINUS, ['-']⟩,
          ⟨.NUM, ['2']⟩, ⟨.END, []⟩] ∧
      stoi "2147483648".toList = none ∧
      Parser.parse_expression (fuelFor "1-2147483648-2".toList)
        (Parser.new (Scanner.new "1-2147483648-2".toList)) = .halt .stoiFailed ∧
      Err.stoiFailed.exitCode = none := by
  decide

/-- C2, amended. Left associativity: for factors `f0 ... fn` of any form
(identifiers, number literals, parenthesised expressions) and operators
`op1 ... opn` of one precedence level (all among `+ -`, or all among `* /`):
when every identifier in the factors is a letter followed by letters and
digits other than `print` and every number literal in them is a run of digits
of value at most 2147483647, the text `f0 op1 f1 ... opn fn` written without
spaces has the tokens of the factors and operators, and `parse_expression`
builds from it, with the budget of `run` and with any larger one, the
left-nested tree
`BinaryExp(...BinaryExp(BinaryExp(f0, f1, op1), f2, op2)..., fn, opn)`,
reading the whole text; the same holds for every text, however spaced, whose
tokens are those of `f0 op1 f1 ... opn fn` with number literals of value at
most 2147483647; and the tree built from `10-3-2` evaluates to 5. -/
theorem parse_expression_left_assoc (f0 : CFactor) (rest : List (BinaryOp × CFactor))
    (hlevel : (∀ x ∈ rest, x.1.isAdditive = true) ∨
      (∀ x ∈ rest, x.1.isMultiplicative = true)) :
    (f0.wellFormed = true → (∀ x ∈ rest, x.2.wellFormed = true) →
      tokenize (f0.text ++ factorChainText rest) =
          f0.yield ++ factorChainTokens rest ++ [Token.ofType .END] ∧
        ∀ fuel, fuelFor (f0.text ++ factorChainText rest) ≤ fuel →
          ∃ q : Parser, Parser.parse_expression fuel
              (Parser.new (Scanner.new (f0.text ++ factorChainText rest))) =
            .ok (leftNestedFactors f0.ast rest) q ∧ q.is_at_end = true) ∧
    (∀ text : List Char,
      tokenize text = f0.yield ++ factorChainTokens rest ++ [Token.ofType .END] →
      (∀ t ∈ f0.yield ++ factorChainTokens rest, t.type = .NUM →
        (digitsValue t.lexema : Int) ≤ INT_MAX) →
      ∀ fuel, fuelFor text ≤ fuel →
        ∃ q : Parser, Parser.parse_expression fuel (Parser.new (Scanner.new text)) =
          .ok (leftNestedFactors f0.ast rest) q ∧ q.is_at_end = true) ∧
    (∃ (e : Exp) (q : Parser),
      Parser.parse_expression (fuelFor "10-3-2".toList)
          (Parser.new (Scanner.new "10-3-2".toList)) = .ok e q ∧
        e.eval World.start = .ok 5 World.start) := by
  refine ⟨fun h0 hw => ?_, fun text ht hnum fuel hf => parse_chain text f0 rest hlevel ht hnum
    fuel hf, ?_⟩
  · have hsp := spells_append (factor_spells f0 h0) (factorChain_spells rest hw)
      (factorChain_head rest)
    have hlex := hsp.2 [] [Token.ofType .END] (by simp) lexes_nil
    rw [List.append_nil] at hlex
    have ht := tokenize_of_lexes hlex
    refine ⟨ht, fun fuel hf => parse_chain _ f0 rest hlevel ht (fun t hmem hty => ?_) fuel hf⟩
    exact (stoi_range _ _ ((hsp.1 t hmem).2 hty)).2
  · exact ⟨.BinaryExp (.BinaryExp (.NumberExp 10) (.NumberExp 3) .MINUS) (.NumberExp 2) .MINUS,
      _, by rfl, by decide⟩

/-- C2, amended, at the text `(1+2)-3-(4*5)`: the factors are `(1+2)`, `3`
and `(4*5)`, and the tree is `BinaryExp(BinaryExp((1+2), 3, -), (4*5), -)`. -/
theorem parse_expression_left_assoc_witness :
    CFactor.text (.paren (.mk (.mk (.num ['1']) .nil) (.cons .plus (.mk (.num ['2']) .nil) .nil)))
        ++ factorChainText [(.MINUS, .num ['3']),
          (.MINUS, .paren (.mk (.mk (.num ['4']) (.cons .times (.num ['5']) .nil)) .nil))] =
        "(1+2)-3-(4*5)".toList ∧
      leftNestedFactors
          (CFactor.ast (.paren (.mk (.mk (.num ['1']) .nil)
            (.cons .plus (.mk (.num ['2']) .nil) .nil))))
          [(.MINUS, .num ['3']),
            (.MINUS, .paren (.mk (.mk (.num ['4']) (.cons .times (.num ['5']) .nil)) .nil))] =
        .BinaryExp (.BinaryExp (.BinaryExp (.NumberExp 1) (.NumberExp 2) .PLUS) (.NumberExp 3)
          .MINUS) (.BinaryExp (.NumberExp 4) (.NumberExp 5) .MUL) .MINUS ∧
      ∃ q : Parser, Parser.parse_expression 45 (Parser.new (Scanner.new
          (CFactor.text (.paren (.mk (.mk (.num ['1']) .nil)
              (.cons .plus (.mk (.num ['2']) .nil) .nil)))
            ++ factorChainText [(.MINUS, .num ['3']),
              (.MINUS, .paren (.mk (.mk (.num ['4']) (.cons .times (.num ['5']) .nil)) .nil))]))) =
          .ok (leftNestedFactors
            (CFactor.ast (.paren (.mk (.mk (.num ['1']) .nil)
              (.cons .plus (.mk (.num ['2']) .nil) .nil))))
            [(.MINUS, .num ['3']),
              (.MINUS, .paren (.mk (.mk (.num ['4']) (.cons .times (.num ['5']) .nil)) .nil))])
            q ∧
        q.is_at_end = true :=
  ⟨by decide, by decide,
    ((parse_expression_left_assoc
      (.paren (.mk (.mk (.num ['1']) .nil) (.cons .plus (.mk (.num ['2']) .nil) .nil)))
      [(.MINUS, .num ['3']),
        (.MINUS, .paren (.mk (.mk (.num ['4']) (.cons .times (.num ['5']) .nil)) .nil))]
      (Or.inl (by decide))).1 (by decide) (by decide)).2 45 (by decide)⟩

end CCompiler
